import Mathlib

/-!
# OIF (overlay image format) codec: embedding of `oif.c` / `oif.h`

The C code works on raw memory through typed cursors.  The embedding keeps that shape:

* memory the code only reads (`img_data` of the encoder, `compr_data` of the decoder) is a
  total function from a 32-bit word index, counted from the pointer passed in, to the word
  stored there; the words of the buffer proper are the indices below its size, the indices
  after it are whatever lies behind the buffer in memory;
* the destination of the decoder is byte-addressed memory (`img_data` is an
  `unsigned char *` and one of the record kinds computes a byte offset from it); a 32-bit
  store writes four bytes, least significant first, at any byte offset;
* the words the encoder stores through `*curr_code++` are collected record by record, in
  the order of the stores;
* `unsigned int` arithmetic is arithmetic on `Nat` with an explicit `% 2 ^ 32` wherever the
  C expression can wrap; pointers are offsets from the base pointer and do not wrap;
* source and destination of a call do not overlap.

Loops are structural recursions on a bound for the number of iterations; for each of them
a theorem below shows that the bound is never used up (`scan_stops`,
`compress_loop_final_i`, `oif_uncompress_returns`).
-/

namespace OIF

/-! ## Constants of `oif.h` -/

def OIF_MAGIC : Nat := 0x4F494620
def OIF_VERSION : Nat := 1
def OIF_SUBVERSION : Nat := 0

def OIF_UNCOMPR_TYPE : Nat := 0x10000000
def OIF_UNCOMPR_WSL_TYPE : Nat := 0x20000000
def OIF_RLE_TYPE : Nat := 0x30000000
def OIF_RLE_WSL_TYPE : Nat := 0x40000000
def OIF_EOI_TYPE : Nat := 0xF0000000

def OIF_ERR_UNKNWON_CODE : Int := -1
def OIF_ERR_SRC_OVERRUN : Int := -2
def OIF_ERR_DST_OVERRUN : Int := -3

/-- The `struct oif_header` of `oif.h`. -/
structure oif_header where
  magic : Nat
  version : Nat
  sub_version : Nat
  width : Nat
  height : Nat
  id : Int
  uncompressed : Int
  reserved : List Nat
  img_size : Nat
  deriving DecidableEq

/-- The function `oif_init_header`: every field but `uncompressed` and `img_size` is set. -/
def oif_init_header (header : oif_header) (width height : Nat) : oif_header :=
  { header with
    magic := OIF_MAGIC
    version := OIF_VERSION
    sub_version := OIF_SUBVERSION
    width := width
    height := height
    id := 0
    reserved := List.replicate 8 0 }

/-! ## Encoder -/

/-- One record as the encoder stores it: the control word, then the words that follow it.
`start` and `len` remember which pixels `[start, start + len)` of the input the record
stands for; they are not stored in the stream. -/
structure Record where
  code : Nat
  payload : List Nat
  start : Nat
  len : Nat
  deriving DecidableEq

/-- The words of a record in the order they are stored through `*curr_code++`. -/
def Record.words (r : Record) : List Nat := r.code :: r.payload

/-- The stored word sequence of a list of records. -/
def stream (rs : List Record) : List Nat := rs.flatMap Record.words

/-- The inner loop of `oif_compress`,
`while ((j < size) && (j - i < 32768) && (pixel_data[j] == pixel_data[i])) j++;`
with the number of iterations still allowed as first argument (it runs at most 32767
times, since `j` starts at `i + 1`). -/
def scan (pixel_data : Nat → Nat) (size i : Nat) : Nat → Nat → Nat
  | 0, j => j
  | fuel + 1, j =>
    if j < size ∧ j - i < 32768 ∧ pixel_data j = pixel_data i then
      scan pixel_data size i fuel (j + 1)
    else j

/-- The literal record stored before a run: control word `OIF_UNCOMPR_TYPE | (i - k)` and
`pixel_data[l]` for `l = k .. i - 1`. -/
def literal_before_run (pixel_data : Nat → Nat) (k i : Nat) : Record :=
  { code := OIF_UNCOMPR_TYPE ||| (i - k)
    payload := (List.range' k (i - k)).map (fun l => pixel_data l)
    start := k
    len := i - k }

/-- The literal record stored after the scan: control word `OIF_UNCOMPR_TYPE | (i - k)` and,
for `l = k .. i - 1`, the word `pixel_data[i]` (the source indexes with `i`, not `l`). -/
def literal_after_scan (pixel_data : Nat → Nat) (k i : Nat) : Record :=
  { code := OIF_UNCOMPR_TYPE ||| (i - k)
    payload := (List.range' k (i - k)).map (fun _ => pixel_data i)
    start := k
    len := i - k }

/-- The run record: control word `OIF_RLE_TYPE | (j - i)` and `pixel_data[i]`. -/
def run_record (pixel_data : Nat → Nat) (i j : Nat) : Record :=
  { code := OIF_RLE_TYPE ||| (j - i)
    payload := [pixel_data i]
    start := i
    len := j - i }

/-- The end-of-image record: the control word alone. -/
def eoi_record (i : Nat) : Record :=
  { code := OIF_EOI_TYPE, payload := [], start := i, len := 0 }

/-- The outer loop `while (i < size)` of `oif_compress`.  The first argument bounds the
number of iterations (every iteration advances `i`, so `size` of them are enough).  The
result is the records stored and the values of `i` and `k` when the loop is left. -/
def compress_loop (pixel_data : Nat → Nat) (size : Nat) :
    Nat → Nat → Nat → List Record × Nat × Nat
  | 0, i, k => ([], i, k)
  | fuel + 1, i, k =>
    if i < size then
      let j := scan pixel_data size i 32768 (i + 1)
      if j > (i + 2) % 2 ^ 32 then
        let r := compress_loop pixel_data size fuel j j
        ((if k < i then [literal_before_run pixel_data k i] else [])
          ++ run_record pixel_data i j :: r.1, r.2)
      else
        compress_loop pixel_data size fuel (i + 1) k
    else ([], i, k)

/-- The records `oif_compress` stores for the pixel memory `pixel_data` and
`size = width * height` (as an `unsigned int`). -/
def compress_records (pixel_data : Nat → Nat) (size : Nat) : List Record :=
  let r := compress_loop pixel_data size size 0 0
  r.1 ++ (if r.2.2 < r.2.1 then [literal_after_scan pixel_data r.2.2 r.2.1] else [])
    ++ [eoi_record r.2.1]

/-- The function `oif_compress`: the header with `img_size` set to the number of bytes
stored (as an `unsigned int`), and the records stored to `compr_data`. -/
def oif_compress (header : oif_header) (pixel_data : Nat → Nat) :
    oif_header × List Record :=
  let size := (header.width * header.height) % 2 ^ 32
  let rs := compress_records pixel_data size
  ({ header with img_size := (4 * (stream rs).length) % 2 ^ 32 }, rs)

/-! ## Decoder -/

/-- A 32-bit store to byte offset `b` of byte-addressed memory, least significant byte
first. -/
def store32 (img : Nat → Nat) (b v : Nat) : Nat → Nat :=
  fun a => if b ≤ a ∧ a < b + 4 then (v / 256 ^ (a - b)) % 256 else img a

/-- A 32-bit load from byte offset `b`. -/
def load32 (img : Nat → Nat) (b : Nat) : Nat :=
  img b + 256 * img (b + 1) + 65536 * img (b + 2) + 16777216 * img (b + 3)

/-- The first `n` pixels of a destination memory. -/
def pixels (img : Nat → Nat) (n : Nat) : List Nat :=
  (List.range n).map (fun p => load32 img (4 * p))

/-- The memory that holds the pixel words `ps` from offset 0 on, and zero bytes after. -/
def pixel_memory (ps : List Nat) : Nat → Nat :=
  fun a => (ps.getD (a / 4) 0 / 256 ^ (a % 4)) % 256

/-- The word memory that holds `ws` from index 0 on and `rest` behind it. -/
def word_memory (ws : List Nat) (rest : Nat → Nat) : Nat → Nat :=
  fun n => if n < ws.length then ws.getD n 0 else rest (n - ws.length)

/-- The state of `oif_uncompress`: the two cursors (`curr_code` as a word index into
`compr_data`, `curr_pixel` as a byte offset into `img_data`), the destination memory, and
the log of the accesses made so far, latest first: the word indices loaded from
`compr_data` and the byte offsets of the 32-bit stores to `img_data`. -/
structure DecState where
  curr_code : Nat
  curr_pixel : Nat
  img : Nat → Nat
  reads : List Nat
  writes : List Nat

/-- The loop `for (i = 0; i < count; i++) *curr_pixel++ = *curr_code++;`. -/
def copy_pixels (compr_data : Nat → Nat) : Nat → DecState → DecState
  | 0, st => st
  | count + 1, st =>
    copy_pixels compr_data count
      { curr_code := st.curr_code + 1
        curr_pixel := st.curr_pixel + 4
        img := store32 st.img st.curr_pixel (compr_data st.curr_code)
        reads := st.curr_code :: st.reads
        writes := st.curr_pixel :: st.writes }

/-- The loop `for (i = 0; i < count; i++) *curr_pixel++ = pixel_value;`. -/
def fill_pixels (pixel_value : Nat) : Nat → DecState → DecState
  | 0, st => st
  | count + 1, st =>
    fill_pixels pixel_value count
      { st with
        curr_pixel := st.curr_pixel + 4
        img := store32 st.img st.curr_pixel pixel_value
        writes := st.curr_pixel :: st.writes }

/-- What `oif_uncompress` hands back: the return value and the final state. -/
structure DecResult where
  ret : Int
  st : DecState

/-- The body of the `switch` of `oif_uncompress` for one control word `code` that is not
an end-of-image word: `some e` when the function returns `e` there, `none` at a `break`,
together with the state reached.  `max_pixel` is a byte offset into `img_data`, `max_code`
a word index into `compr_data`. -/
def decode_record (header : oif_header) (compr_data : Nat → Nat) (max_pixel max_code : Nat)
    (code : Nat) (st : DecState) : Option Int × DecState :=
  let count := code &&& 0x0000FFFF
  if code &&& 0xF0000000 = OIF_UNCOMPR_TYPE then
    if st.curr_pixel + 4 * count > max_pixel then (some OIF_ERR_DST_OVERRUN, st)
    else if st.curr_code + count > max_code then (some OIF_ERR_SRC_OVERRUN, st)
    else (none, copy_pixels compr_data count st)
  else if code &&& 0xF0000000 = OIF_UNCOMPR_WSL_TYPE then
    let line := (code >>> 16) &&& 0x00000FFF
    let st := { st with curr_pixel := (line * header.width) % 2 ^ 32 }
    if st.curr_pixel + 4 * count > max_pixel then (some OIF_ERR_DST_OVERRUN, st)
    else if st.curr_code + count > max_code then (some OIF_ERR_SRC_OVERRUN, st)
    else (none, copy_pixels compr_data count st)
  else if code &&& 0xF0000000 = OIF_RLE_TYPE then
    if st.curr_pixel + 4 * count > max_pixel then (some OIF_ERR_DST_OVERRUN, st)
    else
      let pixel_value := compr_data st.curr_code
      let st := { st with curr_code := st.curr_code + 1, reads := st.curr_code :: st.reads }
      if st.curr_code > max_code then (some OIF_ERR_SRC_OVERRUN, st)
      else (none, fill_pixels pixel_value count st)
  else if code &&& 0xF0000000 = OIF_RLE_WSL_TYPE then
    let line := (code >>> 16) &&& 0x00000FFF
    let st := { st with curr_pixel := 4 * ((line * header.width) % 2 ^ 32) }
    if st.curr_pixel + 4 * count > max_pixel then (some OIF_ERR_DST_OVERRUN, st)
    else
      let pixel_value := compr_data st.curr_code
      let st := { st with curr_code := st.curr_code + 1, reads := st.curr_code :: st.reads }
      if st.curr_code > max_code then (some OIF_ERR_SRC_OVERRUN, st)
      else (none, fill_pixels pixel_value count st)
  else (some OIF_ERR_UNKNWON_CODE, st)

/-- The loop `while ((code & 0xF0000000) != OIF_EOI_TYPE)` of `oif_uncompress`, entered with
the control word `code` already loaded.  The first argument bounds the number of times the
loop condition is evaluated; `none` means the bound was used up. -/
def uncompress_loop (header : oif_header) (compr_data : Nat → Nat) (max_pixel max_code : Nat) :
    Nat → Nat → DecState → Option DecResult
  | 0, _, _ => none
  | fuel + 1, code, st =>
    if code &&& 0xF0000000 ≠ OIF_EOI_TYPE then
      match decode_record header compr_data max_pixel max_code code st with
      | (some e, st1) => some ⟨e, st1⟩
      | (none, st1) =>
        let code1 := compr_data st1.curr_code
        let st2 := { st1 with
          curr_code := st1.curr_code + 1, reads := st1.curr_code :: st1.reads }
        if st2.curr_code > max_code then some ⟨OIF_ERR_SRC_OVERRUN, st2⟩
        else uncompress_loop header compr_data max_pixel max_code fuel code1 st2
    else some ⟨0, st⟩

/-- The function `oif_uncompress` on the source memory `compr_data` and the destination
memory `img_data`.  `max_pixel` is `width * height` pixels, `max_code` is
`(unsigned int *) compr_data + header->img_size`, that is `img_size` words.  The loop
condition is evaluated at most `img_size + 1` times, because every pass moves `curr_code`
forward and is left once `curr_code` exceeds `max_code`. -/
def oif_uncompress (header : oif_header) (compr_data : Nat → Nat) (img_data : Nat → Nat) :
    Option DecResult :=
  let max_pixel := 4 * ((header.width * header.height) % 2 ^ 32)
  let max_code := header.img_size
  let code := compr_data 0
  uncompress_loop header compr_data max_pixel max_code (header.img_size + 1) code
    { curr_code := 1, curr_pixel := 0, img := img_data, reads := [0], writes := [] }

/-! ## Fields of a control word (`oif.h`: bit 31-28 compression type, bit 27-16 line number,
bit 15-0 number of pixels) -/

/-- Bits 31-28 of a control word: the compression type. -/
def code_type (code : Nat) : Nat := (code >>> 28) &&& 0xF

/-- Bits 15-0 of a control word: the number of pixels. -/
def code_count (code : Nat) : Nat := code &&& 0x0000FFFF

/-! ## Reference notions used to state the decoder claims -/

/-- The 32-bit stores of the words `vs` to the byte offsets `b`, `b + 4`, ... of `img`, in
this order. -/
def write_words : List Nat → (Nat → Nat) → Nat → Nat → Nat
  | [], img, _ => img
  | v :: vs, img, b => write_words vs (store32 img b v) (b + 4)

/-- A data record of a well-formed stream as the format describes it (`oif.h`): a literal
record with the pixel words that follow its control word, or a run record with its count
and its pixel value. -/
inductive DataRecord where
  | literal (payload : List Nat)
  | run (count value : Nat)
  deriving DecidableEq

/-- The number of pixels of a data record. -/
def DataRecord.count : DataRecord → Nat
  | .literal payload => payload.length
  | .run count _ => count

/-- The words of a data record in the stream: the control word, type in bits 31-28 and
count in bits 15-0, then the pixel words. -/
def DataRecord.serialise : DataRecord → List Nat
  | .literal payload => (OIF_UNCOMPR_TYPE ||| payload.length) :: payload
  | .run count value => [OIF_RLE_TYPE ||| count, value]

/-- The pixels a data record stands for: a literal its pixel words, a run `count` copies of
its value. -/
def DataRecord.expand : DataRecord → List Nat
  | .literal payload => payload
  | .run count value => List.replicate count value

/-- The stream of a list of data records: their words, then the end-of-image word. -/
def serialise_records (rs : List DataRecord) : List Nat :=
  rs.flatMap DataRecord.serialise ++ [OIF_EOI_TYPE]

/-- The pixels a list of data records stands for. -/
def expand_records (rs : List DataRecord) : List Nat :=
  rs.flatMap DataRecord.expand

/-- The control word and the state at the head of the decoder loop after `k` passes that
went through: the control word was no end-of-image word, the `switch` reached its `break`
and the check after loading the next control word passed.  `none` when one of the first
`k` passes left the function. -/
def after_passes (header : oif_header) (compr_data : Nat → Nat) (max_pixel max_code : Nat) :
    Nat → Nat → DecState → Option (Nat × DecState)
  | 0, code, st => some (code, st)
  | k + 1, code, st =>
    if code &&& 0xF0000000 ≠ OIF_EOI_TYPE then
      match decode_record header compr_data max_pixel max_code code st with
      | (some _, _) => none
      | (none, st1) =>
        let code1 := compr_data st1.curr_code
        let st2 := { st1 with
          curr_code := st1.curr_code + 1, reads := st1.curr_code :: st1.reads }
        if st2.curr_code > max_code then none
        else after_passes header compr_data max_pixel max_code k code1 st2
    else none

/-- The word indices at which a reader of the stream `ws` finds control words, moving as
`curr_code` moves in `oif_uncompress` (the bounds and the destination left out): the
control word at index `p` is followed by `count` pixel words when its type is one of the
two literal types and by one pixel word when it is one of the two run types, and the next
control word comes after them; the walk ends at an end-of-image word, at a word of no
known type, and behind the stream.  The first argument bounds the number of control
words; every step moves forward, so the length of the stream is enough. -/
def control_word_indices (ws : List Nat) : Nat → Nat → List Nat
  | 0, _ => []
  | fuel + 1, p =>
    if p < ws.length then
      let code := ws.getD p 0
      let count := code &&& 0x0000FFFF
      if code &&& 0xF0000000 = OIF_EOI_TYPE then [p]
      else if code &&& 0xF0000000 = OIF_UNCOMPR_TYPE ∨
          code &&& 0xF0000000 = OIF_UNCOMPR_WSL_TYPE then
        p :: control_word_indices ws fuel (p + 1 + count)
      else if code &&& 0xF0000000 = OIF_RLE_TYPE ∨
          code &&& 0xF0000000 = OIF_RLE_WSL_TYPE then
        p :: control_word_indices ws fuel (p + 2)
      else [p]
    else []

/-! ## Inputs used in the examples -/

/-- The header `oif_init_header` produces from a zeroed `struct oif_header`. -/
def header_of (width height : Nat) : oif_header :=
  oif_init_header ⟨0, 0, 0, 0, 0, 0, 0, [], 0⟩ width height

/-- Memory that is zero everywhere. -/
def zero_memory : Nat → Nat := fun _ => 0

/-! ## Theorems -/

/-! ### Control words -/

theorem and_type_mask (code : Nat) : code &&& 0xF0000000 = code_type code <<< 28 := by
  unfold code_type
  apply Nat.eq_of_testBit_eq
  intro i
  have h1 : (0xF0000000 : Nat) = (2 ^ 4 - 1) <<< 28 := by decide
  have h2 : (0xF : Nat) = 2 ^ 4 - 1 := by decide
  rw [h1, h2]
  simp only [Nat.testBit_and, Nat.testBit_shiftLeft, Nat.testBit_shiftRight,
    Nat.testBit_two_pow_sub_one]
  by_cases h : 28 ≤ i
  · have : 28 + (i - 28) = i := by omega
    simp [h, this, Bool.and_comm]
  · simp [h]

theorem code_type_lt (code : Nat) : code_type code < 16 := by
  unfold code_type
  have h2 : (0xF : Nat) = 2 ^ 4 - 1 := by decide
  rw [h2, Nat.and_pow_two_sub_one_eq_mod]
  exact Nat.mod_lt _ (by decide)

/-! ### Decoder: cursors, stores, termination -/

theorem copy_pixels_curr_code (compr_data : Nat → Nat) :
    ∀ (count : Nat) (st : DecState),
      (copy_pixels compr_data count st).curr_code = st.curr_code + count := by
  intro count
  induction count with
  | zero => intro st; rfl
  | succ n ih => intro st; simp only [copy_pixels, ih]; omega

theorem fill_pixels_curr_code (v : Nat) :
    ∀ (count : Nat) (st : DecState), (fill_pixels v count st).curr_code = st.curr_code := by
  intro count
  induction count with
  | zero => intro st; rfl
  | succ n ih => intro st; simp only [fill_pixels, ih]

theorem copy_pixels_writes (compr_data : Nat → Nat) :
    ∀ (count : Nat) (st : DecState) (b : Nat), b ∈ (copy_pixels compr_data count st).writes →
      b ∈ st.writes ∨ (st.curr_pixel ≤ b ∧ b + 4 ≤ st.curr_pixel + 4 * count) := by
  intro count
  induction count with
  | zero => intro st b hb; exact Or.inl hb
  | succ n ih =>
    intro st b hb
    simp only [copy_pixels] at hb
    rcases ih _ b hb with h | h
    · simp only [List.mem_cons] at h
      rcases h with h | h
      · right; omega
      · exact Or.inl h
    · right; simp only at h; omega

theorem fill_pixels_writes (v : Nat) :
    ∀ (count : Nat) (st : DecState) (b : Nat), b ∈ (fill_pixels v count st).writes →
      b ∈ st.writes ∨ (st.curr_pixel ≤ b ∧ b + 4 ≤ st.curr_pixel + 4 * count) := by
  intro count
  induction count with
  | zero => intro st b hb; exact Or.inl hb
  | succ n ih =>
    intro st b hb
    simp only [fill_pixels] at hb
    rcases ih _ b hb with h | h
    · simp only [List.mem_cons] at h
      rcases h with h | h
      · right; omega
      · exact Or.inl h
    · right; simp only at h; omega

theorem decode_record_writes (header : oif_header) (compr_data : Nat → Nat)
    (max_pixel max_code code : Nat) (st : DecState) (b : Nat)
    (hb : b ∈ (decode_record header compr_data max_pixel max_code code st).2.writes) :
    b ∈ st.writes ∨ b + 4 ≤ max_pixel := by
  unfold decode_record at hb
  simp only at hb
  split_ifs at hb with h1 h2 h3 h4 h5 h6 h7 h8 h9 h10 h11 h12
  · exact Or.inl hb
  · exact Or.inl hb
  · rcases copy_pixels_writes _ _ _ _ hb with h | h
    · exact Or.inl h
    · right; omega
  · exact Or.inl hb
  · exact Or.inl hb
  · rcases copy_pixels_writes _ _ _ _ hb with h | h
    · exact Or.inl h
    · right; simp only at h; omega
  · exact Or.inl hb
  · exact Or.inl hb
  · rcases fill_pixels_writes _ _ _ _ hb with h | h
    · exact Or.inl h
    · right; simp only at h; omega
  · exact Or.inl hb
  · exact Or.inl hb
  · rcases fill_pixels_writes _ _ _ _ hb with h | h
    · exact Or.inl h
    · right; simp only at h; omega
  · exact Or.inl hb

theorem decode_record_curr_code (header : oif_header) (compr_data : Nat → Nat)
    (max_pixel max_code code : Nat) (st : DecState) :
    st.curr_code ≤ (decode_record header compr_data max_pixel max_code code st).2.curr_code := by
  unfold decode_record
  simp only
  split_ifs <;> simp [copy_pixels_curr_code, fill_pixels_curr_code]

theorem uncompress_loop_writes (header : oif_header) (compr_data : Nat → Nat)
    (max_pixel max_code : Nat) :
    ∀ (fuel code : Nat) (st : DecState) (r : DecResult),
      (∀ b ∈ st.writes, b + 4 ≤ max_pixel) →
      uncompress_loop header compr_data max_pixel max_code fuel code st = some r →
      ∀ b ∈ r.st.writes, b + 4 ≤ max_pixel := by
  intro fuel
  induction fuel with
  | zero => intro code st r _ h; simp [uncompress_loop] at h
  | succ n ih =>
    intro code st r hst h
    rw [uncompress_loop] at h
    split_ifs at h with hc
    · have hw := decode_record_writes header compr_data max_pixel max_code code st
      split at h
      next e st1 heq =>
        rw [heq] at hw
        simp only [Option.some.injEq] at h
        subst h
        intro b hb
        rcases hw b hb with h' | h'
        · exact hst b h'
        · exact h'
      next st1 heq =>
        rw [heq] at hw
        have hst1 : ∀ b ∈ st1.writes, b + 4 ≤ max_pixel := by
          intro b hb
          rcases hw b hb with h' | h'
          · exact hst b h'
          · exact h'
        dsimp only at h
        split_ifs at h with h2
        · simp only [Option.some.injEq] at h
          subst h
          exact hst1
        · exact ih _ _ r (by simpa using hst1) h
    · simp only [Option.some.injEq] at h
      subst h
      exact hst

theorem uncompress_loop_returns (header : oif_header) (compr_data : Nat → Nat)
    (max_pixel max_code : Nat) :
    ∀ (fuel code : Nat) (st : DecState), 1 ≤ fuel → max_code + 2 ≤ fuel + st.curr_code →
      ∃ r, uncompress_loop header compr_data max_pixel max_code fuel code st = some r := by
  intro fuel
  induction fuel with
  | zero => intro code st h; omega
  | succ n ih =>
    intro code st _ hm
    rw [uncompress_loop]
    split_ifs with hc
    · have hcc := decode_record_curr_code header compr_data max_pixel max_code code st
      split
      next e st1 heq => exact ⟨_, rfl⟩
      next st1 heq =>
        rw [heq] at hcc
        simp only at hcc
        dsimp only
        split_ifs with h2
        · exact ⟨_, rfl⟩
        · apply ih
          · omega
          · simp only; omega
    · exact ⟨_, rfl⟩

theorem oif_uncompress_returns (header : oif_header) (compr_data img_data : Nat → Nat) :
    ∃ r, oif_uncompress header compr_data img_data = some r := by
  unfold oif_uncompress
  apply uncompress_loop_returns
  · omega
  · simp only; omega


/-! ### The inner loop of the encoder -/

theorem scan_eq (pixel_data : Nat → Nat) (size i : Nat) :
    ∀ (fuel j m : Nat), j ≤ m → m - j ≤ fuel →
      (∀ l, j ≤ l → l < m → l < size ∧ l - i < 32768 ∧ pixel_data l = pixel_data i) →
      ¬ (m < size ∧ m - i < 32768 ∧ pixel_data m = pixel_data i) →
      scan pixel_data size i fuel j = m := by
  intro fuel
  induction fuel with
  | zero =>
    intro j m hjm hf _ _
    have : j = m := by omega
    simp [scan, this]
  | succ n ih =>
    intro j m hjm hf hall hstop
    rw [scan]
    by_cases hj : j = m
    · subst hj
      rw [if_neg hstop]
    · have hlt : j < m := by omega
      rw [if_pos (hall j (Nat.le_refl j) hlt)]
      exact ih (j + 1) m (by omega) (by omega)
        (fun l h1 h2 => hall l (by omega) h2) hstop

theorem scan_ge (pixel_data : Nat → Nat) (size i : Nat) :
    ∀ (fuel j : Nat), j ≤ scan pixel_data size i fuel j := by
  intro fuel
  induction fuel with
  | zero => intro j; simp [scan]
  | succ n ih =>
    intro j
    rw [scan]
    split_ifs
    · exact Nat.le_trans (Nat.le_succ j) (ih (j + 1))
    · exact Nat.le_refl j

theorem scan_le_size (pixel_data : Nat → Nat) (size i : Nat) :
    ∀ (fuel j : Nat), j ≤ size → scan pixel_data size i fuel j ≤ size := by
  intro fuel
  induction fuel with
  | zero => intro j h; simpa [scan] using h
  | succ n ih =>
    intro j h
    rw [scan]
    split_ifs with hc
    · exact ih (j + 1) hc.1
    · exact h

theorem scan_sub_le (pixel_data : Nat → Nat) (size i : Nat) :
    ∀ (fuel j : Nat), j - i ≤ 32768 → i ≤ j →
      scan pixel_data size i fuel j - i ≤ 32768 := by
  intro fuel
  induction fuel with
  | zero => intro j h _; simpa [scan] using h
  | succ n ih =>
    intro j h hij
    rw [scan]
    split_ifs with hc
    · exact ih (j + 1) (by omega) (by omega)
    · exact h

theorem scan_le_of_stop (pixel_data : Nat → Nat) (size i : Nat) :
    ∀ (fuel j m : Nat), j ≤ m →
      ¬ (m < size ∧ m - i < 32768 ∧ pixel_data m = pixel_data i) →
      scan pixel_data size i fuel j ≤ m := by
  intro fuel
  induction fuel with
  | zero => intro j m h _; simpa [scan] using h
  | succ n ih =>
    intro j m h hstop
    rw [scan]
    split_ifs with hc
    · by_cases hj : j = m
      · subst hj; exact absurd hc hstop
      · exact ih (j + 1) m (by omega) hstop
    · exact h

/-- The bound 32768 of the inner loop is never used up: the value returned is one at which
the loop condition is false. -/
theorem scan_stops (pixel_data : Nat → Nat) (size i : Nat) :
    ∀ (fuel j : Nat), i < j → 32769 ≤ fuel + (j - i) →
      ¬ (scan pixel_data size i fuel j < size ∧ scan pixel_data size i fuel j - i < 32768 ∧
        pixel_data (scan pixel_data size i fuel j) = pixel_data i) := by
  intro fuel
  induction fuel with
  | zero =>
    intro j hij hf
    simp only [scan]
    omega
  | succ n ih =>
    intro j hij hf
    rw [scan]
    split_ifs with hc
    · exact ih (j + 1) (by omega) (by omega)
    · exact hc

/-! ### The outer loop of the encoder -/

theorem compress_loop_done (pixel_data : Nat → Nat) (size fuel i k : Nat) (h : ¬ i < size) :
    compress_loop pixel_data size fuel i k = ([], i, k) := by
  cases fuel with
  | zero => rfl
  | succ n => rw [compress_loop, if_neg h]

theorem compress_loop_skip (pixel_data : Nat → Nat) (size fuel i k : Nat) (h : i < size)
    (hj : ¬ scan pixel_data size i 32768 (i + 1) > (i + 2) % 2 ^ 32) :
    compress_loop pixel_data size (fuel + 1) i k =
      compress_loop pixel_data size fuel (i + 1) k := by
  rw [compress_loop, if_pos h]
  simp only [if_neg hj]

theorem compress_loop_run (pixel_data : Nat → Nat) (size fuel i k j : Nat) (h : i < size)
    (hs : scan pixel_data size i 32768 (i + 1) = j) (hj : j > (i + 2) % 2 ^ 32) :
    compress_loop pixel_data size (fuel + 1) i k =
      ((if k < i then [literal_before_run pixel_data k i] else [])
        ++ run_record pixel_data i j :: (compress_loop pixel_data size fuel j j).1,
       (compress_loop pixel_data size fuel j j).2) := by
  rw [compress_loop, if_pos h]
  simp only [hs, if_pos hj]

/-- When no position in `[i, size)` starts a run, the loop stores nothing. -/
theorem compress_loop_no_run (pixel_data : Nat → Nat) (size : Nat) :
    ∀ (fuel i k : Nat), size - i ≤ fuel →
      (∀ t, i ≤ t → t < size →
        ¬ scan pixel_data size t 32768 (t + 1) > (t + 2) % 2 ^ 32) →
      compress_loop pixel_data size fuel i k = ([], max i size, k) := by
  intro fuel
  induction fuel with
  | zero =>
    intro i k h _
    have : max i size = i := by omega
    simp [compress_loop, this]
  | succ n ih =>
    intro i k h hno
    by_cases hi : i < size
    · rw [compress_loop_skip _ _ _ _ _ hi (hno i (Nat.le_refl i) hi)]
      rw [ih (i + 1) k (by omega) (fun t h1 h2 => hno t (by omega) h2)]
      have : max (i + 1) size = max i size := by omega
      rw [this]
    · rw [compress_loop_done _ _ _ _ _ hi]
      have : max i size = i := by omega
      rw [this]

/-! ### Control words stored by the encoder -/

theorem code_type_eq (code : Nat) : code_type code = code / 2 ^ 28 % 16 := by
  unfold code_type
  have h2 : (0xF : Nat) = 2 ^ 4 - 1 := by decide
  rw [h2, Nat.and_pow_two_sub_one_eq_mod, Nat.shiftRight_eq_div_pow]

theorem code_count_eq (code : Nat) : code_count code = code % 2 ^ 16 := by
  unfold code_count
  have h2 : (0xFFFF : Nat) = 2 ^ 16 - 1 := by decide
  rw [h2, Nat.and_pow_two_sub_one_eq_mod]

theorem uncompr_or (m : Nat) (h : m < 2 ^ 28) : OIF_UNCOMPR_TYPE ||| m = 0x10000000 + m := by
  have := Nat.mul_add_lt_is_or h 1
  norm_num at this
  unfold OIF_UNCOMPR_TYPE
  omega

theorem rle_or (m : Nat) (h : m < 2 ^ 28) : OIF_RLE_TYPE ||| m = 0x30000000 + m := by
  have := Nat.mul_add_lt_is_or h 3
  norm_num at this
  unfold OIF_RLE_TYPE
  omega

theorem code_type_uncompr (m : Nat) (h : m < 2 ^ 28) :
    code_type (OIF_UNCOMPR_TYPE ||| m) = 1 := by
  rw [uncompr_or m h, code_type_eq]; omega

theorem code_count_uncompr (m : Nat) (h : m < 2 ^ 16) :
    code_count (OIF_UNCOMPR_TYPE ||| m) = m := by
  rw [uncompr_or m (by omega), code_count_eq]; omega

theorem code_type_rle (m : Nat) (h : m < 2 ^ 28) : code_type (OIF_RLE_TYPE ||| m) = 3 := by
  rw [rle_or m h, code_type_eq]; omega

theorem code_count_rle (m : Nat) (h : m < 2 ^ 16) : code_count (OIF_RLE_TYPE ||| m) = m := by
  rw [rle_or m (by omega), code_count_eq]; omega

theorem code_type_eoi : code_type OIF_EOI_TYPE = 15 := by decide

theorem code_count_eoi : code_count OIF_EOI_TYPE = 0 := by decide

theorem literal_after_scan_payload (pixel_data : Nat → Nat) (k i : Nat) :
    (literal_after_scan pixel_data k i).payload = List.replicate (i - k) (pixel_data i) := by
  simp only [literal_after_scan, List.map_const', List.length_range']


/-! ### Records stored by the encoder -/

theorem compress_loop_final_i (pixel_data : Nat → Nat) (size : Nat) :
    ∀ (fuel i k : Nat), i ≤ size → size - i ≤ fuel →
      (compress_loop pixel_data size fuel i k).2.1 = size := by
  intro fuel
  induction fuel with
  | zero =>
    intro i k h1 h2
    simp only [compress_loop]
    omega
  | succ f ih =>
    intro i k h1 h2
    by_cases hi : i < size
    · have hle := scan_le_size pixel_data size i 32768 (i + 1) (by omega)
      have hge := scan_ge pixel_data size i 32768 (i + 1)
      by_cases hj : scan pixel_data size i 32768 (i + 1) > (i + 2) % 2 ^ 32
      · rw [compress_loop_run pixel_data size f i k _ hi rfl hj]
        exact ih _ _ hle (by omega)
      · rw [compress_loop_skip pixel_data size f i k hi hj]
        exact ih _ _ (by omega) (by omega)
    · rw [compress_loop_done _ _ _ _ _ hi]
      simp only
      omega

/-- Every record the loop stores is a literal whose control word carries the number of
words that follow it, or a run of at most 32768 pixels followed by one word. -/
theorem compress_loop_records (pixel_data : Nat → Nat) (size : Nat) :
    ∀ (fuel i k : Nat), ∀ x ∈ (compress_loop pixel_data size fuel i k).1,
      (x.code = OIF_UNCOMPR_TYPE ||| x.len ∧ x.payload.length = x.len) ∨
      (x.code = OIF_RLE_TYPE ||| x.len ∧ x.len ≤ 32768 ∧ x.payload.length = 1) := by
  intro fuel
  induction fuel with
  | zero => intro i k x hx; simp [compress_loop] at hx
  | succ f ih =>
    intro i k x hx
    by_cases hi : i < size
    · by_cases hj : scan pixel_data size i 32768 (i + 1) > (i + 2) % 2 ^ 32
      · rw [compress_loop_run pixel_data size f i k _ hi rfl hj] at hx
        simp only [List.mem_append, List.mem_cons] at hx
        rcases hx with hx | hx | hx
        · split_ifs at hx with hk
          · simp only [List.mem_singleton] at hx
            subst hx
            left
            simp only [literal_before_run, List.length_map, List.length_range', and_self]
          · simp at hx
        · subst hx
          right
          have := scan_sub_le pixel_data size i 32768 (i + 1) (by omega) (by omega)
          simp only [run_record, List.length_singleton, true_and, and_true]
          exact this
        · exact ih _ _ x hx
      · rw [compress_loop_skip pixel_data size f i k hi hj] at hx
        exact ih _ _ x hx
    · rw [compress_loop_done _ _ _ _ _ hi] at hx
      simp at hx

theorem stream_append (xs ys : List Record) : stream (xs ++ ys) = stream xs ++ stream ys := by
  simp only [stream, List.flatMap_append]

theorem payload_lt_stream (rs : List Record) (x : Record) (hx : x ∈ rs) :
    x.payload.length < (stream rs).length := by
  induction rs with
  | nil => simp at hx
  | cons r rs ih =>
    simp only [stream, List.flatMap_cons, List.length_append, Record.words, List.length_cons]
    simp only [List.mem_cons] at hx
    rcases hx with hx | hx
    · subst hx; omega
    · have := ih hx
      simp only [stream] at this
      omega

theorem code_type_ne_eoi (code : Nat) (h : code < 2 ^ 31) : code_type code ≠ 15 := by
  rw [code_type_eq]
  have : code / 2 ^ 28 < 8 := by
    apply Nat.div_lt_of_lt_mul
    omega
  omega


/-- A buffer without two equal neighbours is stored as one literal record followed by the
word that ends the image. -/
theorem compress_records_of_no_equal_neighbours (pixel_data : Nat → Nat) (size : Nat)
    (hpos : 0 < size) (hlt : size + 1 < 2 ^ 32)
    (hne : ∀ t, t + 1 < size → pixel_data (t + 1) ≠ pixel_data t) :
    compress_records pixel_data size =
      [literal_after_scan pixel_data 0 size, eoi_record size] := by
  have hloop : compress_loop pixel_data size size 0 0 = ([], size, 0) := by
    have := compress_loop_no_run pixel_data size size 0 0 (by omega) (by
      intro t _ ht
      rw [Nat.mod_eq_of_lt (by omega)]
      have : scan pixel_data size t 32768 (t + 1) ≤ t + 1 := by
        apply scan_le_of_stop _ _ _ _ _ _ (Nat.le_refl _)
        rintro ⟨h1, -, h3⟩
        exact hne t h1 h3
      omega)
    rw [this]
    have : max 0 size = size := by omega
    rw [this]
  unfold compress_records
  simp only [hloop]
  rw [if_pos hpos]
  rfl

theorem oif_compress_img_size (header : oif_header) (pixel_data : Nat → Nat) :
    (oif_compress header pixel_data).1.img_size =
      (4 * (stream (oif_compress header pixel_data).2).length) % 2 ^ 32 := rfl

theorem stream_single_literal_length (pixel_data : Nat → Nat) (size : Nat) :
    (stream [literal_after_scan pixel_data 0 size, eoi_record size]).length = size + 2 := by
  simp only [stream, List.flatMap_cons, List.flatMap_nil,
      Record.words, literal_after_scan, eoi_record, List.length_append, List.length_cons,
      List.length_map, List.length_range', List.length_nil]
  omega

theorem oif_compress_records (header : oif_header) (pixel_data : Nat → Nat) :
    (oif_compress header pixel_data).2 =
      compress_records pixel_data ((header.width * header.height) % 2 ^ 32) := rfl

theorem uniform_scan (pixel_data : Nat → Nat) (X n i : Nat)
    (hX : ∀ l, l < n → pixel_data l = X)
    (hi : i < n) : scan pixel_data n i 32768 (i + 1) = min n (i + 32768) := by
  apply scan_eq
  · omega
  · omega
  · intro l h1 h2
    exact ⟨by omega, by omega, by rw [hX l (by omega), hX i hi]⟩
  · rintro ⟨h1, h2, -⟩
    omega

/-- What the loop stores for a buffer of `n` equal pixels. -/
theorem uniform_loop (pixel_data : Nat → Nat) (X n : Nat)
    (hX : ∀ l, l < n → pixel_data l = X) :
    ∀ (fuel i k : Nat), k ≤ i → i ≤ n → (k = i ∨ n - k ≤ 2) → n - i ≤ fuel →
      (compress_loop pixel_data n fuel i k).2.1 = n ∧
      (compress_loop pixel_data n fuel i k).2.2 ≤ n ∧
      n - (compress_loop pixel_data n fuel i k).2.2 ≤ 2 ∧
      (∀ x ∈ (compress_loop pixel_data n fuel i k).1,
        (x.code = OIF_RLE_TYPE ||| x.len ∧ x.len ≤ 32768) ∨
        (x.code = OIF_UNCOMPR_TYPE ||| x.len ∧ x.len ≤ 2)) ∧
      (((compress_loop pixel_data n fuel i k).1.map (fun x => x.len)).sum + k =
        (compress_loop pixel_data n fuel i k).2.2) := by
  intro fuel
  induction fuel with
  | zero =>
    intro i k hki hin hk hf
    have : i = n := by omega
    subst this
    simp only [compress_loop, List.not_mem_nil, false_implies, implies_true, List.map_nil,
      List.sum_nil, Nat.zero_add, true_and, and_true]
    omega
  | succ f ih =>
    intro i k hki hin hk hf
    by_cases hi : i < n
    · have hs := uniform_scan pixel_data X n i hX hi
      by_cases hj : scan pixel_data n i 32768 (i + 1) > (i + 2) % 2 ^ 32
      · rw [compress_loop_run pixel_data n f i k _ hi rfl hj]
        rw [hs] at hj ⊢
        obtain ⟨h1, h2, h3, h4, h5⟩ :=
          ih (min n (i + 32768)) (min n (i + 32768)) (Nat.le_refl _) (by omega)
            (Or.inl rfl) (by omega)
        refine ⟨h1, h2, h3, ?_, ?_⟩
        · intro x hx
          simp only [List.mem_append, List.mem_cons] at hx
          rcases hx with hx | hx | hx
          · split_ifs at hx with hk2
            · simp only [List.mem_singleton] at hx
              subst hx
              right
              simp only [literal_before_run, true_and]
              omega
            · simp at hx
          · subst hx
            left
            simp only [run_record, true_and]
            omega
          · exact h4 x hx
        · simp only [List.map_append, List.map_cons, List.sum_append, List.sum_cons]
          split_ifs with hk2
          · simp only [List.map_cons, List.map_nil, List.sum_cons, List.sum_nil,
              literal_before_run, run_record]
            omega
          · simp only [List.map_nil, List.sum_nil, run_record]
            omega
      · rw [compress_loop_skip pixel_data n f i k hi hj]
        rw [hs] at hj
        have hm : (i + 2) % 2 ^ 32 ≤ i + 2 := Nat.mod_le _ _
        exact ih (i + 1) k (by omega) (by omega) (by omega) (by omega)
    · have : i = n := by omega
      subst this
      rw [compress_loop_done _ _ _ _ _ hi]
      simp only [List.not_mem_nil, false_implies, implies_true, List.map_nil,
        List.sum_nil, Nat.zero_add, true_and, and_true]
      omega


/-! ### Stores of the decoder leave the rest of the memory alone -/

theorem store32_of_outside (img : Nat → Nat) (b v a : Nat) (h : a < b ∨ b + 4 ≤ a) :
    store32 img b v a = img a := by
  unfold store32
  rw [if_neg (by omega)]

theorem copy_pixels_img (compr_data : Nat → Nat) :
    ∀ (count : Nat) (st : DecState) (a : Nat),
      (a < st.curr_pixel ∨ st.curr_pixel + 4 * count ≤ a) →
      (copy_pixels compr_data count st).img a = st.img a := by
  intro count
  induction count with
  | zero => intro st a _; rfl
  | succ n ih =>
    intro st a h
    simp only [copy_pixels]
    rw [ih _ a (by simp only; omega)]
    exact store32_of_outside _ _ _ _ (by omega)

theorem fill_pixels_img (v : Nat) :
    ∀ (count : Nat) (st : DecState) (a : Nat),
      (a < st.curr_pixel ∨ st.curr_pixel + 4 * count ≤ a) →
      (fill_pixels v count st).img a = st.img a := by
  intro count
  induction count with
  | zero => intro st a _; rfl
  | succ n ih =>
    intro st a h
    simp only [fill_pixels]
    rw [ih _ a (by simp only; omega)]
    exact store32_of_outside _ _ _ _ (by omega)

theorem decode_record_img (header : oif_header) (compr_data : Nat → Nat)
    (max_pixel max_code code : Nat) (st : DecState) (a : Nat) (ha : max_pixel ≤ a) :
    (decode_record header compr_data max_pixel max_code code st).2.img a = st.img a := by
  unfold decode_record
  simp only
  split_ifs
  all_goals first
    | rfl
    | exact copy_pixels_img _ _ _ _ (by omega)
    | exact fill_pixels_img _ _ _ _ (by omega)
    | exact copy_pixels_img _ _ _ _ (by simp only; omega)
    | exact fill_pixels_img _ _ _ _ (by simp only; omega)

theorem uncompress_loop_img (header : oif_header) (compr_data : Nat → Nat)
    (max_pixel max_code : Nat) :
    ∀ (fuel code : Nat) (st : DecState) (r : DecResult),
      uncompress_loop header compr_data max_pixel max_code fuel code st = some r →
      ∀ a, max_pixel ≤ a → r.st.img a = st.img a := by
  intro fuel
  induction fuel with
  | zero => intro code st r h; simp [uncompress_loop] at h
  | succ n ih =>
    intro code st r h a ha
    rw [uncompress_loop] at h
    split_ifs at h with hc
    · have hw := decode_record_img header compr_data max_pixel max_code code st a ha
      split at h
      next e st1 heq =>
        rw [heq] at hw
        simp only [Option.some.injEq] at h
        subst h
        exact hw
      next st1 heq =>
        rw [heq] at hw
        dsimp only at h
        split_ifs at h with h2
        · simp only [Option.some.injEq] at h
          subst h
          exact hw
        · rw [ih _ _ r h a ha]
          exact hw
    · simp only [Option.some.injEq] at h
      subst h
      rfl

/-! ### Loads and stores; two small streams -/

theorem load32_store32 (img : Nat → Nat) (b v : Nat) :
    load32 (store32 img b v) b = v % 2 ^ 32 := by
  unfold load32 store32
  have e1 : b + 1 - b = 1 := by omega
  have e2 : b + 2 - b = 2 := by omega
  have e3 : b + 3 - b = 3 := by omega
  simp [e1, e2, e3]
  omega

theorem load32_store32_of_disjoint (img : Nat → Nat) (b v c : Nat)
    (h : c + 4 ≤ b ∨ b + 4 ≤ c) :
    load32 (store32 img b v) c = load32 img c := by
  unfold load32 store32
  have h0 : ¬ (b ≤ c ∧ c < b + 4) := by omega
  have h1 : ¬ (b ≤ c + 1 ∧ c + 1 < b + 4) := by omega
  have h2 : ¬ (b ≤ c + 2 ∧ c + 2 < b + 4) := by omega
  have h3 : ¬ (b ≤ c + 3 ∧ c + 3 < b + 4) := by omega
  simp only [if_neg h0, if_neg h1, if_neg h2, if_neg h3]

/-- The stream of one literal record of three equal words `g`, decoded into a 3 x 1
image. -/
theorem decode_literal_three (g : Nat) (rest img_data : Nat → Nat) :
    (oif_uncompress { header_of 3 1 with img_size := 20 }
        (word_memory [0x10000003, g, g, g, 0xF0000000] rest) img_data).map
      (fun r => (r.ret, pixels r.st.img 3)) =
      some (0, [g % 2 ^ 32, g % 2 ^ 32, g % 2 ^ 32]) := by
  have e1 : 268435459 &&& 4026531840 = 268435456 := by decide
  have e2 : 268435459 &&& 65535 = 3 := by decide
  have e3 : 4026531840 &&& 4026531840 = 4026531840 := by decide
  have w0 : word_memory [268435459, g, g, g, 4026531840] rest 0 = 268435459 := by
    simp [word_memory]
  have w1 : word_memory [268435459, g, g, g, 4026531840] rest 1 = g := by
    simp [word_memory]
  have w2 : word_memory [268435459, g, g, g, 4026531840] rest 2 = g := by
    simp [word_memory]
  have w3 : word_memory [268435459, g, g, g, 4026531840] rest 3 = g := by
    simp [word_memory]
  have w4 : word_memory [268435459, g, g, g, 4026531840] rest 4 = 4026531840 := by
    simp [word_memory]
  unfold oif_uncompress
  simp only [w0, header_of, oif_init_header]
  rw [uncompress_loop]
  simp only [e1, OIF_EOI_TYPE, decode_record, OIF_UNCOMPR_TYPE, e2]
  simp only [copy_pixels]
  simp
  rw [uncompress_loop]
  simp only [w1, w2, w3, w4, e3, OIF_EOI_TYPE]
  simp [pixels, List.range, List.range.loop, load32_store32, load32_store32_of_disjoint]

/-- The stream of one literal record of two equal words `g`, decoded into a 2 x 1 image. -/
theorem decode_literal_two (g : Nat) (rest img_data : Nat → Nat) :
    (oif_uncompress { header_of 2 1 with img_size := 16 }
        (word_memory [0x10000002, g, g, 0xF0000000] rest) img_data).map
      (fun r => (r.ret, pixels r.st.img 2)) = some (0, [g % 2 ^ 32, g % 2 ^ 32]) := by
  have e1 : 268435458 &&& 4026531840 = 268435456 := by decide
  have e2 : 268435458 &&& 65535 = 2 := by decide
  have e3 : 4026531840 &&& 4026531840 = 4026531840 := by decide
  have w0 : word_memory [268435458, g, g, 4026531840] rest 0 = 268435458 := by
    simp [word_memory]
  have w1 : word_memory [268435458, g, g, 4026531840] rest 1 = g := by
    simp [word_memory]
  have w2 : word_memory [268435458, g, g, 4026531840] rest 2 = g := by
    simp [word_memory]
  have w3 : word_memory [268435458, g, g, 4026531840] rest 3 = 4026531840 := by
    simp [word_memory]
  unfold oif_uncompress
  simp only [w0, header_of, oif_init_header]
  rw [uncompress_loop]
  simp only [e1, OIF_EOI_TYPE, decode_record, OIF_UNCOMPR_TYPE, e2]
  simp only [copy_pixels]
  simp
  rw [uncompress_loop]
  simp only [w1, w2, w3, e3, OIF_EOI_TYPE]
  simp [pixels, List.range, List.range.loop, load32_store32, load32_store32_of_disjoint]

/-- What `oif_compress` returns for the 3 x 1 image `[1, 2, 1]` with the word `g` behind
the pixel buffer. -/
theorem compress_three (g : Nat) :
    oif_compress (header_of 3 1) (word_memory [1, 2, 1] (fun _ => g)) =
      ({ header_of 3 1 with img_size := 20 },
        [literal_after_scan (word_memory [1, 2, 1] (fun _ => g)) 0 3, eoi_record 3]) := by
  have hsz : ((header_of 3 1).width * (header_of 3 1).height) % 2 ^ 32 = 3 := by decide
  have hrec := compress_records_of_no_equal_neighbours (word_memory [1, 2, 1] (fun _ => g)) 3
    (by omega) (by omega) (by
      intro t ht
      have : t = 0 ∨ t = 1 := by omega
      rcases this with h | h <;> subst h <;> simp [word_memory])
  unfold oif_compress
  simp only [hsz, hrec, stream_single_literal_length]
  rfl

/-- What `oif_compress` returns for the 2 x 1 image `[1, 2]` with the word `g` behind the
pixel buffer. -/
theorem compress_two (g : Nat) :
    oif_compress (header_of 2 1) (word_memory [1, 2] (fun _ => g)) =
      ({ header_of 2 1 with img_size := 16 },
        [literal_after_scan (word_memory [1, 2] (fun _ => g)) 0 2, eoi_record 2]) := by
  have hsz : ((header_of 2 1).width * (header_of 2 1).height) % 2 ^ 32 = 2 := by decide
  have hrec := compress_records_of_no_equal_neighbours (word_memory [1, 2] (fun _ => g)) 2
    (by omega) (by omega) (by
      intro t ht
      have : t = 0 := by omega
      subst this
      simp [word_memory])
  unfold oif_compress
  simp only [hsz, hrec, stream_single_literal_length]
  rfl

/-! ### The effect of the copy and fill loops -/

theorem copy_pixels_curr_pixel (compr_data : Nat → Nat) :
    ∀ (count : Nat) (st : DecState),
      (copy_pixels compr_data count st).curr_pixel = st.curr_pixel + 4 * count := by
  intro count
  induction count with
  | zero => intro st; rfl
  | succ n ih => intro st; simp only [copy_pixels, ih]; omega

theorem fill_pixels_curr_pixel (v : Nat) :
    ∀ (count : Nat) (st : DecState),
      (fill_pixels v count st).curr_pixel = st.curr_pixel + 4 * count := by
  intro count
  induction count with
  | zero => intro st; rfl
  | succ n ih => intro st; simp only [fill_pixels, ih]; omega

theorem copy_pixels_img_eq (compr_data : Nat → Nat) :
    ∀ (count : Nat) (st : DecState),
      (copy_pixels compr_data count st).img =
        write_words ((List.range' st.curr_code count).map compr_data) st.img st.curr_pixel := by
  intro count
  induction count with
  | zero => intro st; rfl
  | succ n ih =>
    intro st
    simp only [copy_pixels, ih, List.range'_succ, List.map_cons, write_words]

theorem fill_pixels_img_eq (v : Nat) :
    ∀ (count : Nat) (st : DecState),
      (fill_pixels v count st).img = write_words (List.replicate count v) st.img st.curr_pixel := by
  intro count
  induction count with
  | zero => intro st; rfl
  | succ n ih =>
    intro st
    simp only [fill_pixels, ih, List.replicate_succ, write_words]

theorem write_words_append :
    ∀ (xs ys : List Nat) (img : Nat → Nat) (b : Nat),
      write_words (xs ++ ys) img b = write_words ys (write_words xs img b) (b + 4 * xs.length) := by
  intro xs
  induction xs with
  | nil => intro ys img b; simp [write_words]
  | cons x xs ih =>
    intro ys img b
    have e : b + 4 + 4 * xs.length = b + 4 * (xs.length + 1) := by omega
    rw [List.cons_append, write_words, ih, write_words, List.length_cons, e]

theorem write_words_of_outside :
    ∀ (vs : List Nat) (img : Nat → Nat) (b a : Nat), (a < b ∨ b + 4 * vs.length ≤ a) →
      write_words vs img b a = img a := by
  intro vs
  induction vs with
  | nil => intro img b a _; rfl
  | cons v vs ih =>
    intro img b a h
    simp only [write_words]
    simp only [List.length_cons] at h
    rw [ih _ _ a (by omega)]
    exact store32_of_outside _ _ _ _ (by omega)

theorem load32_congr (img img1 : Nat → Nat) (c : Nat)
    (h : ∀ a, c ≤ a → a < c + 4 → img a = img1 a) : load32 img c = load32 img1 c := by
  unfold load32
  rw [h c (by omega) (by omega), h (c + 1) (by omega) (by omega),
    h (c + 2) (by omega) (by omega), h (c + 3) (by omega) (by omega)]

theorem load32_write_words :
    ∀ (vs : List Nat) (img : Nat → Nat) (b i : Nat), i < vs.length →
      load32 (write_words vs img b) (b + 4 * i) = vs.getD i 0 % 2 ^ 32 := by
  intro vs
  induction vs with
  | nil => intro img b i h; simp at h
  | cons v vs ih =>
    intro img b i h
    simp only [write_words]
    cases i with
    | zero =>
      simp only [Nat.mul_zero, Nat.add_zero, List.getD_cons_zero]
      rw [load32_congr _ (store32 img b v) b (fun a h1 h2 =>
        write_words_of_outside vs _ (b + 4) a (by omega))]
      exact load32_store32 img b v
    | succ j =>
      simp only [List.length_cons] at h
      have := ih (store32 img b v) (b + 4) j (by omega)
      have e : b + 4 * (j + 1) = b + 4 + 4 * j := by omega
      rw [e, this]
      simp

theorem pixels_write_words (vs : List Nat) (img : Nat → Nat) (hv : ∀ v ∈ vs, v < 2 ^ 32) :
    pixels (write_words vs img 0) vs.length = vs := by
  apply List.ext_getElem
  · simp [pixels]
  · intro i h1 h2
    simp only [pixels, List.getElem_map, List.getElem_range]
    have := load32_write_words vs img 0 i h2
    rw [Nat.zero_add] at this
    rw [this, List.getD_eq_getElem _ _ h2]
    exact Nat.mod_eq_of_lt (hv _ (List.getElem_mem h2))

/-! ### One pass of the decoder loop -/

theorem uncompress_loop_eoi (header : oif_header) (compr_data : Nat → Nat)
    (max_pixel max_code fuel code : Nat) (st : DecState)
    (hk : code &&& 0xF0000000 = OIF_EOI_TYPE) :
    uncompress_loop header compr_data max_pixel max_code (fuel + 1) code st = some ⟨0, st⟩ := by
  rw [uncompress_loop, if_neg (by simp [hk])]

theorem uncompress_loop_pass (header : oif_header) (compr_data : Nat → Nat)
    (max_pixel max_code fuel code : Nat) (st st1 : DecState)
    (hk : code &&& 0xF0000000 ≠ OIF_EOI_TYPE)
    (hrec : decode_record header compr_data max_pixel max_code code st = (none, st1))
    (hs : st1.curr_code + 1 ≤ max_code) :
    uncompress_loop header compr_data max_pixel max_code (fuel + 1) code st =
      uncompress_loop header compr_data max_pixel max_code fuel (compr_data st1.curr_code)
        { st1 with curr_code := st1.curr_code + 1, reads := st1.curr_code :: st1.reads } := by
  rw [uncompress_loop, if_pos hk, hrec]
  dsimp only
  rw [if_neg (by omega)]

theorem decode_record_literal (header : oif_header) (compr_data : Nat → Nat)
    (max_pixel max_code code : Nat) (st : DecState)
    (hk : code &&& 0xF0000000 = OIF_UNCOMPR_TYPE)
    (hd : st.curr_pixel + 4 * (code &&& 0x0000FFFF) ≤ max_pixel)
    (hs : st.curr_code + (code &&& 0x0000FFFF) ≤ max_code) :
    decode_record header compr_data max_pixel max_code code st =
      (none, copy_pixels compr_data (code &&& 0x0000FFFF) st) := by
  unfold decode_record
  dsimp only
  rw [if_pos hk, if_neg (by omega), if_neg (by omega)]

theorem decode_record_run (header : oif_header) (compr_data : Nat → Nat)
    (max_pixel max_code code : Nat) (st : DecState)
    (hk : code &&& 0xF0000000 = OIF_RLE_TYPE)
    (hd : st.curr_pixel + 4 * (code &&& 0x0000FFFF) ≤ max_pixel)
    (hs : st.curr_code + 1 ≤ max_code) :
    decode_record header compr_data max_pixel max_code code st =
      (none, fill_pixels (compr_data st.curr_code) (code &&& 0x0000FFFF)
        { st with curr_code := st.curr_code + 1, reads := st.curr_code :: st.reads }) := by
  unfold decode_record
  dsimp only
  rw [if_neg (by rw [hk]; decide), if_neg (by rw [hk]; decide), if_pos hk,
    if_neg (by omega), if_neg (by omega)]

theorem decode_record_run_wsl (header : oif_header) (compr_data : Nat → Nat)
    (max_pixel max_code code : Nat) (st : DecState)
    (hk : code &&& 0xF0000000 = OIF_RLE_WSL_TYPE)
    (hd : 4 * ((((code >>> 16) &&& 0x00000FFF) * header.width) % 2 ^ 32) +
      4 * (code &&& 0x0000FFFF) ≤ max_pixel)
    (hs : st.curr_code + 1 ≤ max_code) :
    decode_record header compr_data max_pixel max_code code st =
      (none, fill_pixels (compr_data st.curr_code) (code &&& 0x0000FFFF)
        { st with
          curr_pixel := 4 * ((((code >>> 16) &&& 0x00000FFF) * header.width) % 2 ^ 32)
          curr_code := st.curr_code + 1
          reads := st.curr_code :: st.reads }) := by
  unfold decode_record
  dsimp only
  rw [if_neg (by rw [hk]; decide), if_neg (by rw [hk]; decide), if_neg (by rw [hk]; decide),
    if_pos hk, if_neg (by omega), if_neg (by omega)]

/-! ### Control words of well-formed records -/

theorem type_mask_uncompr (m : Nat) (h : m < 2 ^ 28) :
    (OIF_UNCOMPR_TYPE ||| m) &&& 0xF0000000 = OIF_UNCOMPR_TYPE := by
  rw [and_type_mask, code_type_uncompr m h]; rfl

theorem type_mask_rle (m : Nat) (h : m < 2 ^ 28) :
    (OIF_RLE_TYPE ||| m) &&& 0xF0000000 = OIF_RLE_TYPE := by
  rw [and_type_mask, code_type_rle m h]; rfl

theorem count_mask_uncompr (m : Nat) (h : m < 2 ^ 16) :
    (OIF_UNCOMPR_TYPE ||| m) &&& 0x0000FFFF = m :=
  code_count_uncompr m h

theorem count_mask_rle (m : Nat) (h : m < 2 ^ 16) :
    (OIF_RLE_TYPE ||| m) &&& 0x0000FFFF = m :=
  code_count_rle m h

/-- The control word of a run-with-start-line record for line `L` and count `c`. -/
theorem run_wsl_word (L c : Nat) (hL : L < 4096) (hc : c < 65536) :
    (OIF_RLE_WSL_TYPE ||| (L <<< 16)) ||| c = 0x40000000 + L * 65536 + c := by
  have h1 : L <<< 16 = L * 65536 := by rw [Nat.shiftLeft_eq]
  have h2 := Nat.mul_add_lt_is_or (show L * 65536 < 2 ^ 28 by omega) 4
  have h3 := Nat.mul_add_lt_is_or (show c < 2 ^ 16 by omega) (4 * 4096 + L)
  have e1 : (2 : Nat) ^ 28 * 4 = 0x40000000 := by decide
  have e2 : (2 : Nat) ^ 16 * (4 * 4096 + L) = 0x40000000 + L * 65536 := by omega
  rw [e1] at h2
  rw [e2] at h3
  rw [h1]
  unfold OIF_RLE_WSL_TYPE
  rw [← h2, ← h3]

theorem run_wsl_word_fields (L c : Nat) (hL : L < 4096) (hc : c < 65536) :
    ((OIF_RLE_WSL_TYPE ||| (L <<< 16)) ||| c) &&& 0xF0000000 = OIF_RLE_WSL_TYPE ∧
      ((((OIF_RLE_WSL_TYPE ||| (L <<< 16)) ||| c) >>> 16) &&& 0x00000FFF) = L ∧
      ((OIF_RLE_WSL_TYPE ||| (L <<< 16)) ||| c) &&& 0x0000FFFF = c := by
  rw [run_wsl_word L c hL hc]
  have m12 : (0x00000FFF : Nat) = 2 ^ 12 - 1 := by decide
  have m16 : (0x0000FFFF : Nat) = 2 ^ 16 - 1 := by decide
  refine ⟨?_, ?_, ?_⟩
  · rw [and_type_mask, code_type_eq]
    have : (0x40000000 + L * 65536 + c) / 2 ^ 28 % 16 = 4 := by omega
    rw [this]; rfl
  · rw [m12, Nat.and_pow_two_sub_one_eq_mod, Nat.shiftRight_eq_div_pow]
    omega
  · rw [m16, Nat.and_pow_two_sub_one_eq_mod]
    omega

/-! ### Decoding a stream of literal and run records -/

theorem serialise_records_cons (r : DataRecord) (rs : List DataRecord) :
    serialise_records (r :: rs) = r.serialise ++ serialise_records rs := by
  simp only [serialise_records, List.flatMap_cons, List.append_assoc]

theorem expand_records_cons (r : DataRecord) (rs : List DataRecord) :
    expand_records (r :: rs) = r.expand ++ expand_records rs := by
  simp only [expand_records, List.flatMap_cons]

theorem expand_length (r : DataRecord) : r.expand.length = r.count := by
  cases r with
  | literal payload => rfl
  | run count value => simp only [DataRecord.expand, DataRecord.count, List.length_replicate]

theorem expand_records_length (rs : List DataRecord) :
    (expand_records rs).length = (rs.map DataRecord.count).sum := by
  induction rs with
  | nil => rfl
  | cons r rs ih =>
    rw [expand_records_cons, List.length_append, ih, expand_length, List.map_cons,
      List.sum_cons]

theorem serialise_records_length_pos (rs : List DataRecord) :
    rs.length + 1 ≤ (serialise_records rs).length := by
  induction rs with
  | nil => simp [serialise_records]
  | cons r rs ih =>
    rw [serialise_records_cons, List.length_append, List.length_cons]
    have : 1 ≤ r.serialise.length := by
      cases r <;> simp [DataRecord.serialise]
    omega

/-- The words stored from index `off` on, as a list read back from the memory. -/
theorem map_range'_of_stored (compr_data : Nat → Nat) (off : Nat) (ws : List Nat)
    (h : ∀ i, i < ws.length → compr_data (off + i) = ws.getD i 0) :
    (List.range' off ws.length).map compr_data = ws := by
  apply List.ext_getElem
  · simp
  · intro i h1 h2
    simp only [List.getElem_map, List.getElem_range', Nat.one_mul]
    rw [h i h2, List.getD_eq_getElem _ _ h2]

/-- The decoder loop on a stream of literal and run records that lies at word index `off`
of the source, entered with the first control word loaded: it returns 0 and has stored
the pixels the records stand for from the destination cursor on. -/
theorem uncompress_loop_data_records (header : oif_header) (compr_data : Nat → Nat)
    (max_pixel max_code : Nat) :
    ∀ (rs : List DataRecord) (fuel off : Nat) (st : DecState),
      (∀ r ∈ rs, r.count ≤ 65535) →
      (∀ i, i < (serialise_records rs).length →
        compr_data (off + i) = (serialise_records rs).getD i 0) →
      st.curr_code = off + 1 →
      st.curr_pixel + 4 * (expand_records rs).length ≤ max_pixel →
      off + (serialise_records rs).length ≤ max_code →
      rs.length + 1 ≤ fuel →
      ∃ r, uncompress_loop header compr_data max_pixel max_code fuel (compr_data off) st =
          some r ∧ r.ret = 0 ∧
        r.st.img = write_words (expand_records rs) st.img st.curr_pixel := by
  intro rs
  induction rs with
  | nil =>
    intro fuel off st _ hst _ _ _ hfuel
    obtain ⟨f, rfl⟩ : ∃ f, fuel = f + 1 := ⟨fuel - 1, by omega⟩
    have h0 := hst 0 (by simp [serialise_records])
    simp only [serialise_records, List.flatMap_nil, List.nil_append, List.getD_cons_zero,
      Nat.add_zero] at h0
    rw [h0, uncompress_loop_eoi _ _ _ _ _ _ _ (by decide)]
    exact ⟨_, rfl, rfl, rfl⟩
  | cons r rs ih =>
    intro fuel off st hcnt hst hcc hdst hsrc hfuel
    obtain ⟨f, rfl⟩ : ∃ f, fuel = f + 1 := ⟨fuel - 1, by omega⟩
    rw [serialise_records_cons] at hst hsrc
    rw [expand_records_cons, List.length_append, expand_length] at hdst
    have hc := hcnt r (List.mem_cons_self _ _)
    have hlen := serialise_records_length_pos rs
    rw [List.length_append] at hst hsrc
    simp only [List.length_cons] at hfuel
    cases r with
    | literal payload =>
      simp only [DataRecord.count] at hc hdst
      simp only [DataRecord.serialise, List.length_cons] at hst hsrc
      have h0 := hst 0 (by omega)
      simp only [List.cons_append, List.getD_cons_zero, Nat.add_zero] at h0
      have hk := type_mask_uncompr payload.length (by omega)
      have hn := count_mask_uncompr payload.length (by omega)
      rw [← h0] at hk hn
      have hpay : ∀ i, i < payload.length → compr_data (off + 1 + i) = payload.getD i 0 := by
        intro i hi
        have := hst (i + 1) (by omega)
        rw [List.cons_append, List.getD_cons_succ, List.getD_append _ _ _ _ hi] at this
        rw [← this]
        congr 1
        omega
      have hrest : ∀ i, i < (serialise_records rs).length →
          compr_data (off + 1 + payload.length + i) = (serialise_records rs).getD i 0 := by
        intro i hi
        have := hst (payload.length + 1 + i) (by omega)
        rw [List.cons_append, show payload.length + 1 + i = (payload.length + i) + 1 by omega,
          List.getD_cons_succ, List.getD_append_right _ _ _ _ (by omega)] at this
        rw [show payload.length + i - payload.length = i by omega] at this
        rw [← this]
        congr 1
        omega
      have hrec := decode_record_literal header compr_data max_pixel max_code
        (compr_data off) st hk (by rw [hn]; omega) (by rw [hn]; omega)
      rw [hn] at hrec
      rw [uncompress_loop_pass _ _ _ _ _ _ _ _ (by rw [hk]; decide) hrec
        (by rw [copy_pixels_curr_code]; omega)]
      rw [copy_pixels_curr_code, hcc]
      obtain ⟨res, hres, hret, himg⟩ := ih f (off + 1 + payload.length)
        { copy_pixels compr_data payload.length st with
          curr_code := off + 1 + payload.length + 1
          reads := (off + 1 + payload.length) ::
            (copy_pixels compr_data payload.length st).reads }
        (fun x hx => hcnt x (List.mem_cons_of_mem _ hx)) hrest rfl
        (by simp only [copy_pixels_curr_pixel]; omega) (by omega) (by omega)
      refine ⟨res, hres, hret, ?_⟩
      rw [himg]
      simp only [copy_pixels_curr_pixel, copy_pixels_img_eq, hcc]
      rw [map_range'_of_stored compr_data (off + 1) payload hpay, expand_records_cons,
        write_words_append]
      rfl
    | run count value =>
      simp only [DataRecord.count] at hc hdst
      simp only [DataRecord.serialise, List.length_cons, List.length_nil] at hst hsrc
      have h0 := hst 0 (by omega)
      simp only [List.cons_append, List.getD_cons_zero, Nat.add_zero] at h0
      have h1 := hst 1 (by omega)
      simp only [List.cons_append, List.getD_cons_succ, List.getD_cons_zero] at h1
      have hk := type_mask_rle count (by omega)
      have hn := count_mask_rle count (by omega)
      rw [← h0] at hk hn
      have hrest : ∀ i, i < (serialise_records rs).length →
          compr_data (off + 2 + i) = (serialise_records rs).getD i 0 := by
        intro i hi
        have := hst (2 + i) (by omega)
        rw [show 2 + i = (i + 1) + 1 by omega] at this
        simp only [List.cons_append, List.getD_cons_succ, List.nil_append] at this
        rw [← this]
        congr 1
        omega
      have hrec := decode_record_run header compr_data max_pixel max_code
        (compr_data off) st hk (by rw [hn]; omega) (by omega)
      rw [hn, hcc, h1] at hrec
      rw [uncompress_loop_pass _ _ _ _ _ _ _ _ (by rw [hk]; decide) hrec
        (by rw [fill_pixels_curr_code]; simp only; omega)]
      rw [fill_pixels_curr_code]
      obtain ⟨res, hres, hret, himg⟩ := ih f (off + 2)
        { fill_pixels value count
            { st with curr_code := off + 1 + 1, reads := (off + 1) :: st.reads } with
          curr_code := off + 1 + 1 + 1
          reads := (off + 1 + 1) ::
            (fill_pixels value count
              { st with curr_code := off + 1 + 1, reads := (off + 1) :: st.reads }).reads }
        (fun x hx => hcnt x (List.mem_cons_of_mem _ hx)) hrest rfl
        (by simp only [fill_pixels_curr_pixel]; omega) (by omega) (by omega)
      refine ⟨res, hres, hret, ?_⟩
      rw [himg]
      simp only [fill_pixels_curr_pixel, fill_pixels_img_eq]
      rw [expand_records_cons, write_words_append]
      simp only [DataRecord.expand, List.length_replicate]

/-! ### Further facts on the records stored by the encoder -/

/-- What the records of a buffer without two equal neighbours look like: control word,
pixels covered and number of pixel words. -/
theorem single_literal_fields (pixel_data : Nat → Nat) (size : Nat) :
    [literal_after_scan pixel_data 0 size, eoi_record size].map
        (fun r => (r.code, r.len, r.payload.length)) =
      [(OIF_UNCOMPR_TYPE ||| size, size, size), (OIF_EOI_TYPE, 0, 0)] := by
  simp only [List.map_cons, List.map_nil, literal_after_scan, eoi_record, Nat.sub_zero,
    List.length_map, List.length_range', List.length_nil]

/-- A buffer of 65535 equal pixels is stored as a run of 32768 pixels, a run of 32767
pixels and the end-of-image word. -/
theorem compress_records_uniform_65535 (pixel_data : Nat → Nat) (X : Nat)
    (hX : ∀ l, l < 65535 → pixel_data l = X) :
    compress_records pixel_data 65535 =
      [run_record pixel_data 0 32768, run_record pixel_data 32768 65535,
        eoi_record 65535] := by
  have s0 : scan pixel_data 65535 0 32768 (0 + 1) = 32768 := by
    rw [uniform_scan pixel_data X 65535 0 hX (by omega)]; decide
  have s1 : scan pixel_data 65535 32768 32768 (32768 + 1) = 65535 := by
    rw [uniform_scan pixel_data X 65535 32768 hX (by omega)]; decide
  have l2 : compress_loop pixel_data 65535 65533 65535 65535 = ([], 65535, 65535) :=
    compress_loop_done _ _ _ _ _ (by omega)
  have l1 : compress_loop pixel_data 65535 65534 32768 32768 =
      ([run_record pixel_data 32768 65535], 65535, 65535) := by
    rw [compress_loop_run pixel_data 65535 65533 32768 32768 65535 (by omega) s1 (by decide),
      l2]
    simp only [Nat.lt_irrefl, if_false, List.nil_append]
  have l0 : compress_loop pixel_data 65535 65535 0 0 =
      ([run_record pixel_data 0 32768, run_record pixel_data 32768 65535],
        65535, 65535) := by
    rw [compress_loop_run pixel_data 65535 65534 0 0 32768 (by omega) s0 (by decide), l1]
    simp only [Nat.lt_irrefl, if_false, List.nil_append]
  unfold compress_records
  rw [l0]
  simp only [Nat.lt_irrefl, if_false, List.append_nil, List.cons_append, List.nil_append]


/-! ### The number of words stored -/

theorem stream_cons (r : Record) (rs : List Record) :
    stream (r :: rs) = r.words ++ stream rs := by
  simp only [stream, List.flatMap_cons]

/-- The words stored by the loop from `(i, k)` on, together with those of the literal
record that is pending when the loop is left, are at most `size - k + 1`, as long as
`i + 2` cannot wrap: a run record takes 2 words for at least 3 pixels, a literal record one
word more than its pixels. -/
theorem compress_loop_words (pixel_data : Nat → Nat) (size : Nat) (hlt : size + 1 < 2 ^ 32) :
    ∀ (fuel i k : Nat), k ≤ i → i ≤ size → size - i ≤ fuel →
      (stream (compress_loop pixel_data size fuel i k).1).length +
        (if (compress_loop pixel_data size fuel i k).2.2 < size then
          1 + (size - (compress_loop pixel_data size fuel i k).2.2) else 0) ≤
        size - k + 1 := by
  intro fuel
  induction fuel with
  | zero =>
    intro i k hki his hf
    simp only [compress_loop, stream, List.flatMap_nil, List.length_nil, Nat.zero_add]
    split_ifs <;> omega
  | succ f ih =>
    intro i k hki his hf
    by_cases hi : i < size
    · have hle := scan_le_size pixel_data size i 32768 (i + 1) (by omega)
      by_cases hj : scan pixel_data size i 32768 (i + 1) > (i + 2) % 2 ^ 32
      · rw [compress_loop_run pixel_data size f i k _ hi rfl hj]
        rw [Nat.mod_eq_of_lt (by omega)] at hj
        have := ih (scan pixel_data size i 32768 (i + 1))
          (scan pixel_data size i 32768 (i + 1)) (Nat.le_refl _) hle (by omega)
        simp only [stream_append, stream_cons, List.length_append, Record.words,
          List.length_cons, run_record, List.length_nil]
        split_ifs at this ⊢ with h1 h2 h2
        all_goals
          simp only [stream, List.flatMap_cons, List.flatMap_nil, List.append_nil,
            Record.words, literal_before_run, List.length_cons, List.length_map,
            List.length_range', List.length_nil] at this ⊢
          omega
      · rw [compress_loop_skip pixel_data size f i k hi hj]
        exact ih (i + 1) k (by omega) (by omega) (by omega)
    · rw [compress_loop_done _ _ _ _ _ hi]
      simp only [stream, List.flatMap_nil, List.length_nil, Nat.zero_add]
      split_ifs <;> omega

/-- For a buffer of `N = width * height` pixels with `N + 1 < 2 ^ 32`, `oif_compress`
stores at most `N + 2` words, and `img_size` is at most `4 * (N + 2)`. -/
theorem stream_length_le (header : oif_header) (pixel_data : Nat → Nat)
    (hlt : header.width * header.height + 1 < 2 ^ 32) :
    (stream (oif_compress header pixel_data).2).length ≤ header.width * header.height + 2 ∧
      (oif_compress header pixel_data).1.img_size ≤
        4 * (header.width * header.height + 2) := by
  have hsz : (header.width * header.height) % 2 ^ 32 = header.width * header.height :=
    Nat.mod_eq_of_lt (by omega)
  have hw := compress_loop_words pixel_data (header.width * header.height) hlt
    (header.width * header.height) 0 0 (Nat.le_refl _) (by omega) (by omega)
  have hi := compress_loop_final_i pixel_data (header.width * header.height)
    (header.width * header.height) 0 0 (by omega) (by omega)
  have hlen : (stream (oif_compress header pixel_data).2).length ≤
      header.width * header.height + 2 := by
    rw [oif_compress_records, hsz]
    unfold compress_records
    simp only [stream_append, List.length_append, hi]
    split_ifs at hw ⊢ with h1
    all_goals
      simp only [stream, List.flatMap_cons, List.flatMap_nil, List.append_nil,
        Record.words, literal_after_scan, eoi_record, List.length_cons, List.length_map,
        List.length_range', List.length_nil] at hw ⊢
      omega
  refine ⟨hlen, ?_⟩
  rw [oif_compress_img_size]
  have := Nat.mod_le (4 * (stream (oif_compress header pixel_data).2).length) (2 ^ 32)
  omega

/-- Passes of the loop that store nothing: when no position in `[i, i + d)` starts a
run, `d` passes lead from `(i, k)` to `(i + d, k)`. -/
theorem compress_loop_skip_range (pixel_data : Nat → Nat) (size : Nat) :
    ∀ (d fuel1 fuel i k : Nat), fuel1 = fuel + d →
      (∀ t, i ≤ t → t < i + d →
        t < size ∧ ¬ scan pixel_data size t 32768 (t + 1) > (t + 2) % 2 ^ 32) →
      compress_loop pixel_data size fuel1 i k =
        compress_loop pixel_data size fuel (i + d) k := by
  intro d
  induction d with
  | zero => intro fuel1 fuel i k hf _; subst hf; rfl
  | succ n ih =>
    intro fuel1 fuel i k hf hno
    subst hf
    obtain ⟨h1, h2⟩ := hno i (Nat.le_refl i) (by omega)
    rw [show fuel + (n + 1) = (fuel + n) + 1 by omega,
      compress_loop_skip pixel_data size (fuel + n) i k h1 h2,
      ih (fuel + n) fuel (i + 1) k rfl (fun t ht1 ht2 => hno t (by omega) (by omega))]
    rw [show i + 1 + n = i + (n + 1) by omega]

/-- For a buffer of `2 ^ 32 - 1` pixels without two equal neighbours, `i + 2` wraps to 0 at
the last pixel: the literal span `[0, 2 ^ 32 - 2)` is flushed and the last pixel is stored
as a run record. -/
theorem compress_records_wrap (pixel_data : Nat → Nat)
    (hne : ∀ t, pixel_data (t + 1) ≠ pixel_data t) :
    compress_records pixel_data 4294967295 =
      [literal_before_run pixel_data 0 4294967294,
        run_record pixel_data 4294967294 4294967295, eoi_record 4294967295] := by
  have hskip := compress_loop_skip_range pixel_data 4294967295 4294967294 4294967295 1 0 0
    (by decide) (by
      intro t _ ht
      refine ⟨by omega, ?_⟩
      rw [Nat.mod_eq_of_lt (by omega)]
      have : scan pixel_data 4294967295 t 32768 (t + 1) ≤ t + 1 := by
        apply scan_le_of_stop _ _ _ _ _ _ (Nat.le_refl _)
        rintro ⟨-, -, h3⟩
        exact hne t h3
      omega)
  have hs : scan pixel_data 4294967295 4294967294 32768 (4294967294 + 1) = 4294967295 := by
    apply scan_eq
    · decide
    · decide
    · intro l h1 h2; omega
    · rintro ⟨h1, -, -⟩; omega
  have hrun := compress_loop_run pixel_data 4294967295 0 4294967294 0 4294967295
    (by decide) hs (by decide)
  have hloop : compress_loop pixel_data 4294967295 4294967295 0 0 =
      ([literal_before_run pixel_data 0 4294967294,
        run_record pixel_data 4294967294 4294967295], 4294967295, 4294967295) := by
    rw [hskip]
    rw [show (0 : Nat) + 4294967294 = 4294967294 by decide, show (1 : Nat) = 0 + 1 by rfl,
      hrun, if_pos (by decide), compress_loop_done _ _ _ _ _ (Nat.lt_irrefl _)]
    simp only [List.singleton_append]
  unfold compress_records
  rw [hloop]
  simp only [Nat.lt_irrefl, if_false, List.append_nil, List.cons_append, List.nil_append]

theorem stream_literal_run_length (pixel_data : Nat → Nat) (i j : Nat) :
    (stream [literal_before_run pixel_data 0 i, run_record pixel_data i j,
      eoi_record j]).length = i + 4 := by
  simp only [stream, List.flatMap_cons, List.flatMap_nil, Record.words, literal_before_run,
    run_record, eoi_record, List.length_append, List.length_cons, List.length_map,
    List.length_range', List.length_nil, Nat.sub_zero]

theorem literal_run_fields (pixel_data : Nat → Nat) (i j : Nat) :
    [literal_before_run pixel_data 0 i, run_record pixel_data i j, eoi_record j].map
        (fun r => (r.code, r.len, r.payload.length)) =
      [(OIF_UNCOMPR_TYPE ||| i, i, i), (OIF_RLE_TYPE ||| (j - i), j - i, 1),
        (OIF_EOI_TYPE, 0, 0)] := by
  simp only [List.map_cons, List.map_nil, literal_before_run, run_record, eoi_record,
    Nat.sub_zero, List.length_map, List.length_range', List.length_nil, List.length_cons]

/-! ### Failing records store nothing -/

/-- When the `switch` returns an error, no store has been made since its start. -/
theorem decode_record_error (header : oif_header) (compr_data : Nat → Nat)
    (max_pixel max_code code : Nat) (st st1 : DecState) (e : Int)
    (h : decode_record header compr_data max_pixel max_code code st = (some e, st1)) :
    st1.img = st.img ∧ st1.writes = st.writes := by
  unfold decode_record at h
  dsimp only at h
  split_ifs at h
  all_goals
    simp only [Prod.mk.injEq, Option.some.injEq] at h
    first
      | (obtain ⟨-, h2⟩ := h; subst h2; exact ⟨rfl, rfl⟩)
      | exact absurd h.1 (by simp)

theorem uncompress_loop_error (header : oif_header) (compr_data : Nat → Nat)
    (max_pixel max_code : Nat) :
    ∀ (fuel code : Nat) (st : DecState) (r : DecResult),
      uncompress_loop header compr_data max_pixel max_code fuel code st = some r →
      r.ret ≠ 0 →
      ∃ k code1 st1,
        after_passes header compr_data max_pixel max_code k code st = some (code1, st1) ∧
        code1 &&& 0xF0000000 ≠ OIF_EOI_TYPE ∧
        ((∃ st2, decode_record header compr_data max_pixel max_code code1 st1 =
              (some r.ret, st2) ∧
            r.st.img = st1.img ∧ r.st.writes = st1.writes) ∨
          (∃ st2, decode_record header compr_data max_pixel max_code code1 st1 =
              (none, st2) ∧
            st2.curr_code + 1 > max_code ∧ r.ret = OIF_ERR_SRC_OVERRUN ∧
            r.st.img = st2.img ∧ r.st.writes = st2.writes)) := by
  intro fuel
  induction fuel with
  | zero => intro code st r h; simp [uncompress_loop] at h
  | succ n ih =>
    intro code st r h herr
    rw [uncompress_loop] at h
    by_cases hc : code &&& 0xF0000000 ≠ OIF_EOI_TYPE
    · rw [if_pos hc] at h
      split at h
      next e st1 heq =>
        simp only [Option.some.injEq] at h
        subst h
        obtain ⟨h1, h2⟩ := decode_record_error _ _ _ _ _ _ _ _ heq
        exact ⟨0, code, st, rfl, hc, Or.inl ⟨st1, heq, h1, h2⟩⟩
      next st1 heq =>
        dsimp only at h
        by_cases h2 : st1.curr_code + 1 > max_code
        · rw [if_pos h2] at h
          simp only [Option.some.injEq] at h
          subst h
          exact ⟨0, code, st, rfl, hc, Or.inr ⟨st1, heq, h2, rfl, rfl, rfl⟩⟩
        · rw [if_neg h2] at h
          obtain ⟨k, code1, st3, hk, hrest⟩ := ih _ _ r h herr
          refine ⟨k + 1, code1, st3, ?_, hrest⟩
          rw [after_passes, if_pos hc, heq]
          dsimp only
          rw [if_neg h2]
          exact hk
    · rw [if_neg hc] at h
      simp only [Option.some.injEq] at h
      subst h
      exact absurd rfl herr

/-! ### The records of the encoder as literal and run records -/

/-- The pixels the inner loop has passed are all equal to `pixel_data[i]`. -/
theorem scan_equal (pixel_data : Nat → Nat) (size i : Nat) :
    ∀ (fuel j : Nat), (∀ l, i ≤ l → l < j → pixel_data l = pixel_data i) →
      ∀ l, i ≤ l → l < scan pixel_data size i fuel j → pixel_data l = pixel_data i := by
  intro fuel
  induction fuel with
  | zero => intro j h l h1 h2; exact h l h1 h2
  | succ n ih =>
    intro j h l h1 h2
    rw [scan] at h2
    split_ifs at h2 with hc
    · refine ih (j + 1) ?_ l h1 h2
      intro l1 h3 h4
      by_cases hl : l1 = j
      · subst hl; exact hc.2.2
      · exact h l1 h3 (by omega)
    · exact h l h1 h2

theorem replicate_eq_map_range' (f : Nat → Nat) (v i n : Nat)
    (h : ∀ l, i ≤ l → l < i + n → f l = v) :
    List.replicate n v = (List.range' i n).map f := by
  apply List.ext_getElem
  · simp
  · intro t h1 h2
    simp only [List.getElem_replicate, List.getElem_map, List.getElem_range', Nat.one_mul]
    simp only [List.length_replicate] at h1
    exact (h (i + t) (by omega) (by omega)).symm

theorem map_range'_append (f : Nat → Nat) (k a b : Nat) :
    (List.range' k a).map f ++ (List.range' (k + a) b).map f =
      (List.range' k (a + b)).map f := by
  rw [← List.map_append, List.range'_append_1, Nat.add_comm b a]

/-- The words the loop stores from `(i, k)` on are those of a list of literal and run
records, each of at most 65535 pixels when the literal spans flushed are that short, and
these records stand for the pixels from `k` up to the value of `k` when the loop is
left. -/
theorem compress_loop_data_records (pixel_data : Nat → Nat) (size : Nat) :
    ∀ (fuel i k : Nat), k ≤ i →
      (∀ a b, literal_before_run pixel_data a b ∈ (compress_loop pixel_data size fuel i k).1 →
        b - a < 65536) →
      ∃ drs : List DataRecord,
        stream (compress_loop pixel_data size fuel i k).1 =
          drs.flatMap DataRecord.serialise ∧
        (∀ d ∈ drs, d.count ≤ 65535) ∧
        k ≤ (compress_loop pixel_data size fuel i k).2.2 ∧
        expand_records drs =
          (List.range' k ((compress_loop pixel_data size fuel i k).2.2 - k)).map
            pixel_data := by
  intro fuel
  induction fuel with
  | zero =>
    intro i k _ _
    refine ⟨[], ?_, ?_, ?_, ?_⟩
    · simp only [compress_loop, stream, List.flatMap_nil]
    · intro d hd; simp at hd
    · simp only [compress_loop]; exact Nat.le_refl k
    · simp only [compress_loop, Nat.sub_self, List.range'_zero, List.map_nil, expand_records,
        List.flatMap_nil]
  | succ f ih =>
    intro i k hki hlit
    by_cases hi : i < size
    · by_cases hj : scan pixel_data size i 32768 (i + 1) > (i + 2) % 2 ^ 32
      · have hge := scan_ge pixel_data size i 32768 (i + 1)
        have hsub := scan_sub_le pixel_data size i 32768 (i + 1) (by omega) (by omega)
        have heq := scan_equal pixel_data size i 32768 (i + 1)
          (fun l h1 h2 => by
            have : l = i := by omega
            rw [this])
        rw [compress_loop_run pixel_data size f i k _ hi rfl hj] at hlit ⊢
        generalize scan pixel_data size i 32768 (i + 1) = j at hge hsub heq hlit ⊢
        obtain ⟨drs, h1, h2, h3, h4⟩ := ih j j (Nat.le_refl j)
          (fun a b hab => hlit a b
            (List.mem_append_right _ (List.mem_cons_of_mem _ hab)))
        generalize compress_loop pixel_data size f j j = r at h1 h2 h3 h4 hlit ⊢
        have hrun : List.replicate (j - i) (pixel_data i) =
            (List.range' i (j - i)).map pixel_data :=
          replicate_eq_map_range' pixel_data (pixel_data i) i (j - i)
            (fun l h5 h6 => heq l h5 (by omega))
        have hjoin : (List.range' i (j - i)).map pixel_data ++
            (List.range' j (r.2.2 - j)).map pixel_data =
            (List.range' i (r.2.2 - i)).map pixel_data := by
          have := map_range'_append pixel_data i (j - i) (r.2.2 - j)
          rw [show i + (j - i) = j by omega,
            show j - i + (r.2.2 - j) = r.2.2 - i by omega] at this
          exact this
        by_cases hk : k < i
        · have hlen := hlit k i (by
            rw [if_pos hk]
            exact List.mem_append_left _ (List.mem_singleton_self _))
          refine ⟨DataRecord.literal ((List.range' k (i - k)).map pixel_data) ::
            DataRecord.run (j - i) (pixel_data i) :: drs, ?_, ?_, ?_, ?_⟩
          · rw [if_pos hk]
            simp only [List.singleton_append, stream_cons, h1, List.flatMap_cons,
              DataRecord.serialise, Record.words, literal_before_run, run_record,
              List.length_map, List.length_range', List.cons_append, List.nil_append]
          · intro d hd
            simp only [List.mem_cons] at hd
            rcases hd with hd | hd | hd
            · subst hd
              simp only [DataRecord.count, List.length_map, List.length_range']
              omega
            · subst hd
              simp only [DataRecord.count]
              omega
            · exact h2 d hd
          · simp only
            omega
          · simp only [expand_records_cons, DataRecord.expand]
            rw [h4, hrun, hjoin]
            have := map_range'_append pixel_data k (i - k) (r.2.2 - i)
            rw [show k + (i - k) = i by omega,
              show i - k + (r.2.2 - i) = r.2.2 - k by omega] at this
            exact this
        · have hki2 : k = i := by omega
          subst hki2
          refine ⟨DataRecord.run (j - k) (pixel_data k) :: drs, ?_, ?_, ?_, ?_⟩
          · rw [if_neg hk]
            simp only [List.nil_append, stream_cons, h1, List.flatMap_cons,
              DataRecord.serialise, Record.words, run_record, List.cons_append]
          · intro d hd
            simp only [List.mem_cons] at hd
            rcases hd with hd | hd
            · subst hd
              simp only [DataRecord.count]
              omega
            · exact h2 d hd
          · simp only
            omega
          · simp only [expand_records_cons, DataRecord.expand]
            rw [h4, hrun, hjoin]
      · rw [compress_loop_skip pixel_data size f i k hi hj] at hlit ⊢
        exact ih (i + 1) k (by omega) hlit
    · rw [compress_loop_done _ _ _ _ _ hi]
      refine ⟨[], ?_, ?_, ?_, ?_⟩
      · simp only [stream, List.flatMap_nil]
      · intro d hd; simp at hd
      · exact Nat.le_refl k
      · simp only [Nat.sub_self, List.range'_zero, List.map_nil, expand_records,
          List.flatMap_nil]

/-- The decoder on the words of a list of literal and run records followed by the
end-of-image word, when `img_size` is at least the number of these words: it returns 0
and has stored the pixels the records stand for from the start of the destination on. -/
theorem uncompress_data_records (header : oif_header) (rest img_data : Nat → Nat)
    (rs : List DataRecord) (hsize : header.width * header.height < 2 ^ 32)
    (hcount : ∀ r ∈ rs, r.count ≤ 65535)
    (hT : (expand_records rs).length ≤ header.width * header.height)
    (himg : (serialise_records rs).length ≤ header.img_size) :
    ∃ r, oif_uncompress header (word_memory (serialise_records rs) rest) img_data = some r ∧
      r.ret = 0 ∧ r.st.img = write_words (expand_records rs) img_data 0 := by
  have hlen := serialise_records_length_pos rs
  have hstored : ∀ i, i < (serialise_records rs).length →
      word_memory (serialise_records rs) rest (0 + i) = (serialise_records rs).getD i 0 := by
    intro i hi
    rw [Nat.zero_add]
    unfold word_memory
    rw [if_pos hi]
  exact uncompress_loop_data_records header
    (word_memory (serialise_records rs) rest)
    (4 * ((header.width * header.height) % 2 ^ 32)) header.img_size rs
    (header.img_size + 1) 0
    { curr_code := 1, curr_pixel := 0, img := img_data, reads := [0], writes := [] }
    hcount hstored rfl
    (by rw [Nat.mod_eq_of_lt hsize]; simp only; omega)
    (by omega) (by omega)

/-- Restricted round trip, with the number of words stored bounded by `img_size`. -/
theorem roundtrip_of_no_pending (header : oif_header) (pixel_data rest img_data : Nat → Nat)
    (hsize : header.width * header.height < 2 ^ 32)
    (hpix : ∀ p, p < header.width * header.height → pixel_data p < 2 ^ 32)
    (hk : (compress_loop pixel_data (header.width * header.height)
        (header.width * header.height) 0 0).2.2 =
      (compress_loop pixel_data (header.width * header.height)
        (header.width * header.height) 0 0).2.1)
    (hlit : ∀ a b, literal_before_run pixel_data a b ∈
        (compress_loop pixel_data (header.width * header.height)
          (header.width * header.height) 0 0).1 → b - a < 65536)
    (hfit : (stream (oif_compress header pixel_data).2).length ≤
      (oif_compress header pixel_data).1.img_size) :
    ∃ r, oif_uncompress (oif_compress header pixel_data).1
        (word_memory (stream (oif_compress header pixel_data).2) rest) img_data = some r ∧
      r.ret = 0 ∧
      pixels r.st.img (header.width * header.height) =
        (List.range (header.width * header.height)).map pixel_data := by
  have hsz : (header.width * header.height) % 2 ^ 32 = header.width * header.height :=
    Nat.mod_eq_of_lt hsize
  obtain ⟨drs, h1, h2, -, h4⟩ := compress_loop_data_records pixel_data
    (header.width * header.height) (header.width * header.height) 0 0 (Nat.le_refl 0) hlit
  have hfin := compress_loop_final_i pixel_data (header.width * header.height)
    (header.width * header.height) 0 0 (by omega) (by omega)
  rw [hfin] at hk
  rw [hk, Nat.sub_zero, ← List.range_eq_range'] at h4
  have hstream : stream (oif_compress header pixel_data).2 = serialise_records drs := by
    rw [oif_compress_records, hsz]
    unfold compress_records
    simp only [hk, hfin, Nat.lt_irrefl, if_false, List.append_nil, stream_append, h1]
    rfl
  have hexp : (expand_records drs).length = header.width * header.height := by
    rw [h4, List.length_map, List.length_range]
  rw [hstream] at hfit ⊢
  obtain ⟨r, hr, hret, himg⟩ := uncompress_data_records (oif_compress header pixel_data).1
    rest img_data drs hsize h2 (by rw [hexp]; exact Nat.le_refl _) hfit
  refine ⟨r, hr, hret, ?_⟩
  rw [himg]
  have := pixels_write_words (expand_records drs) img_data (by
    intro v hv
    rw [h4] at hv
    simp only [List.mem_map, List.mem_range] at hv
    obtain ⟨p, hp, rfl⟩ := hv
    exact hpix p hp)
  rw [hexp] at this
  rw [this, h4]

/-! ### A buffer of runs of three pixels -/

theorem triples_scan (size t : Nat) (h : 3 * t + 3 ≤ size) :
    scan (fun p => p / 3) size (3 * t) 32768 (3 * t + 1) = 3 * t + 3 := by
  apply scan_eq
  · omega
  · omega
  · intro l h1 h2
    omega
  · omega

/-- In the buffer whose pixel `p` is `p / 3`, every third position starts a run of three
pixels: from `(3 * t, 3 * t)` the loop stores one run record for each of the `n` triples
that are left. -/
theorem triples_loop (m : Nat) (hm : 3 * m + 2 < 2 ^ 32) :
    ∀ (n fuel t : Nat), m = t + n → n ≤ fuel →
      compress_loop (fun p => p / 3) (3 * m) fuel (3 * t) (3 * t) =
        ((List.range' t n).map (fun s => run_record (fun p => p / 3) (3 * s) (3 * s + 3)),
          3 * m, 3 * m) := by
  intro n
  induction n with
  | zero =>
    intro fuel t hmt _
    have : t = m := by omega
    subst this
    rw [compress_loop_done _ _ _ _ _ (Nat.lt_irrefl _)]
    rfl
  | succ n ih =>
    intro fuel t hmt hf
    obtain ⟨f, rfl⟩ : ∃ f, fuel = f + 1 := ⟨fuel - 1, by omega⟩
    have hs := triples_scan (3 * m) t (by omega)
    rw [compress_loop_run _ _ f (3 * t) (3 * t) (3 * t + 3) (by omega) hs
      (by rw [Nat.mod_eq_of_lt (by omega)]; omega)]
    rw [if_neg (Nat.lt_irrefl _), show 3 * t + 3 = 3 * (t + 1) by omega,
      ih f (t + 1) (by omega) (by omega)]
    rfl

theorem stream_runs_length (pixel_data : Nat → Nat) (f g : Nat → Nat) (l : List Nat) :
    (stream (l.map (fun s => run_record pixel_data (f s) (g s)))).length = 2 * l.length := by
  induction l with
  | nil => rfl
  | cons a l ih =>
    rw [List.map_cons, stream_cons, List.length_append, ih, List.length_cons]
    simp only [Record.words, run_record, List.length_cons, List.length_nil]
    omega

/-- The records stored for the buffer of `m` runs of three pixels, `m` at least 2: the
loop is left with `k = i`, no literal record is stored, `2 * m + 1` words are stored, and
the first four of them are the two run records of the pixel values 0 and 1. -/
theorem triples_records (m : Nat) (hm : 3 * m + 2 < 2 ^ 32) (h2 : 2 ≤ m) :
    (compress_loop (fun p => p / 3) (3 * m) (3 * m) 0 0).2.2 =
        (compress_loop (fun p => p / 3) (3 * m) (3 * m) 0 0).2.1 ∧
      (∀ a b, literal_before_run (fun p => p / 3) a b ∈
        (compress_loop (fun p => p / 3) (3 * m) (3 * m) 0 0).1 → b - a < 65536) ∧
      (stream (compress_records (fun p => p / 3) (3 * m))).length = 2 * m + 1 ∧
      ∃ tail, stream (compress_records (fun p => p / 3) (3 * m)) =
        (OIF_RLE_TYPE ||| 3) :: 0 :: (OIF_RLE_TYPE ||| 3) :: 1 :: tail := by
  have hloop := triples_loop m hm m (3 * m) 0 (by omega) (by omega)
  rw [Nat.mul_zero] at hloop
  have hrec : compress_records (fun p => p / 3) (3 * m) =
      (List.range' 0 m).map (fun s => run_record (fun p => p / 3) (3 * s) (3 * s + 3)) ++
        [eoi_record (3 * m)] := by
    unfold compress_records
    rw [hloop]
    simp only [Nat.lt_irrefl, if_false, List.append_nil]
  refine ⟨by rw [hloop], ?_, ?_, ?_⟩
  · intro a b hab
    rw [hloop] at hab
    simp only [List.mem_map] at hab
    obtain ⟨s, -, hs⟩ := hab
    have := congrArg (fun r => r.payload.length) hs
    simp only [run_record, literal_before_run, List.length_cons, List.length_nil,
      List.length_map, List.length_range'] at this
    omega
  · rw [hrec, stream_append, List.length_append, stream_runs_length, List.length_range']
    rfl
  · obtain ⟨n, rfl⟩ : ∃ n, m = n + 2 := ⟨m - 2, by omega⟩
    rw [hrec, show n + 2 = (n + 1) + 1 by rfl, List.range'_succ, List.range'_succ]
    refine ⟨stream ((List.range' (0 + 1 + 1) n).map
      (fun s => run_record (fun p => p / 3) (3 * s) (3 * s + 3)) ++
        [eoi_record (3 * (n + 2))]), ?_⟩
    simp only [List.map_cons, List.cons_append, stream_cons, Record.words, run_record,
      Nat.mul_zero, Nat.zero_add, Nat.zero_div, Nat.mul_one, Nat.add_sub_cancel_left,
      Nat.sub_zero, Nat.div_self (show 0 < 3 by decide), List.nil_append]

/-- The decoder on a source that starts with two run records of three pixels, with
`img_size` 4 and room for six pixels: both records are applied, and the source overrun is
found when the control word behind them is loaded. -/
theorem uncompress_two_runs_overrun (header : oif_header) (compr_data img_data : Nat → Nat)
    (h0 : compr_data 0 = OIF_RLE_TYPE ||| 3) (h2 : compr_data 2 = OIF_RLE_TYPE ||| 3)
    (hs : header.img_size = 4) (hN : 6 ≤ (header.width * header.height) % 2 ^ 32) :
    ∃ r, oif_uncompress header compr_data img_data = some r ∧
      r.ret = OIF_ERR_SRC_OVERRUN := by
  have hk : (OIF_RLE_TYPE ||| 3) &&& 0xF0000000 = OIF_RLE_TYPE := by decide
  have hn : (OIF_RLE_TYPE ||| 3) &&& 0x0000FFFF = 3 := by decide
  have hne : (OIF_RLE_TYPE ||| 3) &&& 0xF0000000 ≠ OIF_EOI_TYPE := by decide
  unfold oif_uncompress
  dsimp only
  rw [hs, h0]
  have hrec1 := decode_record_run header compr_data
    (4 * ((header.width * header.height) % 2 ^ 32)) 4 (OIF_RLE_TYPE ||| 3)
    { curr_code := 1, curr_pixel := 0, img := img_data, reads := [0], writes := [] } hk
    (by rw [hn]; simp only; omega) (by simp only; omega)
  rw [uncompress_loop_pass _ _ _ _ 4 _ _ _ hne hrec1
    (by rw [fill_pixels_curr_code]; simp only; omega)]
  simp only [fill_pixels_curr_code, h2]
  have hrec2 := decode_record_run header compr_data
    (4 * ((header.width * header.height) % 2 ^ 32)) 4 (OIF_RLE_TYPE ||| 3)
    { fill_pixels (compr_data 1) ((OIF_RLE_TYPE ||| 3) &&& 0x0000FFFF)
        { curr_code := 1 + 1, curr_pixel := 0, img := img_data, reads := [1, 0],
          writes := [] } with
      curr_code := 1 + 1 + 1
      reads := (1 + 1) :: (fill_pixels (compr_data 1) ((OIF_RLE_TYPE ||| 3) &&& 0x0000FFFF)
        { curr_code := 1 + 1, curr_pixel := 0, img := img_data, reads := [1, 0],
          writes := [] }).reads } hk
    (by rw [hn]; simp only [fill_pixels_curr_pixel]; omega) (by simp only; omega)
  rw [show (4 : Nat) = 3 + 1 by rfl, uncompress_loop, if_pos hne, hrec2]
  dsimp only
  rw [if_pos (by rw [fill_pixels_curr_code]; simp only; omega)]
  exact ⟨_, rfl, rfl⟩

theorem word_memory_head (a b c d : Nat) (tail : List Nat) (rest : Nat → Nat) :
    word_memory (a :: b :: c :: d :: tail) rest 0 = a ∧
      word_memory (a :: b :: c :: d :: tail) rest 2 = c := by
  unfold word_memory
  simp only [List.length_cons]
  rw [if_pos (by omega), if_pos (by omega)]
  exact ⟨rfl, rfl⟩

/-! ### Passes of the decoder loop and the source cursor -/

/-- One pass that goes through moves the source cursor forward by at least one word and
leaves it within `max_code`. -/
theorem after_passes_one (header : oif_header) (compr_data : Nat → Nat)
    (max_pixel max_code code : Nat) (st : DecState) (code1 : Nat) (st1 : DecState)
    (h : after_passes header compr_data max_pixel max_code 1 code st = some (code1, st1)) :
    st.curr_code + 1 ≤ st1.curr_code ∧ st1.curr_code ≤ max_code ∧
      code1 = compr_data (st1.curr_code - 1) := by
  rw [after_passes] at h
  split_ifs at h with hc
  have hcc := decode_record_curr_code header compr_data max_pixel max_code code st
  split at h
  next e st2 heq => exact absurd h (by simp)
  next st2 heq =>
    rw [heq] at hcc
    simp only at hcc
    dsimp only at h
    split_ifs at h with h2
    simp only [after_passes, Option.some.injEq, Prod.mk.injEq] at h
    obtain ⟨h3, h4⟩ := h
    subst h4
    subst h3
    simp only [Nat.add_sub_cancel, and_true]
    omega

/-- After `k` passes that went through, the source cursor has moved forward by at least
`k` words, and when `k` is not 0 it is within `max_code`. -/
theorem after_passes_cursor (header : oif_header) (compr_data : Nat → Nat)
    (max_pixel max_code : Nat) :
    ∀ (k code : Nat) (st : DecState) (code1 : Nat) (st1 : DecState),
      after_passes header compr_data max_pixel max_code k code st = some (code1, st1) →
      st.curr_code + k ≤ st1.curr_code ∧ (0 < k → st1.curr_code ≤ max_code) := by
  intro k
  induction k with
  | zero =>
    intro code st code1 st1 h
    simp only [after_passes, Option.some.injEq, Prod.mk.injEq] at h
    obtain ⟨-, h2⟩ := h
    subst h2
    exact ⟨Nat.le_refl _, fun h0 => absurd h0 (Nat.lt_irrefl 0)⟩
  | succ n ih =>
    intro code st code1 st1 h
    rw [after_passes] at h
    split_ifs at h with hc
    have hcc := decode_record_curr_code header compr_data max_pixel max_code code st
    split at h
    next e st2 heq => exact absurd h (by simp)
    next st2 heq =>
      rw [heq] at hcc
      simp only at hcc
      dsimp only at h
      split_ifs at h with h2
      obtain ⟨h3, h4⟩ := ih _ _ _ _ h
      simp only at h3
      refine ⟨by omega, fun _ => ?_⟩
      by_cases hn : 0 < n
      · exact h4 hn
      · have hn0 : n = 0 := by omega
        subst hn0
        simp only [after_passes, Option.some.injEq, Prod.mk.injEq] at h
        obtain ⟨-, h6⟩ := h
        subst h6
        simp only
        omega

/-- With more passes allowed than the loop can make, the result is the same. -/
theorem uncompress_loop_fuel (header : oif_header) (compr_data : Nat → Nat)
    (max_pixel max_code : Nat) :
    ∀ (fuel fuel1 code : Nat) (st : DecState) (r : DecResult),
      uncompress_loop header compr_data max_pixel max_code fuel code st = some r →
      fuel ≤ fuel1 →
      uncompress_loop header compr_data max_pixel max_code fuel1 code st = some r := by
  intro fuel
  induction fuel with
  | zero => intro fuel1 code st r h; simp [uncompress_loop] at h
  | succ n ih =>
    intro fuel1 code st r h hle
    obtain ⟨f, rfl⟩ : ∃ f, fuel1 = f + 1 := ⟨fuel1 - 1, by omega⟩
    rw [uncompress_loop] at h ⊢
    split_ifs at h ⊢ with hc
    · split at h
      next e st2 heq => exact h
      next st2 heq =>
        dsimp only at h ⊢
        split_ifs at h ⊢ with h2
        · exact h
        · exact ih f _ _ r h (by omega)
    · exact h

/-! ### Two more facts on uniform buffers and on record lengths -/

/-- A buffer of 65536 equal pixels is stored as two run records of 32768 pixels. -/
theorem compress_records_uniform_65536 (pixel_data : Nat → Nat) (X : Nat)
    (hX : ∀ l, l < 65536 → pixel_data l = X) :
    compress_records pixel_data 65536 =
      [run_record pixel_data 0 32768, run_record pixel_data 32768 65536,
        eoi_record 65536] := by
  have s0 : scan pixel_data 65536 0 32768 (0 + 1) = 32768 := by
    rw [uniform_scan pixel_data X 65536 0 hX (by omega)]; decide
  have s1 : scan pixel_data 65536 32768 32768 (32768 + 1) = 65536 := by
    rw [uniform_scan pixel_data X 65536 32768 hX (by omega)]; decide
  have l2 : compress_loop pixel_data 65536 65534 65536 65536 = ([], 65536, 65536) :=
    compress_loop_done _ _ _ _ _ (by omega)
  have l1 : compress_loop pixel_data 65536 65535 32768 32768 =
      ([run_record pixel_data 32768 65536], 65536, 65536) := by
    rw [compress_loop_run pixel_data 65536 65534 32768 32768 65536 (by omega) s1 (by decide),
      l2]
    simp only [Nat.lt_irrefl, if_false, List.nil_append]
  have l0 : compress_loop pixel_data 65536 65536 0 0 =
      ([run_record pixel_data 0 32768, run_record pixel_data 32768 65536],
        65536, 65536) := by
    rw [compress_loop_run pixel_data 65536 65535 0 0 32768 (by omega) s0 (by decide), l1]
    simp only [Nat.lt_irrefl, if_false, List.nil_append]
  unfold compress_records
  rw [l0]
  simp only [Nat.lt_irrefl, if_false, List.append_nil, List.cons_append, List.nil_append]

/-- Every record the loop stores stands for at least one pixel. -/
theorem compress_loop_len_pos (pixel_data : Nat → Nat) (size : Nat) :
    ∀ (fuel i k : Nat), ∀ x ∈ (compress_loop pixel_data size fuel i k).1, 1 ≤ x.len := by
  intro fuel
  induction fuel with
  | zero => intro i k x hx; simp [compress_loop] at hx
  | succ f ih =>
    intro i k x hx
    by_cases hi : i < size
    · by_cases hj : scan pixel_data size i 32768 (i + 1) > (i + 2) % 2 ^ 32
      · rw [compress_loop_run pixel_data size f i k _ hi rfl hj] at hx
        simp only [List.mem_append, List.mem_cons] at hx
        rcases hx with hx | hx | hx
        · split_ifs at hx with hk
          · simp only [List.mem_singleton] at hx
            subst hx
            simp only [literal_before_run]
            omega
          · simp at hx
        · subst hx
          have := scan_ge pixel_data size i 32768 (i + 1)
          simp only [run_record]
          omega
        · exact ih _ _ x hx
      · rw [compress_loop_skip pixel_data size f i k hi hj] at hx
        exact ih _ _ x hx
    · rw [compress_loop_done _ _ _ _ _ hi] at hx
      simp at hx

/-! ### Control words met by a reader of the stream -/

theorem control_word_indices_eoi (ws : List Nat) (fuel p : Nat) (hp : p < ws.length)
    (hk : ws.getD p 0 &&& 0xF0000000 = OIF_EOI_TYPE) :
    control_word_indices ws (fuel + 1) p = [p] := by
  rw [control_word_indices, if_pos hp]
  dsimp only
  rw [if_pos hk]

theorem control_word_indices_literal (ws : List Nat) (fuel p : Nat) (hp : p < ws.length)
    (hk : ws.getD p 0 &&& 0xF0000000 = OIF_UNCOMPR_TYPE) :
    control_word_indices ws (fuel + 1) p =
      p :: control_word_indices ws fuel (p + 1 + (ws.getD p 0 &&& 0x0000FFFF)) := by
  rw [control_word_indices, if_pos hp]
  dsimp only
  rw [if_neg (by rw [hk]; decide), if_pos (Or.inl hk)]

theorem control_word_indices_run (ws : List Nat) (fuel p : Nat) (hp : p < ws.length)
    (hk : ws.getD p 0 &&& 0xF0000000 = OIF_RLE_TYPE) :
    control_word_indices ws (fuel + 1) p = p :: control_word_indices ws fuel (p + 2) := by
  rw [control_word_indices, if_pos hp]
  dsimp only
  rw [if_neg (by rw [hk]; decide), if_neg (by rw [hk]; decide), if_pos (Or.inl hk)]

theorem getLast_cons_of_some (a x : Nat) (l : List Nat) (h : l.getLast? = some x) :
    (a :: l).getLast? = some x := by
  cases l with
  | nil => simp at h
  | cons b l => rw [List.getLast?_cons_cons]; exact h

/-- A reader of a stream that holds, from index `p` on, the words of records whose control
words carry a literal type and the number of their pixel words, or a run type before one
pixel word, and then the end-of-image word: the control words it meets are those of the
records and then the end-of-image word, which is the last one it meets. -/
theorem control_word_indices_stream (ws : List Nat) :
    ∀ (rs : List Record) (fuel p : Nat),
      (∀ r ∈ rs,
        (r.code &&& 0xF0000000 = OIF_UNCOMPR_TYPE ∧
          r.code &&& 0x0000FFFF = r.payload.length) ∨
        (r.code &&& 0xF0000000 = OIF_RLE_TYPE ∧ r.payload.length = 1)) →
      (∀ i, i < (stream rs).length + 1 →
        ws.getD (p + i) 0 = (stream rs ++ [OIF_EOI_TYPE]).getD i 0) →
      p + (stream rs).length < ws.length →
      rs.length + 1 ≤ fuel →
      (control_word_indices ws fuel p).map (fun q => ws.getD q 0) =
          rs.map (fun r => r.code) ++ [OIF_EOI_TYPE] ∧
        (control_word_indices ws fuel p).getLast? = some (p + (stream rs).length) := by
  intro rs
  induction rs with
  | nil =>
    intro fuel p _ hst hlen hfuel
    obtain ⟨f, rfl⟩ : ∃ f, fuel = f + 1 := ⟨fuel - 1, by omega⟩
    have h0 := hst 0 (by omega)
    simp only [stream, List.flatMap_nil, List.nil_append, List.getD_cons_zero,
      Nat.add_zero] at h0
    simp only [stream, List.flatMap_nil, List.length_nil, Nat.add_zero] at hlen ⊢
    rw [control_word_indices_eoi ws f p hlen (by rw [h0]; decide)]
    simp only [List.map_cons, List.map_nil, h0, List.nil_append, List.getLast?_singleton,
      and_self]
  | cons r rs ih =>
    intro fuel p hwf hst hlen hfuel
    obtain ⟨f, rfl⟩ : ∃ f, fuel = f + 1 := ⟨fuel - 1, by omega⟩
    rw [stream_cons] at hst hlen
    simp only [Record.words, List.length_append, List.length_cons] at hst hlen
    simp only [List.length_cons] at hfuel
    have h0 := hst 0 (by omega)
    simp only [List.cons_append, List.getD_cons_zero, Nat.add_zero] at h0
    have hrest : ∀ i, i < (stream rs).length + 1 →
        ws.getD (p + 1 + r.payload.length + i) 0 =
          (stream rs ++ [OIF_EOI_TYPE]).getD i 0 := by
      intro i hi
      have := hst (r.payload.length + i + 1) (by omega)
      simp only [List.cons_append, List.append_assoc, List.getD_cons_succ] at this
      rw [List.getD_append_right _ _ _ _ (by omega)] at this
      rw [show r.payload.length + i - r.payload.length = i by omega] at this
      rw [← this]
      congr 1
      omega
    have hwf' : ∀ x ∈ rs,
        (x.code &&& 0xF0000000 = OIF_UNCOMPR_TYPE ∧
          x.code &&& 0x0000FFFF = x.payload.length) ∨
        (x.code &&& 0xF0000000 = OIF_RLE_TYPE ∧ x.payload.length = 1) :=
      fun x hx => hwf x (List.mem_cons_of_mem _ hx)
    rcases hwf r (List.mem_cons_self _ _) with ⟨hk, hn⟩ | ⟨hk, hn⟩
    · rw [control_word_indices_literal ws f p (by omega) (by rw [h0]; exact hk), h0, hn]
      obtain ⟨e1, e2⟩ := ih f (p + 1 + r.payload.length) hwf' hrest (by omega) (by omega)
      refine ⟨?_, ?_⟩
      · rw [List.map_cons, e1, h0]
        rfl
      · rw [getLast_cons_of_some _ _ _ e2, stream_cons]
        simp only [Record.words, List.length_append, List.length_cons]
        congr 1
        omega
    · rw [control_word_indices_run ws f p (by omega) (by rw [h0]; exact hk)]
      rw [hn] at hrest
      obtain ⟨e1, e2⟩ := ih f (p + 2) hwf' hrest (by omega) (by omega)
      refine ⟨?_, ?_⟩
      · rw [List.map_cons, e1, h0]
        rfl
      · rw [getLast_cons_of_some _ _ _ e2, stream_cons]
        simp only [Record.words, List.length_append, List.length_cons, hn]
        congr 1
        omega

theorem length_le_stream_length (rs : List Record) : rs.length ≤ (stream rs).length := by
  induction rs with
  | nil => simp [stream]
  | cons r rs ih =>
    rw [stream_cons, List.length_append, List.length_cons]
    simp only [Record.words, List.length_cons]
    omega

/-- When no record holds more than 65535 words after its control word, a reader of the
stream `oif_compress` stores meets the control words of the records, none of them an
end-of-image word, and then the end-of-image word, which is the last word stored. -/
theorem compress_records_control_words (pixel_data : Nat → Nat) (size : Nat)
    (hlit : ∀ r ∈ compress_records pixel_data size, r.payload.length ≤ 65535) :
    ∃ body i, compress_records pixel_data size = body ++ [eoi_record i] ∧
      (∀ r ∈ body, code_type r.code ≠ 15) ∧
      (control_word_indices (stream (compress_records pixel_data size))
          (stream (compress_records pixel_data size)).length 0).map
          (fun q => (stream (compress_records pixel_data size)).getD q 0) =
        body.map (fun r => r.code) ++ [OIF_EOI_TYPE] ∧
      (control_word_indices (stream (compress_records pixel_data size))
          (stream (compress_records pixel_data size)).length 0).getLast? =
        some ((stream (compress_records pixel_data size)).length - 1) := by
  have hrec := compress_loop_records pixel_data size size 0 0
  have hsplit : compress_records pixel_data size =
      ((compress_loop pixel_data size size 0 0).1 ++
        (if (compress_loop pixel_data size size 0 0).2.2 <
            (compress_loop pixel_data size size 0 0).2.1 then
          [literal_after_scan pixel_data (compress_loop pixel_data size size 0 0).2.2
            (compress_loop pixel_data size size 0 0).2.1] else [])) ++
        [eoi_record (compress_loop pixel_data size size 0 0).2.1] := rfl
  rw [hsplit] at hlit ⊢
  generalize hbody : (compress_loop pixel_data size size 0 0).1 ++
      (if (compress_loop pixel_data size size 0 0).2.2 <
          (compress_loop pixel_data size size 0 0).2.1 then
        [literal_after_scan pixel_data (compress_loop pixel_data size size 0 0).2.2
          (compress_loop pixel_data size size 0 0).2.1] else []) = body at hlit ⊢
  have hwf : ∀ r ∈ body,
      (r.code &&& 0xF0000000 = OIF_UNCOMPR_TYPE ∧
        r.code &&& 0x0000FFFF = r.payload.length) ∨
      (r.code &&& 0xF0000000 = OIF_RLE_TYPE ∧ r.payload.length = 1) := by
    intro r hr
    have hl := hlit r (List.mem_append_left _ hr)
    rw [← hbody] at hr
    simp only [List.mem_append] at hr
    rcases hr with hr | hr
    · rcases hrec r hr with ⟨hc, hp⟩ | ⟨hc, hl2, hp⟩
      · left
        rw [hc, hp]
        exact ⟨type_mask_uncompr _ (by omega), count_mask_uncompr _ (by omega)⟩
      · right
        rw [hc]
        exact ⟨type_mask_rle _ (by omega), hp⟩
    · split_ifs at hr with hk
      · simp only [List.mem_singleton] at hr
        have hp : r.payload.length = r.len := by
          subst hr
          simp only [literal_after_scan, List.length_map, List.length_range']
        have hc : r.code = OIF_UNCOMPR_TYPE ||| r.len := by
          subst hr
          simp only [literal_after_scan]
        left
        rw [hc, hp]
        rw [hp] at hl
        exact ⟨type_mask_uncompr _ (by omega), count_mask_uncompr _ (by omega)⟩
      · simp at hr
  have hst : stream (body ++ [eoi_record (compress_loop pixel_data size size 0 0).2.1]) =
      stream body ++ [OIF_EOI_TYPE] := by
    rw [stream_append]
    rfl
  have hwalk := control_word_indices_stream (stream body ++ [OIF_EOI_TYPE]) body
    (stream body ++ [OIF_EOI_TYPE]).length 0 hwf
    (by intro i _; rw [Nat.zero_add])
    (by rw [List.length_append, List.length_singleton]; omega)
    (by
      have := length_le_stream_length body
      rw [List.length_append, List.length_singleton]
      omega)
  refine ⟨body, _, rfl, ?_, ?_, ?_⟩
  · intro r hr h15
    rcases hwf r hr with ⟨hk, -⟩ | ⟨hk, -⟩
    · rw [and_type_mask, h15] at hk
      exact absurd hk (by decide)
    · rw [and_type_mask, h15] at hk
      exact absurd hk (by decide)
  · rw [hst]
    exact hwalk.1
  · rw [hst, hwalk.2, List.length_append, List.length_singleton]
    simp only [Nat.zero_add, Nat.add_sub_cancel]

/-! ### A literal span of 65536 pixels before a run -/

theorem stream_literal_run_head (pixel_data : Nat → Nat) (i j : Nat) (hi : 1 ≤ i) :
    ∃ tail, stream [literal_before_run pixel_data 0 i, run_record pixel_data i j,
      eoi_record j] = (OIF_UNCOMPR_TYPE ||| i) :: pixel_data 0 :: tail := by
  obtain ⟨n, rfl⟩ : ∃ n, i = n + 1 := ⟨i - 1, by omega⟩
  refine ⟨(List.range' (0 + 1) n).map (fun l => pixel_data l) ++
    stream [run_record pixel_data (n + 1) j, eoi_record j], ?_⟩
  rw [stream_cons]
  simp only [Record.words, literal_before_run, Nat.sub_zero, List.range'_succ, List.map_cons,
    List.cons_append]

/-- A reader of a stream whose first word is a literal control word with count field 0
and whose second word is an end-of-image word meets that word as the second control
word and stops there. -/
theorem control_word_indices_spill (ws : List Nat) (fuel : Nat) (hlen : 2 ≤ ws.length)
    (h0 : ws.getD 0 0 = 0x10010000) (h1 : ws.getD 1 0 = 0xF0000000) :
    control_word_indices ws (fuel + 2) 0 = [0, 1] := by
  have hk : (0x10010000 : Nat) &&& 0xF0000000 = OIF_UNCOMPR_TYPE := by decide
  have hn : (0x10010000 : Nat) &&& 0x0000FFFF = 0 := by decide
  have he : (0xF0000000 : Nat) &&& 0xF0000000 = OIF_EOI_TYPE := by decide
  rw [control_word_indices_literal ws (fuel + 1) 0 (by omega) (by rw [h0]; exact hk), h0, hn,
    control_word_indices_eoi ws fuel (0 + 1 + 0) (by omega) (by
      rw [show 0 + 1 + 0 = 1 by rfl, h1]; exact he)]

/-- The records stored for a buffer of 65539 pixels whose first 65536 pixels alternate
between `0xF0000000` and 1 and whose last three pixels are 7: one literal record of 65536
pixels, one run record of 3 pixels, and the end-of-image record. -/
theorem compress_records_spill :
    compress_records
        (fun p => if p < 65536 then (if p % 2 = 0 then 0xF0000000 else 1) else 7) 65539 =
      [literal_before_run
          (fun p => if p < 65536 then (if p % 2 = 0 then 0xF0000000 else 1) else 7) 0 65536,
        run_record
          (fun p => if p < 65536 then (if p % 2 = 0 then 0xF0000000 else 1) else 7)
          65536 65539,
        eoi_record 65539] := by
  generalize hpd :
    (fun p : Nat => if p < 65536 then (if p % 2 = 0 then 0xF0000000 else 1) else 7) = pd
  have hval : ∀ p, pd p = if p < 65536 then (if p % 2 = 0 then 0xF0000000 else 1) else 7 := by
    intro p; rw [← hpd]
  have hskip := compress_loop_skip_range pd 65539 65536 65539 3 0 0 (by decide) (by
    intro t _ ht
    refine ⟨by omega, ?_⟩
    rw [Nat.mod_eq_of_lt (by omega)]
    have : scan pd 65539 t 32768 (t + 1) ≤ t + 1 := by
      apply scan_le_of_stop _ _ _ _ _ _ (Nat.le_refl _)
      rintro ⟨-, -, h3⟩
      rw [hval, hval] at h3
      split_ifs at h3 <;> omega
    omega)
  have hs : scan pd 65539 65536 32768 (65536 + 1) = 65539 := by
    apply scan_eq
    · decide
    · decide
    · intro l h1 h2
      refine ⟨by omega, by omega, ?_⟩
      rw [hval, hval, if_neg (by omega), if_neg (by decide)]
    · rintro ⟨h1, -, -⟩; omega
  have hrun := compress_loop_run pd 65539 2 65536 0 65539 (by decide) hs (by decide)
  have hloop : compress_loop pd 65539 65539 0 0 =
      ([literal_before_run pd 0 65536, run_record pd 65536 65539], 65539, 65539) := by
    rw [hskip]
    rw [show (0 : Nat) + 65536 = 65536 by decide, show (3 : Nat) = 2 + 1 by rfl,
      hrun, if_pos (by decide), compress_loop_done _ _ _ _ _ (Nat.lt_irrefl _)]
    simp only [List.singleton_append]
  unfold compress_records
  rw [hloop]
  simp only [Nat.lt_irrefl, if_false, List.append_nil, List.cons_append, List.nil_append]

/-! ### The claims -/

/-- Claim C1 (round-trip identity) fails on the code.  For the 3 x 1 image `[1, 2, 1]` the
encoder stores the literal record `0x10000003, g, g, g` and the end-of-image word, 20
bytes, where `g` is the word that lies behind the pixel buffer: no pixel of the image is in
the stream.  Whatever `g`, the memory behind the stream and the destination are, the
decoder returns 0 on it and leaves three equal pixels `g`, which is not `[1, 2, 1]`. -/
theorem roundtrip_three_pixels (g : Nat) (rest img_data : Nat → Nat) :
    stream (oif_compress (header_of 3 1) (word_memory [1, 2, 1] (fun _ => g))).2 =
        [0x10000003, g, g, g, 0xF0000000] ∧
      (oif_uncompress (oif_compress (header_of 3 1) (word_memory [1, 2, 1] (fun _ => g))).1
          (word_memory
            (stream (oif_compress (header_of 3 1) (word_memory [1, 2, 1] (fun _ => g))).2)
            rest)
          img_data).map (fun r => (r.ret, pixels r.st.img 3)) =
        some (0, [g % 2 ^ 32, g % 2 ^ 32, g % 2 ^ 32]) ∧
      [g % 2 ^ 32, g % 2 ^ 32, g % 2 ^ 32] ≠ [1, 2, 1] := by
  have hs : stream [literal_after_scan (word_memory [1, 2, 1] (fun _ => g)) 0 3,
      eoi_record 3] = [0x10000003, g, g, g, 0xF0000000] := by
    simp [stream, literal_after_scan, eoi_record, Record.words, word_memory,
      OIF_UNCOMPR_TYPE, OIF_EOI_TYPE]
  rw [compress_three]
  simp only [hs]
  refine ⟨trivial, decode_literal_three g rest img_data, ?_⟩
  intro h
  simp only [List.cons.injEq] at h
  omega

/-- Claim C2 (destination safety of `oif_uncompress`).  For every header whose
`width * height` fits an `unsigned int`, every source memory and every destination memory,
`oif_uncompress` returns, every 32-bit store it made lies inside the first
`4 * width * height` bytes of the destination, and every byte from offset
`4 * width * height` on is as it was. -/
theorem oif_uncompress_stores_in_bounds (header : oif_header)
    (compr_data img_data : Nat → Nat)
    (hsize : header.width * header.height < 2 ^ 32) :
    ∃ r, oif_uncompress header compr_data img_data = some r ∧
      (∀ b ∈ r.st.writes, b + 4 ≤ 4 * (header.width * header.height)) ∧
      (∀ a, 4 * (header.width * header.height) ≤ a → r.st.img a = img_data a) := by
  obtain ⟨r, hr⟩ := oif_uncompress_returns header compr_data img_data
  refine ⟨r, hr, ?_, ?_⟩
  · unfold oif_uncompress at hr
    have := uncompress_loop_writes header compr_data _ _ _ _ _ r (by simp) hr
    rwa [Nat.mod_eq_of_lt hsize] at this
  · unfold oif_uncompress at hr
    have := uncompress_loop_img header compr_data _ _ _ _ _ r hr
    rwa [Nat.mod_eq_of_lt hsize] at this

/-- Witness for C2: a 3 x 2 image and a stream with a literal-with-start-line record for
line 1; the two stores go to byte offsets 3 and 7. -/
theorem oif_uncompress_stores_in_bounds_witness :
    (3 * 2 < 2 ^ 32) ∧
      ∃ r, oif_uncompress { header_of 3 2 with img_size := 16 }
          (word_memory [0x20010002, 1, 2, 0xF0000000] zero_memory)
          (pixel_memory [9, 9, 9, 9, 9, 9]) = some r ∧
        (∀ b ∈ r.st.writes, b + 4 ≤ 4 * (3 * 2)) ∧
        (∀ a, 4 * (3 * 2) ≤ a → r.st.img a = pixel_memory [9, 9, 9, 9, 9, 9] a) :=
  ⟨by decide, oif_uncompress_stores_in_bounds { header_of 3 2 with img_size := 16 }
    (word_memory [0x20010002, 1, 2, 0xF0000000] zero_memory)
    (pixel_memory [9, 9, 9, 9, 9, 9]) (by decide)⟩

/-- Claim C3 (source safety) fails on the code.  With `img_size = 0` the first control
word is loaded all the same, and an end-of-image word there makes the function return 0.
With `img_size = 4`, one word, the run record `0x30000001, 7` and the word after it are
loaded from byte offsets 4 and 8, and the function returns 0 having stored the pixel 7:
the bound `max_code` is `img_size` words, not `img_size` bytes, and it is compared after
the load. -/
theorem oif_uncompress_reads_past_img_size :
    (oif_uncompress { header_of 1 1 with img_size := 0 }
        (word_memory [0xF0000000] zero_memory) (pixel_memory [9])).map
        (fun r => (r.ret, r.st.reads)) = some (0, [0]) ∧
      (oif_uncompress { header_of 1 1 with img_size := 4 }
        (word_memory [0x30000001, 7, 0xF0000000] zero_memory) (pixel_memory [9])).map
        (fun r => (r.ret, r.st.reads, pixels r.st.img 1)) = some (0, [2, 1, 0], [7]) := by
  constructor <;> decide

/-- Claim C4 (destination-overrun detection).  If the first control word is a data record
(type 1, 2, 3 or 4) whose count field is greater than `width * height`, `oif_uncompress`
returns `OIF_ERR_DST_OVERRUN` and has stored nothing: the destination memory is the one
passed in. -/
theorem oif_uncompress_first_record_dst_overrun (header : oif_header)
    (compr_data img_data : Nat → Nat)
    (hkind : code_type (compr_data 0) = 1 ∨ code_type (compr_data 0) = 2 ∨
      code_type (compr_data 0) = 3 ∨ code_type (compr_data 0) = 4)
    (hcount : header.width * header.height < code_count (compr_data 0)) :
    ∃ r, oif_uncompress header compr_data img_data = some r ∧
      r.ret = OIF_ERR_DST_OVERRUN ∧ r.st.img = img_data ∧ r.st.writes = [] := by
  have hmod : (header.width * header.height) % 2 ^ 32 ≤ header.width * header.height :=
    Nat.mod_le _ _
  have hm := and_type_mask (compr_data 0)
  unfold code_count at hcount
  unfold oif_uncompress
  generalize header.width * header.height = N at *
  generalize hl : ((compr_data 0 >>> 16) &&& 0x00000FFF) * header.width = lw
  have hd1 : 0 + 4 * (compr_data 0 &&& 0x0000FFFF) > 4 * (N % 2 ^ 32) := by omega
  have hd2 : lw % 2 ^ 32 + 4 * (compr_data 0 &&& 0x0000FFFF) > 4 * (N % 2 ^ 32) := by omega
  have hd3 : 4 * (lw % 2 ^ 32) + 4 * (compr_data 0 &&& 0x0000FFFF) > 4 * (N % 2 ^ 32) := by
    omega
  rcases hkind with h | h | h | h <;> rw [h] at hm <;>
    simp [uncompress_loop, decode_record, OIF_EOI_TYPE, OIF_UNCOMPR_TYPE,
      OIF_UNCOMPR_WSL_TYPE, OIF_RLE_TYPE, OIF_RLE_WSL_TYPE, hm, hl]
  all_goals split_ifs
  all_goals first
    | exact ⟨_, rfl, rfl, rfl, rfl⟩
    | omega

/-- Witness for C4: a 2 x 2 image and a run record of 5 pixels. -/
theorem oif_uncompress_first_record_dst_overrun_witness :
    (code_type (word_memory [0x30000005, 7, 0xF0000000] zero_memory 0) = 3) ∧
      ((header_of 2 2).width * (header_of 2 2).height <
        code_count (word_memory [0x30000005, 7, 0xF0000000] zero_memory 0)) ∧
      ∃ r, oif_uncompress (header_of 2 2)
          (word_memory [0x30000005, 7, 0xF0000000] zero_memory)
          (pixel_memory [9, 9, 9, 9]) = some r ∧
        r.ret = OIF_ERR_DST_OVERRUN ∧ r.st.img = pixel_memory [9, 9, 9, 9] ∧
        r.st.writes = [] :=
  ⟨by decide, by decide,
    oif_uncompress_first_record_dst_overrun (header_of 2 2)
      (word_memory [0x30000005, 7, 0xF0000000] zero_memory) (pixel_memory [9, 9, 9, 9])
      (Or.inr (Or.inr (Or.inl (by decide)))) (by decide)⟩

/-- Claim C5 (source-overrun detection) fails on the code.  The 3 x 1 image `[5, 5, 5]` is
stored as `0x30000003, 5, 0xF0000000` with `img_size = 12`.  Without the last word and with
`img_size = 8` the decoder loads the word behind the stream: it returns
`OIF_ERR_UNKNWON_CODE` when that word is 0, and 0 when the end-of-image word is still
there.  The 2 x 1 image `[1, 2]` is stored as `0x10000002, 0, 0, 0xF0000000`; cut to its
first two words, with `img_size = 8`, it decodes to `OIF_ERR_UNKNWON_CODE` as well.  In no
case is the result `OIF_ERR_SRC_OVERRUN`. -/
theorem truncated_stream_not_src_overrun :
    (oif_compress (header_of 3 1) (word_memory [5, 5, 5] zero_memory)).1.img_size = 12 ∧
      stream (oif_compress (header_of 3 1) (word_memory [5, 5, 5] zero_memory)).2 =
        [0x30000003, 5, 0xF0000000] ∧
      (oif_uncompress { header_of 3 1 with img_size := 12 - 4 }
        (word_memory [0x30000003, 5] zero_memory) (pixel_memory [9, 9, 9])).map
        (fun r => r.ret) = some OIF_ERR_UNKNWON_CODE ∧
      (oif_uncompress { header_of 3 1 with img_size := 12 - 4 }
        (word_memory [0x30000003, 5, 0xF0000000] zero_memory) (pixel_memory [9, 9, 9])).map
        (fun r => r.ret) = some 0 ∧
      stream (oif_compress (header_of 2 1) (word_memory [1, 2] zero_memory)).2 =
        [0x10000002, 0, 0, 0xF0000000] ∧
      (oif_uncompress { header_of 2 1 with img_size := 8 }
        (word_memory [0x10000002, 0] zero_memory) (pixel_memory [9, 9])).map
        (fun r => r.ret) = some OIF_ERR_UNKNWON_CODE := by
  refine ⟨by decide, by decide, by decide, by decide, by decide, by decide⟩

/-- Claim C6 (unknown-code detection).  If the type bits 31-28 of the first control word
are none of 1, 2, 3, 4 and 15, `oif_uncompress` returns `OIF_ERR_UNKNWON_CODE` and has
stored nothing. -/
theorem oif_uncompress_first_record_unknown_code (header : oif_header)
    (compr_data img_data : Nat → Nat)
    (hkind : code_type (compr_data 0) ≠ 1 ∧ code_type (compr_data 0) ≠ 2 ∧
      code_type (compr_data 0) ≠ 3 ∧ code_type (compr_data 0) ≠ 4 ∧
      code_type (compr_data 0) ≠ 15) :
    ∃ r, oif_uncompress header compr_data img_data = some r ∧
      r.ret = OIF_ERR_UNKNWON_CODE ∧ r.st.img = img_data ∧ r.st.writes = [] := by
  have hm := and_type_mask (compr_data 0)
  have hlt := code_type_lt (compr_data 0)
  obtain ⟨h1, h2, h3, h4, h5⟩ := hkind
  rw [Nat.shiftLeft_eq] at hm
  have e1 : compr_data 0 &&& 0xF0000000 ≠ 0xF0000000 := by omega
  have e2 : compr_data 0 &&& 0xF0000000 ≠ 0x10000000 := by omega
  have e3 : compr_data 0 &&& 0xF0000000 ≠ 0x20000000 := by omega
  have e4 : compr_data 0 &&& 0xF0000000 ≠ 0x30000000 := by omega
  have e5 : compr_data 0 &&& 0xF0000000 ≠ 0x40000000 := by omega
  unfold oif_uncompress
  simp only [uncompress_loop, decode_record, OIF_EOI_TYPE, OIF_UNCOMPR_TYPE,
    OIF_UNCOMPR_WSL_TYPE, OIF_RLE_TYPE, OIF_RLE_WSL_TYPE]
  norm_num at e1 e2 e3 e4 e5 ⊢
  simp only [e1, e2, e3, e4, e5, if_false, not_false_eq_true, if_true]
  exact ⟨_, rfl, rfl, rfl, rfl⟩

/-- Witness for C6: a control word of type 5. -/
theorem oif_uncompress_first_record_unknown_code_witness :
    (code_type (word_memory [0x50000001, 7, 0xF0000000] zero_memory 0) ≠ 1 ∧
      code_type (word_memory [0x50000001, 7, 0xF0000000] zero_memory 0) ≠ 2 ∧
      code_type (word_memory [0x50000001, 7, 0xF0000000] zero_memory 0) ≠ 3 ∧
      code_type (word_memory [0x50000001, 7, 0xF0000000] zero_memory 0) ≠ 4 ∧
      code_type (word_memory [0x50000001, 7, 0xF0000000] zero_memory 0) ≠ 15) ∧
      ∃ r, oif_uncompress (header_of 2 2)
          (word_memory [0x50000001, 7, 0xF0000000] zero_memory)
          (pixel_memory [9, 9, 9, 9]) = some r ∧
        r.ret = OIF_ERR_UNKNWON_CODE ∧ r.st.img = pixel_memory [9, 9, 9, 9] ∧
        r.st.writes = [] :=
  ⟨by decide,
    oif_uncompress_first_record_unknown_code (header_of 2 2)
      (word_memory [0x50000001, 7, 0xF0000000] zero_memory) (pixel_memory [9, 9, 9, 9])
      (by decide)⟩

/-- Claim C7 (run threshold).  For `n` pixels `X` followed by one pixel `Y ≠ X`,
`1 ≤ n ≤ 32768`, the records stored are, as (type, count, words after the control word):
for `n ≤ 2` one literal record of count `n + 1`, then the end-of-image word; for `n ≥ 3`
one run record of count `n` with value `X`, one literal record of count 1, then the
word that ends the image.  The words after a literal control word are copies of the word
behind the buffer, `pixel_data (n + 1)`. -/
theorem run_threshold (header : oif_header) (pixel_data : Nat → Nat) (X Y n : Nat)
    (hXY : X ≠ Y) (hn1 : 1 ≤ n) (hn2 : n ≤ 32768)
    (hsize : header.width * header.height = n + 1)
    (hX : ∀ l, l < n → pixel_data l = X) (hY : pixel_data n = Y) :
    (oif_compress header pixel_data).2.map
        (fun r => (code_type r.code, code_count r.code, r.payload)) =
      if n ≤ 2 then
        [(1, n + 1, List.replicate (n + 1) (pixel_data (n + 1))), (15, 0, [])]
      else
        [(3, n, [X]), (1, 1, [pixel_data (n + 1)]), (15, 0, [])] := by
  have hmod : (header.width * header.height) % 2 ^ 32 = n + 1 := by
    rw [hsize]; exact Nat.mod_eq_of_lt (by omega)
  have hloop : compress_loop pixel_data (n + 1) (n + 1) 0 0 =
      if n ≤ 2 then ([], n + 1, 0) else ([run_record pixel_data 0 n], n + 1, n) := by
    split_ifs with h2
    · have := compress_loop_no_run pixel_data (n + 1) (n + 1) 0 0 (by omega) (by
        intro t _ ht
        have h2' : (t + 2) % 2 ^ 32 = t + 2 := Nat.mod_eq_of_lt (by omega)
        rw [h2']
        have hle := scan_le_size pixel_data (n + 1) t 32768 (t + 1) (by omega)
        by_cases hend : n + 1 ≤ t + 2
        · omega
        · have : scan pixel_data (n + 1) t 32768 (t + 1) ≤ n := by
            apply scan_le_of_stop
            · omega
            · rintro ⟨-, -, h⟩
              rw [hY, hX t (by omega)] at h; exact hXY h.symm
          omega)
      rw [this]
      have : max 0 (n + 1) = n + 1 := by omega
      rw [this]
    · have hs : scan pixel_data (n + 1) 0 32768 1 = n := by
        apply scan_eq
        · omega
        · omega
        · intro l h1 h3
          exact ⟨by omega, by omega, by rw [hX l h3, hX 0 (by omega)]⟩
        · rintro ⟨-, -, h⟩
          rw [hY, hX 0 (by omega)] at h; exact hXY h.symm
      rw [compress_loop_run pixel_data (n + 1) n 0 0 n (by omega) hs (by
        rw [Nat.mod_eq_of_lt (by norm_num)]; omega)]
      have hs2 : scan pixel_data (n + 1) n 32768 (n + 1) = n + 1 := by
        apply scan_eq
        · omega
        · omega
        · intro l h1 h3; omega
        · rintro ⟨h, -, -⟩; omega
      obtain ⟨m, rfl⟩ : ∃ m, n = m + 1 := ⟨n - 1, by omega⟩
      rw [compress_loop_skip pixel_data (m + 1 + 1) m (m + 1) (m + 1) (by omega) (by
        rw [hs2, Nat.mod_eq_of_lt (by omega)]; omega)]
      rw [compress_loop_done _ _ _ _ _ (by omega)]
      simp
  unfold oif_compress compress_records
  simp only [hmod]
  by_cases h2 : n ≤ 2
  · rw [if_pos h2] at hloop ⊢
    simp only [hloop]
    rw [if_pos (by omega : 0 < n + 1)]
    simp only [List.nil_append, List.singleton_append, List.map_cons, List.map_nil,
      literal_after_scan_payload, eoi_record, Nat.sub_zero]
    simp only [literal_after_scan, Nat.sub_zero, code_type_uncompr (n + 1) (by omega),
      code_count_uncompr (n + 1) (by omega), code_type_eoi, code_count_eoi]
  · rw [if_neg h2] at hloop ⊢
    simp only [hloop]
    rw [if_pos (by omega : n < n + 1)]
    have h4 : n + 1 - n = 1 := by omega
    simp only [List.singleton_append, List.map_cons, List.map_nil, List.cons_append,
      List.nil_append, literal_after_scan_payload, eoi_record, h4, List.replicate_one]
    simp only [literal_after_scan, run_record, Nat.sub_zero, h4,
      code_type_uncompr 1 (by omega), code_count_uncompr 1 (by omega),
      code_type_rle n (by omega), code_count_rle n (by omega), code_type_eoi, code_count_eoi,
      hX 0 (by omega)]

/-- Witness for C7: the buffer `[1, 1, 1, 2]`. -/
theorem run_threshold_witness :
    ((1 : Nat) ≠ 2) ∧ (1 ≤ 3) ∧ (3 ≤ 32768) ∧
      ((header_of 4 1).width * (header_of 4 1).height = 3 + 1) ∧
      (∀ l, l < 3 → word_memory [1, 1, 1, 2] zero_memory l = 1) ∧
      (word_memory [1, 1, 1, 2] zero_memory 3 = 2) ∧
      (oif_compress (header_of 4 1) (word_memory [1, 1, 1, 2] zero_memory)).2.map
          (fun r => (code_type r.code, code_count r.code, r.payload)) =
        if 3 ≤ 2 then
          [(1, 3 + 1, List.replicate (3 + 1) (word_memory [1, 1, 1, 2] zero_memory (3 + 1))),
            (15, 0, [])]
        else
          [(3, 3, [1]), (1, 1, [word_memory [1, 1, 1, 2] zero_memory (3 + 1)]),
            (15, 0, [])] :=
  ⟨by decide, by decide, by decide, by decide, by decide, by decide,
    run_threshold (header_of 4 1) (word_memory [1, 1, 1, 2] zero_memory) 1 2 3
      (by decide) (by decide) (by decide) (by decide) (by decide) (by decide)⟩

/-- Counterexample to claim C8 as stated.  The 65536 x 65537 image of equal pixels has
`n = 2 ^ 32 + 65536` pixels, but `width * height` is 65536 as an `unsigned int`: two run
records of 32768 pixels are stored before the end-of-image record, and their counts add
up to 65536, not to `n`. -/
theorem uniform_counts_counterexample :
    (header_of 65536 65537).width * (header_of 65536 65537).height = 4295032832 ∧
      (oif_compress (header_of 65536 65537) (fun _ => 5)).2 =
        [run_record (fun _ => 5) 0 32768, run_record (fun _ => 5) 32768 65536,
          eoi_record 65536] ∧
      (oif_compress (header_of 65536 65537) (fun _ => 5)).2.map
          (fun r => (code_type r.code, code_count r.code, r.payload)) =
        [(3, 32768, [5]), (3, 32768, [5]), (15, 0, [])] ∧
      ([run_record (fun _ => 5) 0 32768, run_record (fun _ => 5) 32768 65536].map
          (fun r => code_count r.code)).sum = 65536 ∧
      65536 ≠ (header_of 65536 65537).width * (header_of 65536 65537).height := by
  have hsz : ((header_of 65536 65537).width * (header_of 65536 65537).height) % 2 ^ 32 =
      65536 := by decide
  have hrec := compress_records_uniform_65536 (fun _ => 5) 5 (fun _ _ => rfl)
  refine ⟨by decide, ?_, ?_, by decide, by decide⟩
  · rw [oif_compress_records, hsz, hrec]
  · rw [oif_compress_records, hsz, hrec]
    decide

/-- Claim C8 as amended (count capping for uniform input).  For a header whose
`n = width * height` is below `2 ^ 32` and a buffer of `n ≥ 3` equal pixels: every record
before the end-of-image record stands for at most 32768 pixels, its control word is the
type word of a run or of a literal plus that number, so the count field holds the number
unclipped; the numbers of pixels, and so the count fields, add up to `n`; for `n = 70000`
the records are three run records, of 32768, 32768 and 4464 pixels. -/
theorem uniform_counts (header : oif_header) (pixel_data : Nat → Nat) (X n : Nat)
    (hn : 3 ≤ n) (hlt : n < 2 ^ 32) (hsize : header.width * header.height = n)
    (hX : ∀ l, l < n → pixel_data l = X) :
    ∃ body, (oif_compress header pixel_data).2 = body ++ [eoi_record n] ∧
      (∀ r ∈ body, 1 ≤ r.len ∧ r.len ≤ 32768 ∧ code_count r.code = r.len ∧
        ((r.code = OIF_RLE_TYPE + r.len ∧ r.payload.length = 1) ∨
          (r.code = OIF_UNCOMPR_TYPE + r.len ∧ r.payload.length = r.len))) ∧
      (body.map (fun r => r.len)).sum = n ∧
      (body.map (fun r => code_count r.code)).sum = n ∧
      (n = 70000 → body.map (fun r => (code_type r.code, code_count r.code, r.payload)) =
        [(3, 32768, [X]), (3, 32768, [X]), (3, 4464, [X])]) := by
  have hmod : (header.width * header.height) % 2 ^ 32 = n := by
    rw [hsize]; exact Nat.mod_eq_of_lt hlt
  obtain ⟨h1, h2, h3, h4, h5⟩ :=
    uniform_loop pixel_data X n hX n 0 0 (Nat.le_refl _) (by omega) (Or.inl rfl) (by omega)
  have hrecs := compress_loop_records pixel_data n n 0 0
  have hpos := compress_loop_len_pos pixel_data n n 0 0
  have hcount : ∀ x : Record,
      ((x.code = OIF_RLE_TYPE ||| x.len ∧ x.len ≤ 32768) ∨
        (x.code = OIF_UNCOMPR_TYPE ||| x.len ∧ x.len ≤ 2)) → code_count x.code = x.len := by
    intro x hx
    rcases hx with ⟨hc, hl⟩ | ⟨hc, hl⟩
    · rw [hc, code_count_rle _ (by omega)]
    · rw [hc, code_count_uncompr _ (by omega)]
  have hshape : ∀ x ∈ (compress_loop pixel_data n n 0 0).1,
      x.len ≤ 32768 ∧
        ((x.code = OIF_RLE_TYPE + x.len ∧ x.payload.length = 1) ∨
          (x.code = OIF_UNCOMPR_TYPE + x.len ∧ x.payload.length = x.len)) := by
    intro x hx
    have hl : x.len ≤ 32768 := by
      rcases h4 x hx with ⟨-, hl⟩ | ⟨-, hl⟩ <;> omega
    refine ⟨hl, ?_⟩
    rcases hrecs x hx with ⟨hc, hp⟩ | ⟨hc, -, hp⟩
    · right
      rw [hc, uncompr_or _ (by omega)]
      exact ⟨rfl, hp⟩
    · left
      rw [hc, rle_or _ (by omega)]
      exact ⟨rfl, hp⟩
  refine ⟨(compress_loop pixel_data n n 0 0).1 ++
      (if (compress_loop pixel_data n n 0 0).2.2 < (compress_loop pixel_data n n 0 0).2.1 then
        [literal_after_scan pixel_data (compress_loop pixel_data n n 0 0).2.2
          (compress_loop pixel_data n n 0 0).2.1] else []), ?_, ?_, ?_, ?_, ?_⟩
  · unfold oif_compress compress_records
    simp only [hmod, h1]
  · intro r hr
    simp only [List.mem_append] at hr
    rcases hr with hr | hr
    · exact ⟨hpos r hr, (hshape r hr).1, hcount r (h4 r hr), (hshape r hr).2⟩
    · split_ifs at hr with hk
      · simp only [List.mem_singleton] at hr
        subst hr
        simp only [literal_after_scan, List.length_map, List.length_range']
        rw [code_count_uncompr _ (by omega), uncompr_or _ (by omega)]
        refine ⟨by omega, by omega, rfl, Or.inr ⟨rfl, trivial⟩⟩
      · simp at hr
  · rw [List.map_append, List.sum_append]
    split_ifs with hk
    · simp only [List.map_cons, List.map_nil, List.sum_cons, List.sum_nil, literal_after_scan]
      omega
    · simp only [List.map_nil, List.sum_nil]
      omega
  · have hmap : (compress_loop pixel_data n n 0 0).1.map (fun r => code_count r.code) =
        (compress_loop pixel_data n n 0 0).1.map (fun x => x.len) :=
      List.map_congr_left (fun r hr => hcount r (h4 r hr))
    rw [List.map_append, List.sum_append, hmap]
    split_ifs with hk
    · simp only [List.map_cons, List.map_nil, List.sum_cons, List.sum_nil, literal_after_scan]
      rw [code_count_uncompr _ (by omega)]
      omega
    · simp only [List.map_nil, List.sum_nil]
      omega
  · intro h70
    subst h70
    have s0 : scan pixel_data 70000 0 32768 (0 + 1) = 32768 := by
      rw [uniform_scan pixel_data X 70000 0 hX (by omega)]; rfl
    have s1 : scan pixel_data 70000 32768 32768 (32768 + 1) = 65536 := by
      rw [uniform_scan pixel_data X 70000 32768 hX (by omega)]; rfl
    have s2 : scan pixel_data 70000 65536 32768 (65536 + 1) = 70000 := by
      rw [uniform_scan pixel_data X 70000 65536 hX (by omega)]; rfl
    have l3 : compress_loop pixel_data 70000 69997 70000 70000 = ([], 70000, 70000) :=
      compress_loop_done _ _ _ _ _ (by omega)
    have l2 : compress_loop pixel_data 70000 69998 65536 65536 =
        ([run_record pixel_data 65536 70000], 70000, 70000) := by
      rw [compress_loop_run pixel_data 70000 69997 65536 65536 70000 (by omega) s2 (by decide),
        l3]
      rfl
    have l1 : compress_loop pixel_data 70000 69999 32768 32768 =
        ([run_record pixel_data 32768 65536, run_record pixel_data 65536 70000],
          70000, 70000) := by
      rw [compress_loop_run pixel_data 70000 69998 32768 32768 65536 (by omega) s1 (by decide),
        l2]
      rfl
    have l0 : compress_loop pixel_data 70000 70000 0 0 =
        ([run_record pixel_data 0 32768, run_record pixel_data 32768 65536,
          run_record pixel_data 65536 70000], 70000, 70000) := by
      rw [compress_loop_run pixel_data 70000 69999 0 0 32768 (by omega) s0 (by decide), l1]
      rfl
    rw [l0]
    simp only [Nat.lt_irrefl, if_false, List.append_nil, List.map_cons, List.map_nil,
      run_record, hX 0 (by omega), hX 32768 (by omega), hX 65536 (by omega)]
    rw [code_type_rle _ (by omega), code_count_rle _ (by omega),
      code_type_rle _ (by omega), code_count_rle _ (by omega)]

/-- Witness for the amended C8: 70000 pixels of value 5. -/
theorem uniform_counts_witness :
    (3 ≤ 70000) ∧ (70000 < 2 ^ 32) ∧
      ((header_of 70000 1).width * (header_of 70000 1).height = 70000) ∧
      ∃ body, (oif_compress (header_of 70000 1) (fun _ => 5)).2 =
          body ++ [eoi_record 70000] ∧
        (∀ r ∈ body, 1 ≤ r.len ∧ r.len ≤ 32768 ∧ code_count r.code = r.len ∧
          ((r.code = OIF_RLE_TYPE + r.len ∧ r.payload.length = 1) ∨
            (r.code = OIF_UNCOMPR_TYPE + r.len ∧ r.payload.length = r.len))) ∧
        (body.map (fun r => r.len)).sum = 70000 ∧
        (body.map (fun r => code_count r.code)).sum = 70000 ∧
        (70000 = 70000 →
          body.map (fun r => (code_type r.code, code_count r.code, r.payload)) =
            [(3, 32768, [5]), (3, 32768, [5]), (3, 4464, [5])]) :=
  ⟨by decide, by decide, by decide,
    uniform_counts (header_of 70000 1) (fun _ => 5) 5 70000 (by decide) (by decide)
      (by decide) (fun _ _ => rfl)⟩

/-- Claim C9 (all-distinct buffer) fails on the code.  For the 2 x 1 image `[1, 2]` the
encoder stores four words, `0x10000002, g, g, 0xF0000000`, where `g` is the word behind the
pixel buffer: the count is 2 but the two words after the control word are not the pixels
1 and 2.  The decoder returns 0 on that stream and leaves two equal pixels `g`, which is
not `[1, 2]`. -/
theorem distinct_pixels_literal_payload (g : Nat) (rest img_data : Nat → Nat) :
    stream (oif_compress (header_of 2 1) (word_memory [1, 2] (fun _ => g))).2 =
        [0x10000002, g, g, 0xF0000000] ∧
      (oif_uncompress (oif_compress (header_of 2 1) (word_memory [1, 2] (fun _ => g))).1
          (word_memory
            (stream (oif_compress (header_of 2 1) (word_memory [1, 2] (fun _ => g))).2) rest)
          img_data).map (fun r => (r.ret, pixels r.st.img 2)) =
        some (0, [g % 2 ^ 32, g % 2 ^ 32]) ∧
      [g % 2 ^ 32, g % 2 ^ 32] ≠ [1, 2] := by
  have hs : stream [literal_after_scan (word_memory [1, 2] (fun _ => g)) 0 2,
      eoi_record 2] = [0x10000002, g, g, 0xF0000000] := by
    simp [stream, literal_after_scan, eoi_record, Record.words, word_memory,
      OIF_UNCOMPR_TYPE, OIF_EOI_TYPE]
  rw [compress_two]
  simp only [hs]
  refine ⟨trivial, decode_literal_two g rest img_data, ?_⟩
  intro h
  simp only [List.cons.injEq] at h
  omega

/-- Counterexample to claim C10 as stated, at two inputs.  For a 32768 x 32768 image whose
pixels alternate between 0 and 1 the encoder stores `2 ^ 30 + 2` words, 4294967304 bytes,
and sets `img_size` to 8.  For a 65539 x 1 image whose first 65536 pixels alternate
between `0xF0000000` and 1 and whose last three pixels are 7, 65540 words are stored, the
first control word is `0x10010000`, a literal word with count field 0, and the word behind
it is the pixel `0xF0000000`: a reader of the stream meets it as the second control word,
an end-of-image word that is not the last word stored. -/
theorem payload_size_wraps :
    (oif_compress (header_of 32768 32768) (fun i => i % 2)).1.img_size = 8 ∧
      (stream (oif_compress (header_of 32768 32768) (fun i => i % 2)).2).length =
        1073741826 ∧
      (oif_compress (header_of 32768 32768) (fun i => i % 2)).1.img_size ≠
        4 * (stream (oif_compress (header_of 32768 32768) (fun i => i % 2)).2).length ∧
      (stream (oif_compress (header_of 65539 1)
        (fun p => if p < 65536 then (if p % 2 = 0 then 0xF0000000 else 1) else 7)).2).length =
        65540 ∧
      (oif_compress (header_of 65539 1)
        (fun p => if p < 65536 then (if p % 2 = 0 then 0xF0000000 else 1) else 7)).2.map
          (fun r => (r.code, r.payload.length)) =
        [(0x10010000, 65536), (0x30000003, 1), (0xF0000000, 0)] ∧
      control_word_indices
          (stream (oif_compress (header_of 65539 1)
            (fun p => if p < 65536 then (if p % 2 = 0 then 0xF0000000 else 1) else 7)).2)
          (stream (oif_compress (header_of 65539 1)
            (fun p => if p < 65536 then (if p % 2 = 0 then 0xF0000000 else 1) else 7)).2).length
          0 = [0, 1] ∧
      (stream (oif_compress (header_of 65539 1)
        (fun p => if p < 65536 then (if p % 2 = 0 then 0xF0000000 else 1) else 7)).2).getD
          1 0 = OIF_EOI_TYPE := by
  have hsz : ((header_of 32768 32768).width * (header_of 32768 32768).height) % 2 ^ 32 =
      1073741824 := by decide
  have hrec := compress_records_of_no_equal_neighbours (fun i => i % 2) 1073741824
    (by omega) (by omega) (by intro t _; simp only; omega)
  have hlen : (stream (oif_compress (header_of 32768 32768) (fun i => i % 2)).2).length =
      1073741826 := by
    rw [oif_compress_records, hsz, hrec, stream_single_literal_length]
  have himg : (oif_compress (header_of 32768 32768) (fun i => i % 2)).1.img_size = 8 := by
    rw [oif_compress_img_size, hlen]
    decide
  have hsz2 : ((header_of 65539 1).width * (header_of 65539 1).height) % 2 ^ 32 = 65539 := by
    decide
  have hlen2 := stream_literal_run_length
    (fun p => if p < 65536 then (if p % 2 = 0 then 0xF0000000 else 1) else 7) 65536 65539
  obtain ⟨tail, ht⟩ := stream_literal_run_head
    (fun p => if p < 65536 then (if p % 2 = 0 then 0xF0000000 else 1) else 7) 65536 65539
    (by decide)
  have e0 : OIF_UNCOMPR_TYPE ||| 65536 = 0x10010000 := by decide
  rw [e0] at ht
  replace ht : stream
      [literal_before_run
          (fun p => if p < 65536 then (if p % 2 = 0 then 0xF0000000 else 1) else 7) 0 65536,
        run_record
          (fun p => if p < 65536 then (if p % 2 = 0 then 0xF0000000 else 1) else 7)
          65536 65539,
        eoi_record 65539] = 0x10010000 :: 0xF0000000 :: tail := by
    rw [ht]
    rfl
  refine ⟨himg, hlen, ?_, ?_, ?_, ?_, ?_⟩
  · rw [himg, hlen]
    decide
  · rw [oif_compress_records, hsz2, compress_records_spill, hlen2]
  · rw [oif_compress_records, hsz2, compress_records_spill]
    simp only [List.map_cons, List.map_nil, literal_before_run, run_record, eoi_record,
      Nat.sub_zero, List.length_map, List.length_range', List.length_cons, List.length_nil]
    decide
  · rw [oif_compress_records, hsz2, compress_records_spill, hlen2, ht]
    exact control_word_indices_spill _ 65538 (by simp only [List.length_cons]; omega)
      rfl rfl
  · rw [oif_compress_records, hsz2, compress_records_spill, ht]
    rfl

/-- Claim C10 as amended (payload size).  Whenever no record stored holds more than 65535
words after its control word, that is no literal record holds more than 65535 pixels, and
the number of bytes stored is below `2 ^ 32`: the header returned is the header passed in
with only `img_size` changed, `img_size` is 4 times the number of words stored, the last
word stored is the word `OIF_EOI_TYPE`, and a reader of the stream meets the control words
of the records stored, none of them of type 15, and then the end-of-image word, which is
the last word stored. -/
theorem payload_size_postcondition (header : oif_header) (pixel_data : Nat → Nat)
    (hlit : ∀ r ∈ (oif_compress header pixel_data).2, r.payload.length ≤ 65535)
    (hfit : 4 * (stream (oif_compress header pixel_data).2).length < 2 ^ 32) :
    (oif_compress header pixel_data).1 =
        { header with img_size := (oif_compress header pixel_data).1.img_size } ∧
      (oif_compress header pixel_data).1.img_size =
        4 * (stream (oif_compress header pixel_data).2).length ∧
      (stream (oif_compress header pixel_data).2).getLast? = some OIF_EOI_TYPE ∧
      ∃ body i, (oif_compress header pixel_data).2 = body ++ [eoi_record i] ∧
        (∀ r ∈ body, code_type r.code ≠ 15) ∧
        (control_word_indices (stream (oif_compress header pixel_data).2)
            (stream (oif_compress header pixel_data).2).length 0).map
            (fun q => (stream (oif_compress header pixel_data).2).getD q 0) =
          body.map (fun r => r.code) ++ [OIF_EOI_TYPE] ∧
        (control_word_indices (stream (oif_compress header pixel_data).2)
            (stream (oif_compress header pixel_data).2).length 0).getLast? =
          some ((stream (oif_compress header pixel_data).2).length - 1) := by
  refine ⟨rfl, ?_, ?_, ?_⟩
  · exact Nat.mod_eq_of_lt hfit
  · simp only [oif_compress, compress_records, stream_append]
    simp [stream, Record.words, eoi_record]
  · rw [oif_compress_records] at hlit ⊢
    exact compress_records_control_words pixel_data _ hlit

/-- Witness for the amended C10: the 6 x 1 image `[1, 2, 7, 7, 7, 4]`, stored as a literal
record of two pixels, a run record of three and a literal record of one. -/
theorem payload_size_postcondition_witness :
    (4 * (stream (oif_compress (header_of 6 1)
          (word_memory [1, 2, 7, 7, 7, 4] zero_memory)).2).length < 2 ^ 32) ∧
      (oif_compress (header_of 6 1) (word_memory [1, 2, 7, 7, 7, 4] zero_memory)).2.map
          (fun r => (r.code, r.payload.length)) =
        [(0x10000002, 2), (0x30000003, 1), (0x10000001, 1), (0xF0000000, 0)] ∧
      ((oif_compress (header_of 6 1) (word_memory [1, 2, 7, 7, 7, 4] zero_memory)).1 =
          { header_of 6 1 with
            img_size :=
              (oif_compress (header_of 6 1)
                (word_memory [1, 2, 7, 7, 7, 4] zero_memory)).1.img_size } ∧
        (oif_compress (header_of 6 1) (word_memory [1, 2, 7, 7, 7, 4] zero_memory)).1.img_size =
          4 * (stream (oif_compress (header_of 6 1)
            (word_memory [1, 2, 7, 7, 7, 4] zero_memory)).2).length ∧
        (stream (oif_compress (header_of 6 1)
          (word_memory [1, 2, 7, 7, 7, 4] zero_memory)).2).getLast? = some OIF_EOI_TYPE ∧
        ∃ body i, (oif_compress (header_of 6 1)
            (word_memory [1, 2, 7, 7, 7, 4] zero_memory)).2 = body ++ [eoi_record i] ∧
          (∀ r ∈ body, code_type r.code ≠ 15) ∧
          (control_word_indices
              (stream (oif_compress (header_of 6 1)
                (word_memory [1, 2, 7, 7, 7, 4] zero_memory)).2)
              (stream (oif_compress (header_of 6 1)
                (word_memory [1, 2, 7, 7, 7, 4] zero_memory)).2).length 0).map
              (fun q => (stream (oif_compress (header_of 6 1)
                (word_memory [1, 2, 7, 7, 7, 4] zero_memory)).2).getD q 0) =
            body.map (fun r => r.code) ++ [OIF_EOI_TYPE] ∧
          (control_word_indices
              (stream (oif_compress (header_of 6 1)
                (word_memory [1, 2, 7, 7, 7, 4] zero_memory)).2)
              (stream (oif_compress (header_of 6 1)
                (word_memory [1, 2, 7, 7, 7, 4] zero_memory)).2).length 0).getLast? =
            some ((stream (oif_compress (header_of 6 1)
              (word_memory [1, 2, 7, 7, 7, 4] zero_memory)).2).length - 1)) :=
  ⟨by decide, by decide,
    payload_size_postcondition (header_of 6 1)
      (word_memory [1, 2, 7, 7, 7, 4] zero_memory) (by decide) (by decide)⟩

/-- Claim C11 (output buffer sizing) fails on the code.  For a 1 x 1 image, whatever the
pixel is, `oif_compress` stores three words, 12 bytes: a literal control word of count 1,
one pixel word and the end-of-image word, while the input buffer has 4 bytes. -/
theorem single_pixel_twelve_bytes (pixel_data : Nat → Nat) :
    (oif_compress (header_of 1 1) pixel_data).1.img_size = 12 ∧
      stream (oif_compress (header_of 1 1) pixel_data).2 =
        [0x10000001, pixel_data 1, 0xF0000000] ∧
      4 * ((header_of 1 1).width * (header_of 1 1).height) < 12 := by
  have hsz : ((header_of 1 1).width * (header_of 1 1).height) % 2 ^ 32 = 1 := by decide
  have hrec := compress_records_of_no_equal_neighbours pixel_data 1 (by omega) (by omega)
    (by intro t ht; omega)
  refine ⟨?_, ?_, by decide⟩
  · rw [oif_compress_img_size, oif_compress_records, hsz, hrec, stream_single_literal_length]
    decide
  · rw [oif_compress_records, hsz, hrec]
    simp [stream, literal_after_scan, eoi_record, Record.words, OIF_UNCOMPR_TYPE, OIF_EOI_TYPE]

/-- Claim C12 (header initialisation).  For every header, width and height,
`oif_init_header` sets `magic` to `0x4F494620`, `version` to 1, `sub_version` to 0, `width`
and `height` to the arguments, `id` to 0 and the eight reserved words to 0, and leaves
`img_size` and `uncompressed` as they were.  It is a total function. -/
theorem oif_init_header_fields (header : oif_header) (width height : Nat) :
    (oif_init_header header width height).magic = 0x4F494620 ∧
      (oif_init_header header width height).version = 1 ∧
      (oif_init_header header width height).sub_version = 0 ∧
      (oif_init_header header width height).width = width ∧
      (oif_init_header header width height).height = height ∧
      (oif_init_header header width height).id = 0 ∧
      (oif_init_header header width height).reserved = [0, 0, 0, 0, 0, 0, 0, 0] ∧
      (oif_init_header header width height).img_size = header.img_size ∧
      (oif_init_header header width height).uncompressed = header.uncompressed :=
  ⟨rfl, rfl, rfl, rfl, rfl, rfl, rfl, rfl, rfl⟩

/-- Claim C13 (literal-with-start-line addressing) fails on the code.  In a 3 x 2 image of
zero pixels, the stream `0x20010002, 0x11111111, 0x22222222, 0xF0000000` (start line 1,
count 2) is decoded with return value 0, but the two stores go to the byte offsets 3 and 7,
not to the pixels 3 and 4 (byte offsets 12 and 16): the destination cursor is set to
`img_data + line * width` bytes.  Pixels 0, 1 and 2 are overwritten in part, pixels 3 and
4 keep the value 0. -/
theorem literal_start_line_byte_offset :
    (oif_uncompress { header_of 3 2 with img_size := 16 }
        (word_memory [0x20010002, 0x11111111, 0x22222222, 0xF0000000] zero_memory)
        (pixel_memory [0, 0, 0, 0, 0, 0])).map
        (fun r => (r.ret, r.st.writes, pixels r.st.img 6)) =
      some (0, [7, 3], [0x11000000, 0x22111111, 0x00222222, 0, 0, 0]) := by
  decide

/-- Counterexample to claim C14 as stated.  In a 300 x 300 image, start line 0 and count
65536 give the control word `0x40010000`, whose count field is 0 and whose line field is
1: the decoder returns 0 and stores nothing, pixel 0 is not set to the value 7.  In a
65536 x 65536 image `width * height` is 0 as an `unsigned int`: start line 0 and count 1
make the decoder return `OIF_ERR_DST_OVERRUN`. -/
theorem run_start_line_counterexample :
    (0 * (header_of 300 300).width + 65536 ≤
        (header_of 300 300).width * (header_of 300 300).height) ∧
      (oif_uncompress { header_of 300 300 with img_size := 12 }
        (word_memory [(OIF_RLE_WSL_TYPE ||| (0 <<< 16)) ||| 65536, 7, OIF_EOI_TYPE]
          zero_memory) zero_memory).map
        (fun r => (r.ret, r.st.writes, load32 r.st.img 0)) = some (0, [], 0) ∧
      (0 * (header_of 65536 65536).width + 1 ≤
        (header_of 65536 65536).width * (header_of 65536 65536).height) ∧
      (oif_uncompress { header_of 65536 65536 with img_size := 12 }
        (word_memory [(OIF_RLE_WSL_TYPE ||| (0 <<< 16)) ||| 1, 7, OIF_EOI_TYPE]
          zero_memory) zero_memory).map (fun r => r.ret) = some OIF_ERR_DST_OVERRUN := by
  refine ⟨by decide, by decide, by decide, by decide⟩

/-- Claim C14 as amended (run-with-start-line addressing).  For a header whose
`width * height` fits an `unsigned int`, a start line `L < 4096`, a count `c < 65536` and a
32-bit value `v` with `L * width + c ≤ width * height`, and `img_size` of at least the 12
bytes of the stream: decoding `0x40000000 | L << 16 | c, v, 0xF0000000` returns 0, the
pixels `L * width` to `L * width + c - 1` are `v` afterwards, and every byte outside them
is as it was. -/
theorem run_start_line (header : oif_header) (compr_data img_data : Nat → Nat)
    (L c v : Nat) (hsize : header.width * header.height < 2 ^ 32)
    (hL : L < 4096) (hc : c < 65536) (hv : v < 2 ^ 32)
    (hfit : L * header.width + c ≤ header.width * header.height)
    (himg : 12 ≤ header.img_size)
    (h0 : compr_data 0 = (OIF_RLE_WSL_TYPE ||| (L <<< 16)) ||| c)
    (h1 : compr_data 1 = v) (h2 : compr_data 2 = OIF_EOI_TYPE) :
    ∃ r, oif_uncompress header compr_data img_data = some r ∧ r.ret = 0 ∧
      (∀ p, L * header.width ≤ p → p < L * header.width + c →
        load32 r.st.img (4 * p) = v) ∧
      (∀ a, (a < 4 * (L * header.width) ∨ 4 * (L * header.width + c) ≤ a) →
        r.st.img a = img_data a) := by
  obtain ⟨hk, hline, hcount⟩ := run_wsl_word_fields L c hL hc
  rw [← h0] at hk hline hcount
  have hmod : (header.width * header.height) % 2 ^ 32 = header.width * header.height :=
    Nat.mod_eq_of_lt hsize
  have hlw : (L * header.width) % 2 ^ 32 = L * header.width :=
    Nat.mod_eq_of_lt (by omega)
  obtain ⟨m, hm⟩ : ∃ m, header.img_size = m + 1 := ⟨header.img_size - 1, by omega⟩
  have hrec := decode_record_run_wsl header compr_data
    (4 * ((header.width * header.height) % 2 ^ 32)) header.img_size (compr_data 0)
    { curr_code := 1, curr_pixel := 0, img := img_data, reads := [0], writes := [] }
    hk (by rw [hline, hcount, hlw, hmod]; omega) (by simp only; omega)
  rw [hline, hcount, hlw] at hrec
  unfold oif_uncompress
  dsimp only
  rw [uncompress_loop_pass _ _ _ _ _ _ _ _ (by rw [hk]; decide) hrec
    (by rw [fill_pixels_curr_code]; simp only; omega)]
  rw [fill_pixels_curr_code]
  simp only
  rw [h2, hm, uncompress_loop_eoi _ _ _ _ _ _ _ (by decide)]
  refine ⟨_, rfl, rfl, ?_, ?_⟩
  · intro p hp1 hp2
    simp only [fill_pixels_img_eq, h1]
    have e : 4 * p = 4 * (L * header.width) + 4 * (p - L * header.width) := by omega
    rw [e, load32_write_words _ _ _ _ (by rw [List.length_replicate]; omega)]
    rw [List.getD_eq_getElem _ _ (by rw [List.length_replicate]; omega), List.getElem_replicate]
    exact Nat.mod_eq_of_lt hv
  · intro a ha
    simp only [fill_pixels_img_eq]
    exact write_words_of_outside _ _ _ _ (by rw [List.length_replicate]; omega)

/-- Witness for the amended C14: line 1 of a 3 x 2 image, 2 pixels of value 7. -/
theorem run_start_line_witness :
    ((header_of 3 2).width * (header_of 3 2).height < 2 ^ 32) ∧
      (1 * (header_of 3 2).width + 2 ≤ (header_of 3 2).width * (header_of 3 2).height) ∧
      ∃ r, oif_uncompress { header_of 3 2 with img_size := 12 }
          (word_memory [(OIF_RLE_WSL_TYPE ||| (1 <<< 16)) ||| 2, 7, OIF_EOI_TYPE] zero_memory)
          (pixel_memory [9, 9, 9, 9, 9, 9]) = some r ∧ r.ret = 0 ∧
        (∀ p, 1 * (header_of 3 2).width ≤ p → p < 1 * (header_of 3 2).width + 2 →
          load32 r.st.img (4 * p) = 7) ∧
        (∀ a, (a < 4 * (1 * (header_of 3 2).width) ∨
            4 * (1 * (header_of 3 2).width + 2) ≤ a) →
          r.st.img a = pixel_memory [9, 9, 9, 9, 9, 9] a) :=
  ⟨by decide, by decide,
    run_start_line { header_of 3 2 with img_size := 12 }
      (word_memory [(OIF_RLE_WSL_TYPE ||| (1 <<< 16)) ||| 2, 7, OIF_EOI_TYPE] zero_memory)
      (pixel_memory [9, 9, 9, 9, 9, 9]) 1 2 7 (by decide) (by decide) (by decide)
      (by decide) (by decide) (by decide) (by decide) (by decide) (by decide)⟩

/-- Counterexample to claim C15 as stated.  In a 65536 x 65536 image `width * height` is 0
as an `unsigned int`: the stream of one run record of count 1, with `img_size` its 12
bytes, makes the decoder return `OIF_ERR_DST_OVERRUN`. -/
theorem decode_data_records_counterexample :
    (([DataRecord.run 1 7].map DataRecord.count).sum ≤
        (header_of 65536 65536).width * (header_of 65536 65536).height) ∧
      4 * (serialise_records [DataRecord.run 1 7]).length = 12 ∧
      (oif_uncompress { header_of 65536 65536 with img_size := 12 }
        (word_memory (serialise_records [DataRecord.run 1 7]) zero_memory)
        zero_memory).map (fun r => r.ret) = some OIF_ERR_DST_OVERRUN := by
  refine ⟨by decide, by decide, by decide⟩

/-- Claim C15 as amended (decoder semantics on well-formed streams).  For a header whose
`width * height` fits an `unsigned int` and a list of literal and run records of 32-bit
pixel words, each of count at most 65535, whose counts add up to `T ≤ width * height`:
decoding their words followed by the end-of-image word, with `img_size` the byte length
of that stream, returns 0; the first `T` pixels of the destination are the pixels the
records stand for, in order, and every byte from pixel `T` on is as it was. -/
theorem decode_data_records (header : oif_header) (rest img_data : Nat → Nat)
    (rs : List DataRecord) (hsize : header.width * header.height < 2 ^ 32)
    (hcount : ∀ r ∈ rs, r.count ≤ 65535)
    (hpix : ∀ v ∈ expand_records rs, v < 2 ^ 32)
    (hT : (rs.map DataRecord.count).sum ≤ header.width * header.height)
    (himg : header.img_size = 4 * (serialise_records rs).length) :
    ∃ r, oif_uncompress header (word_memory (serialise_records rs) rest) img_data = some r ∧
      r.ret = 0 ∧
      pixels r.st.img (rs.map DataRecord.count).sum = expand_records rs ∧
      ∀ a, 4 * (rs.map DataRecord.count).sum ≤ a → r.st.img a = img_data a := by
  have hlen := serialise_records_length_pos rs
  have hstored : ∀ i, i < (serialise_records rs).length →
      word_memory (serialise_records rs) rest (0 + i) = (serialise_records rs).getD i 0 := by
    intro i hi
    rw [Nat.zero_add]
    unfold word_memory
    rw [if_pos hi]
  obtain ⟨r, hr, hret, himg'⟩ := uncompress_loop_data_records header
    (word_memory (serialise_records rs) rest)
    (4 * ((header.width * header.height) % 2 ^ 32)) header.img_size rs
    (header.img_size + 1) 0
    { curr_code := 1, curr_pixel := 0, img := img_data, reads := [0], writes := [] }
    hcount hstored rfl
    (by rw [expand_records_length, Nat.mod_eq_of_lt hsize]; simp only; omega)
    (by omega) (by omega)
  refine ⟨r, hr, hret, ?_, ?_⟩
  · rw [himg', ← expand_records_length]
    exact pixels_write_words _ _ hpix
  · intro a ha
    rw [himg']
    exact write_words_of_outside _ _ _ _ (by rw [expand_records_length]; simp only; omega)

/-- Witness for the amended C15: a literal record of two pixels and a run of two pixels in
a 2 x 2 image. -/
theorem decode_data_records_witness :
    ((header_of 2 2).width * (header_of 2 2).height < 2 ^ 32) ∧
      (([DataRecord.literal [1, 2], DataRecord.run 2 7].map DataRecord.count).sum ≤
        (header_of 2 2).width * (header_of 2 2).height) ∧
      ∃ r, oif_uncompress { header_of 2 2 with img_size := 24 }
          (word_memory (serialise_records [DataRecord.literal [1, 2], DataRecord.run 2 7])
            zero_memory)
          (pixel_memory [9, 9, 9, 9]) = some r ∧
        r.ret = 0 ∧
        pixels r.st.img ([DataRecord.literal [1, 2], DataRecord.run 2 7].map
          DataRecord.count).sum =
          expand_records [DataRecord.literal [1, 2], DataRecord.run 2 7] ∧
        ∀ a, 4 * ([DataRecord.literal [1, 2], DataRecord.run 2 7].map
            DataRecord.count).sum ≤ a →
          r.st.img a = pixel_memory [9, 9, 9, 9] a :=
  ⟨by decide, by decide,
    decode_data_records { header_of 2 2 with img_size := 24 } zero_memory
      (pixel_memory [9, 9, 9, 9]) [DataRecord.literal [1, 2], DataRecord.run 2 7]
      (by decide) (by decide) (by decide) (by decide) (by decide)⟩

/-- Claim C16 (trailing literal flush) fails on the code.  For the 5 x 1 image
`[7, 7, 7, 1, 2]` the scan ends with the pending literal span `[3, 5)`, and the literal
record stored for it is `0x10000002, g, g`, where `g` is the word at index 5, behind the
pixel buffer, not `0x10000002, 1, 2`.  For the image `[1, 2, 7, 7, 7]` the same span,
flushed before the run, is stored as `0x10000002, 1, 2`. -/
theorem trailing_literal_flush (g : Nat) :
    (oif_compress (header_of 5 1) (word_memory [7, 7, 7, 1, 2] (fun _ => g))).2.map
        Record.words = [[0x30000003, 7], [0x10000002, g, g], [0xF0000000]] ∧
      (oif_compress (header_of 5 1) (word_memory [1, 2, 7, 7, 7] (fun _ => g))).2.map
        Record.words = [[0x10000002, 1, 2], [0x30000003, 7], [0xF0000000]] := by
  have hsz : ((header_of 5 1).width * (header_of 5 1).height) % 2 ^ 32 = 5 := by decide
  constructor
  · have s0 : scan (word_memory [7, 7, 7, 1, 2] (fun _ => g)) 5 0 32768 (0 + 1) = 3 := by
      apply scan_eq
      · omega
      · omega
      · intro l h1 h2
        have : l = 1 ∨ l = 2 := by omega
        rcases this with h | h <;> subst h <;> simp [word_memory]
      · simp [word_memory]
    have s3 : ¬ scan (word_memory [7, 7, 7, 1, 2] (fun _ => g)) 5 3 32768 (3 + 1) >
        (3 + 2) % 2 ^ 32 := by
      have := scan_le_size (word_memory [7, 7, 7, 1, 2] (fun _ => g)) 5 3 32768 (3 + 1)
        (by omega)
      have e : (3 + 2) % 2 ^ 32 = 5 := by decide
      omega
    have s4 : ¬ scan (word_memory [7, 7, 7, 1, 2] (fun _ => g)) 5 4 32768 (4 + 1) >
        (4 + 2) % 2 ^ 32 := by
      have := scan_le_size (word_memory [7, 7, 7, 1, 2] (fun _ => g)) 5 4 32768 (4 + 1)
        (by omega)
      have e : (4 + 2) % 2 ^ 32 = 6 := by decide
      omega
    have hloop : compress_loop (word_memory [7, 7, 7, 1, 2] (fun _ => g)) 5 5 0 0 =
        ([run_record (word_memory [7, 7, 7, 1, 2] (fun _ => g)) 0 3], 5, 3) := by
      rw [compress_loop_run _ 5 4 0 0 3 (by omega) s0 (by decide),
        compress_loop_skip _ 5 3 3 3 (by omega) s3,
        compress_loop_skip _ 5 2 4 3 (by omega) s4,
        compress_loop_done _ 5 2 5 3 (by omega)]
      rfl
    rw [oif_compress_records, hsz]
    unfold compress_records
    simp only [hloop]
    simp [run_record, literal_after_scan, eoi_record, Record.words, word_memory,
      OIF_RLE_TYPE, OIF_UNCOMPR_TYPE, OIF_EOI_TYPE]
  · have s0 : ¬ scan (word_memory [1, 2, 7, 7, 7] (fun _ => g)) 5 0 32768 (0 + 1) >
        (0 + 2) % 2 ^ 32 := by
      have : scan (word_memory [1, 2, 7, 7, 7] (fun _ => g)) 5 0 32768 (0 + 1) ≤ 1 := by
        apply scan_le_of_stop _ _ _ _ _ _ (Nat.le_refl _)
        simp [word_memory]
      have e : (0 + 2) % 2 ^ 32 = 2 := by decide
      omega
    have s1 : ¬ scan (word_memory [1, 2, 7, 7, 7] (fun _ => g)) 5 1 32768 (1 + 1) >
        (1 + 2) % 2 ^ 32 := by
      have : scan (word_memory [1, 2, 7, 7, 7] (fun _ => g)) 5 1 32768 (1 + 1) ≤ 2 := by
        apply scan_le_of_stop _ _ _ _ _ _ (Nat.le_refl _)
        simp [word_memory]
      have e : (1 + 2) % 2 ^ 32 = 3 := by decide
      omega
    have s2 : scan (word_memory [1, 2, 7, 7, 7] (fun _ => g)) 5 2 32768 (2 + 1) = 5 := by
      apply scan_eq
      · omega
      · omega
      · intro l h1 h2
        have : l = 3 ∨ l = 4 := by omega
        rcases this with h | h <;> subst h <;> simp [word_memory]
      · simp
    have hloop : compress_loop (word_memory [1, 2, 7, 7, 7] (fun _ => g)) 5 5 0 0 =
        ([literal_before_run (word_memory [1, 2, 7, 7, 7] (fun _ => g)) 0 2,
          run_record (word_memory [1, 2, 7, 7, 7] (fun _ => g)) 2 5], 5, 5) := by
      rw [compress_loop_skip _ 5 4 0 0 (by omega) s0,
        compress_loop_skip _ 5 3 1 0 (by omega) s1,
        compress_loop_run _ 5 2 2 0 5 (by omega) s2 (by decide),
        compress_loop_done _ 5 2 5 5 (by omega)]
      rfl
    rw [oif_compress_records, hsz]
    unfold compress_records
    simp only [hloop]
    simp [run_record, literal_before_run, eoi_record, Record.words, word_memory,
      OIF_RLE_TYPE, OIF_UNCOMPR_TYPE, OIF_EOI_TYPE, List.range']

/-- Claim C17 (counts stay within the 16-bit field) fails on the code.  For a 256 x 256
image whose pixels alternate between 0 and 1 the encoder stores one literal record that
covers all 65536 pixels; its control word is `0x10010000`: the count field, bits 15-0, is
0 and the line field, bits 27-16, is 1. -/
theorem literal_count_spills :
    (oif_compress (header_of 256 256) (fun i => i % 2)).2.map
        (fun r => (r.code, r.len, r.payload.length)) =
      [(0x10010000, 65536, 65536), (0xF0000000, 0, 0)] ∧
      code_count 0x10010000 = 0 ∧ (0x10010000 >>> 16) &&& 0x00000FFF = 1 ∧
      code_type 0x10010000 = 1 := by
  have hsz : ((header_of 256 256).width * (header_of 256 256).height) % 2 ^ 32 = 65536 := by
    decide
  have hrec := compress_records_of_no_equal_neighbours (fun i => i % 2) 65536
    (by omega) (by omega) (by intro t _; simp only; omega)
  refine ⟨?_, by decide, by decide, by decide⟩
  rw [oif_compress_records, hsz, hrec, single_literal_fields]
  have e : OIF_UNCOMPR_TYPE ||| 65536 = 0x10010000 := by decide
  rw [e]
  rfl

/-- Counterexample to claim C18 as stated: 65535 pixels of value 5 are stored as two run
records, of 32768 and of 32767 pixels, and the end-of-image word, 20 bytes, not as one run
record of 65535 pixels in 12 bytes. -/
theorem run_length_cap_counterexample :
    stream (oif_compress (header_of 65535 1) (fun _ => 5)).2 =
        [0x30008000, 5, 0x30007FFF, 5, 0xF0000000] ∧
      (oif_compress (header_of 65535 1) (fun _ => 5)).1.img_size = 20 := by
  have hsz : ((header_of 65535 1).width * (header_of 65535 1).height) % 2 ^ 32 = 65535 := by
    decide
  have hrec := compress_records_uniform_65535 (fun _ => 5) 5 (fun _ _ => rfl)
  have hs : stream (oif_compress (header_of 65535 1) (fun _ => 5)).2 =
      [0x30008000, 5, 0x30007FFF, 5, 0xF0000000] := by
    rw [oif_compress_records, hsz, hrec]
    decide
  refine ⟨hs, ?_⟩
  rw [oif_compress_img_size, hs]
  decide

/-- Claim C18 as amended (run length cap).  The lookahead of the encoder extends a run to
at most 32768 pixels, so a buffer of exactly 65535 equal pixels `X` is stored as two run
records, of count 32768 and of count 32767, both with value `X`, and the end-of-image
word: 5 words, 20 bytes. -/
theorem run_length_cap (header : oif_header) (pixel_data : Nat → Nat) (X : Nat)
    (hsize : header.width * header.height = 65535)
    (hX : ∀ l, l < 65535 → pixel_data l = X) :
    (∀ size i, scan pixel_data size i 32768 (i + 1) - i ≤ 32768) ∧
      (oif_compress header pixel_data).2.map
          (fun r => (code_type r.code, code_count r.code, r.payload)) =
        [(3, 32768, [X]), (3, 32767, [X]), (15, 0, [])] ∧
      stream (oif_compress header pixel_data).2 =
        [0x30008000, X, 0x30007FFF, X, 0xF0000000] ∧
      (oif_compress header pixel_data).1.img_size = 20 := by
  have hsz : (header.width * header.height) % 2 ^ 32 = 65535 := by
    rw [hsize]; decide
  have hrec := compress_records_uniform_65535 pixel_data X hX
  have hs : stream (oif_compress header pixel_data).2 =
      [0x30008000, X, 0x30007FFF, X, 0xF0000000] := by
    rw [oif_compress_records, hsz, hrec]
    simp only [stream, List.flatMap_cons, List.flatMap_nil, Record.words, run_record,
      eoi_record, hX 0 (by omega), hX 32768 (by omega), List.cons_append, List.nil_append,
      List.append_nil]
    have e1 : OIF_RLE_TYPE ||| (32768 - 0) = 0x30008000 := by decide
    have e2 : OIF_RLE_TYPE ||| (65535 - 32768) = 0x30007FFF := by decide
    rw [e1, e2]
    rfl
  refine ⟨fun size i => scan_sub_le pixel_data size i 32768 (i + 1) (by omega) (by omega),
    ?_, hs, ?_⟩
  · rw [oif_compress_records, hsz, hrec]
    simp only [List.map_cons, List.map_nil, run_record, eoi_record, hX 0 (by omega),
      hX 32768 (by omega)]
    rw [code_type_rle _ (by omega), code_count_rle _ (by omega),
      code_type_rle _ (by omega), code_count_rle _ (by omega), code_type_eoi, code_count_eoi]
  · rw [oif_compress_img_size, hs]
    rfl

/-- Witness for the amended C18: 65535 pixels of value 5. -/
theorem run_length_cap_witness :
    ((header_of 65535 1).width * (header_of 65535 1).height = 65535) ∧
      (∀ size i, scan (fun _ => 5) size i 32768 (i + 1) - i ≤ 32768) ∧
      (oif_compress (header_of 65535 1) (fun _ => 5)).2.map
          (fun r => (code_type r.code, code_count r.code, r.payload)) =
        [(3, 32768, [5]), (3, 32767, [5]), (15, 0, [])] ∧
      stream (oif_compress (header_of 65535 1) (fun _ => 5)).2 =
        [0x30008000, 5, 0x30007FFF, 5, 0xF0000000] ∧
      (oif_compress (header_of 65535 1) (fun _ => 5)).1.img_size = 20 :=
  ⟨by decide, run_length_cap (header_of 65535 1) (fun _ => 5) 5 (by decide) (fun _ _ => rfl)⟩

/-- Claim C19 (immediate failure without partial writes).  When `oif_uncompress` returns
an error, some number `k` of passes of the loop went through, and then either the
`switch` returned the error for the next record, with the destination memory and the list
of stores as they were when that record began, or the record was applied in full and the
error is the source overrun found when the control word behind it was loaded, with the
destination memory and the list of stores as that record left them.  In both cases the
destination holds the stores of the records before the failing one and no other. -/
theorem error_without_partial_record (header : oif_header) (compr_data img_data : Nat → Nat)
    (r : DecResult) (h : oif_uncompress header compr_data img_data = some r)
    (herr : r.ret ≠ 0) :
    ∃ k code1 st1,
      after_passes header compr_data (4 * ((header.width * header.height) % 2 ^ 32))
          header.img_size k (compr_data 0)
          { curr_code := 1, curr_pixel := 0, img := img_data, reads := [0], writes := [] } =
        some (code1, st1) ∧
      code1 &&& 0xF0000000 ≠ OIF_EOI_TYPE ∧
      ((∃ st2, decode_record header compr_data
            (4 * ((header.width * header.height) % 2 ^ 32)) header.img_size code1 st1 =
            (some r.ret, st2) ∧
          r.st.img = st1.img ∧ r.st.writes = st1.writes) ∨
        (∃ st2, decode_record header compr_data
            (4 * ((header.width * header.height) % 2 ^ 32)) header.img_size code1 st1 =
            (none, st2) ∧
          st2.curr_code + 1 > header.img_size ∧ r.ret = OIF_ERR_SRC_OVERRUN ∧
          r.st.img = st2.img ∧ r.st.writes = st2.writes)) :=
  uncompress_loop_error header compr_data _ _ _ _ _ r h herr

/-- Witness for C19: in a 2 x 1 image the run record `0x30000001, 7` is applied, the
literal record of count 5 behind it fails with `OIF_ERR_DST_OVERRUN`. -/
theorem error_without_partial_record_witness :
    ∃ r, oif_uncompress { header_of 2 1 with img_size := 20 }
        (word_memory [0x30000001, 7, 0x10000005, 1, 2] zero_memory)
        (pixel_memory [9, 9]) = some r ∧
      r.ret ≠ 0 ∧
      ∃ k code1 st1,
        after_passes { header_of 2 1 with img_size := 20 }
            (word_memory [0x30000001, 7, 0x10000005, 1, 2] zero_memory)
            (4 * (({ header_of 2 1 with img_size := 20 }.width *
              { header_of 2 1 with img_size := 20 }.height) % 2 ^ 32))
            { header_of 2 1 with img_size := 20 }.img_size k
            (word_memory [0x30000001, 7, 0x10000005, 1, 2] zero_memory 0)
            { curr_code := 1, curr_pixel := 0, img := pixel_memory [9, 9], reads := [0],
              writes := [] } =
          some (code1, st1) ∧
        code1 &&& 0xF0000000 ≠ OIF_EOI_TYPE ∧
        ((∃ st2, decode_record { header_of 2 1 with img_size := 20 }
              (word_memory [0x30000001, 7, 0x10000005, 1, 2] zero_memory)
              (4 * (({ header_of 2 1 with img_size := 20 }.width *
                { header_of 2 1 with img_size := 20 }.height) % 2 ^ 32))
              { header_of 2 1 with img_size := 20 }.img_size code1 st1 =
              (some r.ret, st2) ∧
            r.st.img = st1.img ∧ r.st.writes = st1.writes) ∨
          (∃ st2, decode_record { header_of 2 1 with img_size := 20 }
              (word_memory [0x30000001, 7, 0x10000005, 1, 2] zero_memory)
              (4 * (({ header_of 2 1 with img_size := 20 }.width *
                { header_of 2 1 with img_size := 20 }.height) % 2 ^ 32))
              { header_of 2 1 with img_size := 20 }.img_size code1 st1 =
              (none, st2) ∧
            st2.curr_code + 1 > { header_of 2 1 with img_size := 20 }.img_size ∧
            r.ret = OIF_ERR_SRC_OVERRUN ∧
            r.st.img = st2.img ∧ r.st.writes = st2.writes)) := by
  obtain ⟨r, hr⟩ := oif_uncompress_returns { header_of 2 1 with img_size := 20 }
    (word_memory [0x30000001, 7, 0x10000005, 1, 2] zero_memory) (pixel_memory [9, 9])
  have hret : (oif_uncompress { header_of 2 1 with img_size := 20 }
      (word_memory [0x30000001, 7, 0x10000005, 1, 2] zero_memory)
      (pixel_memory [9, 9])).map (fun r => r.ret) = some OIF_ERR_DST_OVERRUN := by decide
  rw [hr] at hret
  simp only [Option.map_some', Option.some.injEq] at hret
  have herr : r.ret ≠ 0 := by rw [hret]; decide
  exact ⟨r, hr, herr, error_without_partial_record _ _ _ r hr herr⟩

/-- Claim C20 (worst-case encoded size) holds for `N = width * height < 2 ^ 32 - 1` and
fails on the code for `N = 2 ^ 32 - 1`.  When `N + 1 < 2 ^ 32`, `oif_compress` stores at
most `N + 2` words and `img_size` is at most `4 * (N + 2)`; a 1 x 1 image is stored in 3
words, 12 bytes.  For a 65535 x 65537 image, `N = 2 ^ 32 - 1`, whose pixels alternate
between 0 and 1, `i + 2` wraps to 0 at the last pixel, which is stored as a run record of
count 1 behind a literal record of `N - 1` pixels: `N + 3` words are stored. -/
theorem worst_case_size :
    (∀ (header : oif_header) (pixel_data : Nat → Nat),
        header.width * header.height + 1 < 2 ^ 32 →
        (stream (oif_compress header pixel_data).2).length ≤
            header.width * header.height + 2 ∧
          (oif_compress header pixel_data).1.img_size ≤
            4 * (header.width * header.height + 2)) ∧
      (∀ pixel_data : Nat → Nat,
        (stream (oif_compress (header_of 1 1) pixel_data).2).length = 1 + 2 ∧
          (oif_compress (header_of 1 1) pixel_data).1.img_size = 4 * (1 + 2)) ∧
      ((header_of 65535 65537).width * (header_of 65535 65537).height = 4294967295 ∧
        (oif_compress (header_of 65535 65537) (fun i => i % 2)).2.map
            (fun r => (r.code, r.len, r.payload.length)) =
          [(0xFFFFFFFE, 4294967294, 4294967294), (0x30000001, 1, 1), (0xF0000000, 0, 0)] ∧
        (stream (oif_compress (header_of 65535 65537) (fun i => i % 2)).2).length =
          4294967295 + 3) := by
  refine ⟨fun header pixel_data hlt => stream_length_le header pixel_data hlt, ?_, ?_⟩
  · intro pixel_data
    have hsz : ((header_of 1 1).width * (header_of 1 1).height) % 2 ^ 32 = 1 := by decide
    have hrec := compress_records_of_no_equal_neighbours pixel_data 1 (by omega) (by omega)
      (by intro t ht; omega)
    have hlen : (stream (oif_compress (header_of 1 1) pixel_data).2).length = 1 + 2 := by
      rw [oif_compress_records, hsz, hrec, stream_single_literal_length]
    refine ⟨hlen, ?_⟩
    rw [oif_compress_img_size, hlen]
    decide
  · have hsz : ((header_of 65535 65537).width * (header_of 65535 65537).height) % 2 ^ 32 =
        4294967295 := by decide
    have hrec := compress_records_wrap (fun i => i % 2) (by intro t; simp only; omega)
    refine ⟨by decide, ?_, ?_⟩
    · rw [oif_compress_records, hsz, hrec, literal_run_fields]
      have e1 : OIF_UNCOMPR_TYPE ||| 4294967294 = 0xFFFFFFFE := by decide
      have e2 : OIF_RLE_TYPE ||| (4294967295 - 4294967294) = 0x30000001 := by decide
      have e3 : 4294967295 - 4294967294 = 1 := by decide
      rw [e1, e2, e3]
      rfl
    · rw [oif_compress_records, hsz, hrec, stream_literal_run_length]

/-- Counterexample to claim C21 as stated.  In the 49152 x 32768 image whose pixel `p` has
the value `p / 3`, `N = 3 * 2 ^ 29 < 2 ^ 32`, the loop of the encoder is left with `k = i`
and no literal record is stored at all; `2 ^ 30 + 1` words are stored, `2 ^ 32 + 4` bytes,
so `img_size` is 4.  The decoder applies the first two run records and returns
`OIF_ERR_SRC_OVERRUN`. -/
theorem restricted_roundtrip_counterexample :
    (header_of 49152 32768).width * (header_of 49152 32768).height < 2 ^ 32 ∧
      (∀ p, p < (header_of 49152 32768).width * (header_of 49152 32768).height →
        p / 3 < 2 ^ 32) ∧
      (compress_loop (fun p => p / 3)
          ((header_of 49152 32768).width * (header_of 49152 32768).height)
          ((header_of 49152 32768).width * (header_of 49152 32768).height) 0 0).2.2 =
        (compress_loop (fun p => p / 3)
          ((header_of 49152 32768).width * (header_of 49152 32768).height)
          ((header_of 49152 32768).width * (header_of 49152 32768).height) 0 0).2.1 ∧
      (∀ a b, literal_before_run (fun p => p / 3) a b ∈
        (compress_loop (fun p => p / 3)
          ((header_of 49152 32768).width * (header_of 49152 32768).height)
          ((header_of 49152 32768).width * (header_of 49152 32768).height) 0 0).1 →
        b - a < 65536) ∧
      (stream (oif_compress (header_of 49152 32768) (fun p => p / 3)).2).length =
        1073741825 ∧
      (oif_compress (header_of 49152 32768) (fun p => p / 3)).1.img_size = 4 ∧
      ∃ r, oif_uncompress (oif_compress (header_of 49152 32768) (fun p => p / 3)).1
          (word_memory (stream (oif_compress (header_of 49152 32768) (fun p => p / 3)).2)
            zero_memory)
          zero_memory = some r ∧
        r.ret = OIF_ERR_SRC_OVERRUN := by
  have hN : (header_of 49152 32768).width * (header_of 49152 32768).height =
      3 * 536870912 := by decide
  have hsz : ((header_of 49152 32768).width * (header_of 49152 32768).height) % 2 ^ 32 =
      3 * 536870912 := by decide
  obtain ⟨h1, h2, h3, tail, h4⟩ := triples_records 536870912 (by decide) (by decide)
  have hlen : (stream (oif_compress (header_of 49152 32768) (fun p => p / 3)).2).length =
      1073741825 := by
    rw [oif_compress_records, hsz, h3]
  have hs : (oif_compress (header_of 49152 32768) (fun p => p / 3)).1.img_size = 4 := by
    rw [oif_compress_img_size, hlen]
    decide
  refine ⟨by decide, ?_, ?_, ?_, hlen, hs, ?_⟩
  · intro p hp
    rw [hN] at hp
    omega
  · rw [hN]
    exact h1
  · rw [hN]
    exact h2
  · obtain ⟨e0, e2⟩ := word_memory_head (OIF_RLE_TYPE ||| 3) 0 (OIF_RLE_TYPE ||| 3) 1 tail
      zero_memory
    apply uncompress_two_runs_overrun
    · rw [oif_compress_records, hsz, h4]
      exact e0
    · rw [oif_compress_records, hsz, h4]
      exact e2
    · exact hs
    · have hw : (oif_compress (header_of 49152 32768) (fun p => p / 3)).1.width =
          (header_of 49152 32768).width := rfl
      have hh : (oif_compress (header_of 49152 32768) (fun p => p / 3)).1.height =
          (header_of 49152 32768).height := rfl
      rw [hw, hh, hsz]
      decide

/-- Claim C21 as amended (restricted round trip).  For a header with
`N = width * height < 2 ^ 32` and a buffer of `N` 32-bit pixel words for which the loop of
the encoder is left with `k = i`, every literal span flushed before a run is shorter than
65536 pixels, and the words stored take less than `2 ^ 32` bytes: `oif_uncompress` on the
header and the words `oif_compress` produced returns 0, and the first `N` pixels of the
destination are the buffer. -/
theorem restricted_roundtrip (header : oif_header) (pixel_data rest img_data : Nat → Nat)
    (hsize : header.width * header.height < 2 ^ 32)
    (hpix : ∀ p, p < header.width * header.height → pixel_data p < 2 ^ 32)
    (hk : (compress_loop pixel_data (header.width * header.height)
        (header.width * header.height) 0 0).2.2 =
      (compress_loop pixel_data (header.width * header.height)
        (header.width * header.height) 0 0).2.1)
    (hlit : ∀ a b, literal_before_run pixel_data a b ∈
        (compress_loop pixel_data (header.width * header.height)
          (header.width * header.height) 0 0).1 → b - a < 65536)
    (hfit : 4 * (stream (oif_compress header pixel_data).2).length < 2 ^ 32) :
    ∃ r, oif_uncompress (oif_compress header pixel_data).1
        (word_memory (stream (oif_compress header pixel_data).2) rest) img_data = some r ∧
      r.ret = 0 ∧
      pixels r.st.img (header.width * header.height) =
        (List.range (header.width * header.height)).map pixel_data := by
  apply roundtrip_of_no_pending header pixel_data rest img_data hsize hpix hk hlit
  rw [oif_compress_img_size, Nat.mod_eq_of_lt hfit]
  omega

/-- Witness for the amended C21: the 5 x 1 image `[1, 2, 7, 7, 7]`, stored as a literal
record of two pixels and a run record of three. -/
theorem restricted_roundtrip_witness :
    (header_of 5 1).width * (header_of 5 1).height < 2 ^ 32 ∧
      (compress_loop (fun p => [1, 2, 7, 7, 7].getD p 0)
          ((header_of 5 1).width * (header_of 5 1).height)
          ((header_of 5 1).width * (header_of 5 1).height) 0 0).2.2 =
        (compress_loop (fun p => [1, 2, 7, 7, 7].getD p 0)
          ((header_of 5 1).width * (header_of 5 1).height)
          ((header_of 5 1).width * (header_of 5 1).height) 0 0).2.1 ∧
      stream (oif_compress (header_of 5 1) (fun p => [1, 2, 7, 7, 7].getD p 0)).2 =
        [0x10000002, 1, 2, 0x30000003, 7, 0xF0000000] ∧
      ∃ r, oif_uncompress (oif_compress (header_of 5 1) (fun p => [1, 2, 7, 7, 7].getD p 0)).1
          (word_memory
            (stream (oif_compress (header_of 5 1) (fun p => [1, 2, 7, 7, 7].getD p 0)).2)
            zero_memory)
          (pixel_memory [9, 9, 9, 9, 9]) = some r ∧
        r.ret = 0 ∧
        pixels r.st.img ((header_of 5 1).width * (header_of 5 1).height) =
          (List.range ((header_of 5 1).width * (header_of 5 1).height)).map
            (fun p => [1, 2, 7, 7, 7].getD p 0) :=
  ⟨by decide, by decide, by decide,
    restricted_roundtrip (header_of 5 1) (fun p => [1, 2, 7, 7, 7].getD p 0) zero_memory
      (pixel_memory [9, 9, 9, 9, 9]) (by decide) (by decide) (by decide)
      (by
        have hrecs : (compress_loop (fun p => [1, 2, 7, 7, 7].getD p 0)
            ((header_of 5 1).width * (header_of 5 1).height)
            ((header_of 5 1).width * (header_of 5 1).height) 0 0).1 =
            [literal_before_run (fun p => [1, 2, 7, 7, 7].getD p 0) 0 2,
              run_record (fun p => [1, 2, 7, 7, 7].getD p 0) 2 5] := by decide
        intro a b hab
        rw [hrecs] at hab
        simp only [List.mem_cons, List.mem_singleton, List.not_mem_nil, or_false] at hab
        rcases hab with hab | hab
        all_goals
          have := congrArg (fun r => r.payload.length) hab
          simp only [run_record, literal_before_run, List.length_cons, List.length_nil,
            List.length_map, List.length_range'] at this
          omega)
      (by decide)⟩

/-- Claim C22 (decoder termination on untrusted input).  For every header, every source
memory and every destination memory `oif_uncompress` returns, and allowing the loop more
than `img_size + 1` evaluations of its condition does not change what it returns.  A pass
of the loop that goes through, from any state, moves the source cursor forward by at
least one word and leaves it at most `img_size` words behind `compr_data`; a pass whose
record is applied and after which the cursor is further on returns
`OIF_ERR_SRC_OVERRUN`.  So when `k` passes went through, the cursor is
at least `k + 1`, and `k + 1` is at most `img_size` or 1: the number of records processed
depends on `img_size` alone, whatever the counts in the stream are. -/
theorem oif_uncompress_halts (header : oif_header) (compr_data img_data : Nat → Nat) :
    (∃ r, oif_uncompress header compr_data img_data = some r ∧
      ∀ fuel, header.img_size + 1 ≤ fuel →
        uncompress_loop header compr_data (4 * ((header.width * header.height) % 2 ^ 32))
          header.img_size fuel (compr_data 0)
          { curr_code := 1, curr_pixel := 0, img := img_data, reads := [0], writes := [] } =
        some r) ∧
      (∀ (code : Nat) (st : DecState) (code1 : Nat) (st1 : DecState),
        after_passes header compr_data (4 * ((header.width * header.height) % 2 ^ 32))
            header.img_size 1 code st = some (code1, st1) →
          st.curr_code + 1 ≤ st1.curr_code ∧ st1.curr_code ≤ header.img_size) ∧
      (∀ (fuel code : Nat) (st st1 : DecState),
        code &&& 0xF0000000 ≠ OIF_EOI_TYPE →
        decode_record header compr_data (4 * ((header.width * header.height) % 2 ^ 32))
            header.img_size code st = (none, st1) →
        st1.curr_code + 1 > header.img_size →
          (uncompress_loop header compr_data (4 * ((header.width * header.height) % 2 ^ 32))
            header.img_size (fuel + 1) code st).map (fun r => r.ret) =
            some OIF_ERR_SRC_OVERRUN) ∧
      (∀ (k code1 : Nat) (st1 : DecState),
        after_passes header compr_data (4 * ((header.width * header.height) % 2 ^ 32))
            header.img_size k (compr_data 0)
            { curr_code := 1, curr_pixel := 0, img := img_data, reads := [0], writes := [] } =
          some (code1, st1) →
          k + 1 ≤ st1.curr_code ∧ k + 1 ≤ max header.img_size 1) := by
  refine ⟨?_, ?_, ?_, ?_⟩
  · obtain ⟨r, hr⟩ := oif_uncompress_returns header compr_data img_data
    exact ⟨r, hr, fun fuel hf => uncompress_loop_fuel _ _ _ _ _ fuel _ _ r hr hf⟩
  · intro code st code1 st1 h
    obtain ⟨h1, h2, -⟩ := after_passes_one _ _ _ _ _ _ _ _ h
    exact ⟨h1, h2⟩
  · intro fuel code st st1 hc hrec hover
    rw [uncompress_loop, if_pos hc, hrec]
    dsimp only
    rw [if_pos hover]
    rfl
  · intro k code1 st1 h
    obtain ⟨h1, h2⟩ := after_passes_cursor _ _ _ _ _ _ _ _ _ h
    simp only at h1
    refine ⟨by omega, ?_⟩
    by_cases hk : 0 < k
    · have := h2 hk
      omega
    · omega

end OIF
